import Mathlib

/-!
Verification of the diamond-types list CRDT repository.

We shallow-embed the decoder (`src/crates/diamond-types/src/list/encoding/decode_oplog.rs`),
the unicode position helpers (`src/src/unicount.rs`), the `PositionRun` splitable span
(`src/crates/diamond-types/src/list/time/positionmap.rs`) and the marker B-tree insert
(`src/src/marker_tree/root.rs`) into Lean, and prove the specification claims about them.

Conventions of the embedding:
- Rust byte buffers become `List Nat` (each element morally < 256).
- Rust strings become lists of unicode codepoints (`List Nat` with a validity predicate),
  paired with an explicit UTF-8 encoder/decoder for the byte level.
- Fallible code returns values in `DR`, which has a dedicated constructor `crash`
  modelling Rust panics (`todo!`, failed `assert!`, out-of-bounds indexing, integer
  overflow in debug builds) as distinct from `Err(...)` returns.
- Machine integers are `Nat`/`Int`; 64-bit wrapping casts are taken `% 2^64` explicitly.
- Loops are embedded as fuel-indexed structural recursions; every loop consumes at
  least one byte per iteration, so fuel `buffer length + 1` is always sufficient.
-/

namespace DT

/-- 2^64, the modulus of `usize` arithmetic. -/
def USIZE : Nat := 18446744073709551616

/-- `usize::MAX`, used by the source as the `ROOT_TIME` sentinel and as the
invalid size marker in `codepoint_size`. -/
def USIZE_MAX : Nat := USIZE - 1

/-- `ROOT_TIME` sentinel (the source sets it to `usize::MAX`). -/
def ROOT_TIME : Nat := USIZE_MAX

/-- The `ParseError` enum of `decode_oplog.rs` (payloads that carry only diagnostic
detail are dropped or simplified). -/
inductive ParseError where
  | InvalidMagic
  | UnsupportedProtocolVersion
  | InvalidChunkHeader
  | UnexpectedChunk (expected actual : Nat)
  | InvalidLength
  | UnexpectedEOF
  | InvalidUTF8
  | InvalidRemoteID
  | InvalidContent
  | ChecksumFailed
  | DataMissing
deriving DecidableEq, Repr

/-- Result of running a piece of fallible Rust code: an `Ok` value, an `Err(ParseError)`,
or a panic (`todo!`, failed assertion, out-of-bounds index, arithmetic overflow). -/
inductive DR (α : Type) where
  | ok : α → DR α
  | err : ParseError → DR α
  | crash : DR α
deriving DecidableEq, Repr

namespace DR

/-- Monadic bind: `?` propagation of errors and panics. -/
def bind : DR α → (α → DR β) → DR β
  | ok a, f => f a
  | err e, _ => err e
  | crash, _ => crash

instance : Monad DR where
  pure := ok
  bind := bind

@[simp] theorem bind_ok (a : α) (f : α → DR β) : bind (ok a) f = f a := rfl

@[simp] theorem bind_err (e : ParseError) (f : α → DR β) : bind (err e) f = err e := rfl

@[simp] theorem bind_crash (f : α → DR β) : bind crash f = crash := rfl

@[simp] theorem monad_bind (x : DR α) (f : α → DR β) : x >>= f = bind x f := rfl

@[simp] theorem monad_pure (a : α) : (pure a : DR α) = ok a := rfl

/-- `Result::is_ok`. -/
def isOk : DR α → Bool
  | ok _ => true
  | _ => false

end DR

/-! ### Integer codecs.

Modelled from the spec: the varint/zigzag codec module
(`list/encoding/varint.rs`) is not under `src/`; the spec states the integers are
unsigned LEB128 varints, signed values use zigzag, and flag bits are carried in the
low bits of the first varint of a record and stripped before use. -/

/-- Byte buffers. -/
abbrev Bytes := List Nat

/-- Modelled from the spec: LEB128 varint encoding, fuel-indexed so that it is
structurally recursive (`n / 128 < n` for `n ≥ 128`, so fuel `n` suffices). -/
def varintEncF : Nat → Nat → Bytes
  | 0, n => [n % 128]
  | fuel + 1, n => if n < 128 then [n] else (n % 128 + 128) :: varintEncF fuel (n / 128)

/-- Modelled from the spec: LEB128 varint encoding of an unsigned integer. -/
def varintEnc (n : Nat) : Bytes := varintEncF n n

/-- Modelled from the spec: LEB128 varint decoding; returns the value and the number of
bytes consumed. Reading past the end of the buffer (a truncated varint) is undefined
behaviour in the source (`decode_u*` index the slice unchecked), modelled as a crash. -/
def varintDec : Bytes → DR (Nat × Nat)
  | [] => DR.crash
  | b :: rest =>
    if b < 128 then DR.ok (b, 1)
    else match varintDec rest with
      | DR.ok (v, c) => DR.ok (b % 128 + 128 * v, c + 1)
      | DR.err e => DR.err e
      | DR.crash => DR.crash

/-- Modelled from the spec: zigzag decoding (`num_decode_zigzag_isize`). -/
def zigzagDec (n : Nat) : Int :=
  if n % 2 = 0 then (n / 2 : Nat) else -((n / 2 : Nat) : Int) - 1

/-- Modelled from the spec: zigzag encoding of a signed integer. -/
def zigzagEnc (z : Int) : Nat :=
  if 0 ≤ z then 2 * z.toNat else 2 * (-z).toNat - 1

/-- Modelled from the spec: `strip_bit_usize` / `strip_bit_usize2` — return the value
with its lowest bit stripped, and that bit. -/
def stripBit (n : Nat) : Nat × Bool := (n / 2, n % 2 = 1)

/-! ### UTF-8.

Rust `&str` values are embedded as lists of unicode codepoints; the byte level uses an
explicit UTF-8 codec. A codepoint is valid when it is a unicode scalar value. -/

/-- A unicode scalar value: below `0x110000` and not a surrogate. -/
def ValidCp (c : Nat) : Prop := c < 1114112 ∧ (c < 55296 ∨ 57343 < c)

instance (c : Nat) : Decidable (ValidCp c) := by unfold ValidCp; infer_instance

/-- UTF-8 encoding of a single codepoint. -/
def utf8EncodeCp (c : Nat) : Bytes :=
  if c < 128 then [c]
  else if c < 2048 then [192 + c / 64, 128 + c % 64]
  else if c < 65536 then [224 + c / 4096, 128 + c / 64 % 64, 128 + c % 64]
  else [240 + c / 262144, 128 + c / 4096 % 64, 128 + c / 64 % 64, 128 + c % 64]

/-- UTF-8 encoding of a string (list of codepoints). -/
def utf8Encode (s : List Nat) : Bytes := (s.map utf8EncodeCp).flatten

/-- Is `b` a UTF-8 continuation byte? -/
def utf8Cont (b : Nat) : Bool := 128 ≤ b && b < 192

/-- Strict decoding of a single UTF-8 codepoint from the head of a buffer (as
`std::str::from_utf8`): rejects bad leading bytes, bad continuation bytes, overlong
encodings, surrogates and out-of-range codepoints. Returns the codepoint and the
remaining bytes. -/
def utf8DecodeCp : Bytes → Option (Nat × Bytes)
  | [] => none
  | b :: rest =>
    if b < 128 then some (b, rest)
    else if b < 194 then none
    else if b < 224 then
      match rest with
      | b1 :: rest1 =>
        if utf8Cont b1 then some ((b - 192) * 64 + (b1 - 128), rest1) else none
      | [] => none
    else if b < 240 then
      match rest with
      | b1 :: b2 :: rest2 =>
        if utf8Cont b1 && utf8Cont b2 then
          let c := (b - 224) * 4096 + (b1 - 128) * 64 + (b2 - 128)
          if 2048 ≤ c && (c < 55296 || 57343 < c) then some (c, rest2) else none
        else none
      | _ => none
    else if b < 245 then
      match rest with
      | b1 :: b2 :: b3 :: rest3 =>
        if utf8Cont b1 && utf8Cont b2 && utf8Cont b3 then
          let c := (b - 240) * 262144 + (b1 - 128) * 4096 + (b2 - 128) * 64 + (b3 - 128)
          if 65536 ≤ c && c < 1114112 then some (c, rest3) else none
        else none
      | _ => none
    else none

/-- Fueled UTF-8 decoding loop; fuel equal to the buffer length always suffices
because each step consumes at least one byte. -/
def utf8DecodeF : Nat → Bytes → Option (List Nat)
  | _, [] => some []
  | 0, _ :: _ => none
  | fuel + 1, b :: rest =>
    match utf8DecodeCp (b :: rest) with
    | some (c, rem) =>
      match utf8DecodeF fuel rem with
      | some cs => some (c :: cs)
      | none => none
    | none => none

/-- Strict UTF-8 decoding of a whole buffer (as `std::str::from_utf8`). -/
def utf8Decode (bs : Bytes) : Option (List Nat) := utf8DecodeF bs.length bs

/-! ### Core data model: spans, tags, operations. -/

/-- `TimeSpan` / `Range<usize>`: the half-open interval `[start, stop)`.
The source field `end` is a Lean keyword and is embedded as `stop`. -/
structure TimeSpan where
  start : Nat
  stop : Nat
deriving DecidableEq, Repr

/-- Length of a span. -/
def TimeSpan.len (s : TimeSpan) : Nat := s.stop - s.start

/-- `TimeSpanRev` (`rev_span.rs`): a span plus the forwards/backwards flag. -/
structure TimeSpanRev where
  span : TimeSpan
  fwd : Bool
deriving DecidableEq, Repr

/-- `InsDelTag` from `list/operation.rs`. -/
inductive InsDelTag where
  | Ins
  | Del
deriving DecidableEq, Repr

/-- `OperationInternal` (`list/internal_op.rs`): the position span the op touches, its
tag, and an optional range into the corresponding packed content string. -/
structure OperationInternal where
  span : TimeSpanRev
  tag : InsDelTag
  content_pos : Option TimeSpan
deriving DecidableEq, Repr

/-- `OperationInternal::len`: the length of the touched position span. -/
def OperationInternal.len (op : OperationInternal) : Nat := op.span.span.len

/-- `switch(tag, ins, del)`: pick by tag. -/
def switch (tag : InsDelTag) (a b : α) : α :=
  match tag with
  | .Ins => a
  | .Del => b

/-! ### PositionRun (`list/time/positionmap.rs`) — claim C10. -/

/-- `MapTag`: the three states of a component in the position map. -/
inductive MapTag where
  | NotInsertedYet
  | Inserted
  | Upstream
deriving DecidableEq, Repr

/-- `PositionRun`. -/
structure PositionRun where
  tag : MapTag
  final_len : Nat
  content_len : Nat
deriving DecidableEq, Repr

/-- `PositionRun::new_void`. -/
def PositionRun.new_void (len : Nat) : PositionRun :=
  { tag := .NotInsertedYet, final_len := len, content_len := 0 }

/-- `PositionRun::new_ins`. -/
def PositionRun.new_ins (len : Nat) : PositionRun :=
  { tag := .Inserted, final_len := len, content_len := len }

/-- `PositionRun::new_upstream`. -/
def PositionRun.new_upstream (final_len content_len : Nat) : PositionRun :=
  { tag := .Upstream, final_len := final_len, content_len := content_len }

/-- `SplitableSpan::len` for `PositionRun`. -/
def PositionRun.len (r : PositionRun) : Nat := r.final_len

/-- `SplitableSpan::truncate` for `PositionRun`. The source asserts
`assert_ne!(self.tag, Upstream)` and is `unreachable!` in the `Upstream` arm; both
panics are modelled as `none`. On success returns the mutated `self` (the prefix)
and the returned remainder. -/
def PositionRun.truncate (r : PositionRun) (at_ : Nat) : Option (PositionRun × PositionRun) :=
  match r.tag with
  | .Upstream => none
  | .NotInsertedYet =>
    some ({ r with final_len := at_ },
      { tag := r.tag, final_len := r.final_len - at_, content_len := 0 })
  | .Inserted =>
    some ({ tag := r.tag, final_len := at_, content_len := at_ },
      { tag := r.tag, final_len := r.final_len - at_, content_len := r.final_len - at_ })

/-- `SplitableSpan::can_append` for `PositionRun`. -/
def PositionRun.can_append (r other : PositionRun) : Bool := r.tag = other.tag

/-- `SplitableSpan::append` for `PositionRun`. -/
def PositionRun.append (r other : PositionRun) : PositionRun :=
  { r with final_len := r.final_len + other.final_len,
           content_len := r.content_len + other.content_len }

/-! ### unicount (`src/src/unicount.rs`) — claim C9. -/

/-- `codepoint_size`: the byte length of a UTF-8 codepoint, judged from its first
byte. A null byte, a continuation byte, `0xFE` and `0xFF` yield `usize::MAX`. -/
def codepoint_size (b : Nat) : Nat :=
  if b = 0 then USIZE_MAX
  else if b ≤ 127 then 1
  else if b ≤ 191 then USIZE_MAX
  else if b ≤ 223 then 2
  else if b ≤ 239 then 3
  else if b ≤ 247 then 4
  else if b ≤ 251 then 5
  else if b ≤ 253 then 6
  else USIZE_MAX

/-- The loop of `str_pos_to_bytes_smol`: iterate `char_pos` times, adding the
codepoint size of the byte at the running offset. The `assert!(num_bytes < bytes.len())`
panic and a debug-build overflow of `num_bytes += ...` are modelled as `none`. -/
def strPosLoop (bytes : Bytes) : Nat → Nat → Option Nat
  | 0, numBytes => some numBytes
  | i + 1, numBytes =>
    if numBytes < bytes.length then
      let nb := numBytes + codepoint_size (bytes.getD numBytes 0)
      if nb < USIZE then strPosLoop bytes i nb else none
    else none

/-- `str_pos_to_bytes_smol` over the byte view of a string. -/
def str_pos_to_bytes_smol (bytes : Bytes) (charPos : Nat) : Option Nat :=
  strPosLoop bytes charPos 0

/-- Modelled from the external dependency: `str_pos_to_bytes` delegates to ropey's
`char_to_byte_idx`, an external crate whose documented behaviour is to return the byte
index of the `char_pos`-th character, clamped to the end of the string. Embedded at the
codepoint level. -/
def str_pos_to_bytes (s : List Nat) (charPos : Nat) : Nat :=
  (utf8Encode (s.take charPos)).length

/-- `split_at_char`: split the byte representation of `s` at the byte offset of the
`char_pos`-th character (the source calls `s.split_at(str_pos_to_bytes(s, char_pos))`). -/
def split_at_char (s : List Nat) (charPos : Nat) : Bytes × Bytes :=
  (utf8Encode s).splitAt (str_pos_to_bytes s charPos)

/-! ### The OpLog model.

Modelled from the spec (§4.2): the `OpLog` struct itself, its mutators
(`get_or_create_agent_id`, `assign_next_time_to_crdt_span`, `push_op_internal`,
`insert_history`, `advance_frontier`) and the id↔time maps live in oplog.rs /
frontier.rs / history.rs, which are not under `src/`. The spec describes the fields
(operations RLE keyed by LV, agent→LV assignment spans, per-agent seq→LV lists,
history entries with parent frontiers, packed content strings, current frontier) and
states that operations, history and agent maps append in strict LV order; the mutators
are modelled as plain appends in that order. `child_indices` of history entries are
derived data and are omitted. -/

/-- `CRDTSpan`: an agent plus a half-open run of its sequence numbers. -/
structure CRDTSpan where
  agent : Nat
  seq_range : TimeSpan
deriving DecidableEq, Repr

/-- `CRDTSpan::len`. -/
def CRDTSpan.len (s : CRDTSpan) : Nat := s.seq_range.len

/-- Modelled from the spec: per-agent client data — the agent's name and its ordered
`(seq_range, lv_base)` list. -/
structure ClientData where
  name : List Nat
  item_times : List (TimeSpan × Nat)
deriving DecidableEq, Repr

/-- Modelled from the spec: `try_seq_to_time` — binary search the agent's ordered
`(seq_range, lv_base)` list, embedded as a linear find. -/
def ClientData.trySeqToTime (cd : ClientData) (seq : Nat) : Option Nat :=
  (cd.item_times.find? fun e => decide (e.1.start ≤ seq) && decide (seq < e.1.stop))
    |>.map fun e => e.2 + (seq - e.1.start)

/-- A history entry: a time span and its parent frontier. -/
structure HistoryEntry where
  span : TimeSpan
  parents : List Nat
deriving DecidableEq, Repr

/-- Modelled from the spec: the OpLog state. Content strings are codepoint lists. -/
structure OpLog where
  client_data : List ClientData
  client_with_lv : List (Nat × CRDTSpan)
  operations : List (Nat × OperationInternal)
  ins_content : List Nat
  del_content : List Nat
  history : List HistoryEntry
  frontier : List Nat
deriving DecidableEq, Repr

/-- `OpLog::new`: the empty oplog; its frontier is the ROOT frontier. -/
def OpLog.new : OpLog :=
  { client_data := [], client_with_lv := [], operations := [],
    ins_content := [], del_content := [], history := [], frontier := [ROOT_TIME] }

/-- Modelled from the spec: `OpLog::len` — the next local time, read off the last
agent-assignment span (LVs are assigned densely in append order). -/
def OpLog.len (o : OpLog) : Nat :=
  match o.client_with_lv.getLast? with
  | some (t, s) => t + s.len
  | none => 0

/-- Modelled from the spec: `get_or_create_agent_id` — intern a name, returning its
index; idempotent. -/
def OpLog.getOrCreateAgentId (o : OpLog) (name : List Nat) : OpLog × Nat :=
  match o.client_data.findIdx? (fun cd => cd.name = name) with
  | some i => (o, i)
  | none =>
    ({ o with client_data := o.client_data ++ [{ name := name, item_times := [] }] },
      o.client_data.length)

/-- Modelled from the spec: `assign_next_time_to_crdt_span` — record that local times
`[time, time + span.len)` belong to `span`, appending to the LV→agent list and to the
agent's seq→LV list. -/
def OpLog.assignNextTimeToCrdtSpan (o : OpLog) (time : Nat) (span : CRDTSpan) : OpLog :=
  { o with
    client_with_lv := o.client_with_lv ++ [(time, span)],
    client_data :=
      match o.client_data.get? span.agent with
      | some cd =>
        o.client_data.set span.agent
          { cd with item_times := cd.item_times ++ [(span.seq_range, time)] }
      | none => o.client_data }

/-- Modelled from the spec: `ROOT_AGENT` sentinel (`AgentId::MAX`). -/
def ROOT_AGENT : Nat := 4294967295

/-- Modelled from the spec: `crdt_id_to_time` — `(agent, seq)` to local time via the
agent's seq→LV list; the root agent maps to `ROOT_TIME`; an unknown id panics
(the source unwraps). -/
def OpLog.crdtIdToTime (o : OpLog) (agent seq : Nat) : DR Nat :=
  if agent = ROOT_AGENT then DR.ok ROOT_TIME
  else match o.client_data.get? agent with
    | none => DR.crash
    | some cd =>
      match cd.trySeqToTime seq with
      | some t => DR.ok t
      | none => DR.crash

/-- Modelled from the spec: `push_op_internal` — append one operation keyed by
`next_time`; content (when given) is appended to the packed content string of the
op's kind and referenced by `content_pos`. -/
def OpLog.pushOpInternal (o : OpLog) (nextTime : Nat) (span : TimeSpanRev)
    (tag : InsDelTag) (contentHere : Option (List Nat)) : OpLog :=
  match contentHere with
  | none =>
    let op : OperationInternal := { span := span, tag := tag, content_pos := none }
    { o with operations := o.operations ++ [(nextTime, op)] }
  | some cs =>
    match tag with
    | .Ins =>
      let pos : TimeSpan := ⟨o.ins_content.length, o.ins_content.length + cs.length⟩
      let op : OperationInternal := { span := span, tag := tag, content_pos := some pos }
      { o with operations := o.operations ++ [(nextTime, op)],
               ins_content := o.ins_content ++ cs }
    | .Del =>
      let pos : TimeSpan := ⟨o.del_content.length, o.del_content.length + cs.length⟩
      let op : OperationInternal := { span := span, tag := tag, content_pos := some pos }
      { o with operations := o.operations ++ [(nextTime, op)],
               del_content := o.del_content ++ cs }

/-- Modelled from the spec: `insert_history` — append a history entry. -/
def OpLog.insertHistory (o : OpLog) (parents : List Nat) (span : TimeSpan) : OpLog :=
  { o with history := o.history ++ [{ span := span, parents := parents }] }

/-- Insert into an ascending list, keeping it sorted. -/
def insertAsc (x : Nat) : List Nat → List Nat
  | [] => [x]
  | y :: ys => if x ≤ y then x :: y :: ys else y :: insertAsc x ys

/-- Modelled from the spec: `advance_frontier` — remove every element of
`parents ∩ F` from the frontier and insert `span.end - 1`, keeping it sorted. -/
def advanceFrontier (f : List Nat) (parents : List Nat) (span : TimeSpan) : List Nat :=
  insertAsc (span.stop - 1) (f.filter fun t => ¬ parents.contains t)

/-- `OpLog::advance_frontier`. -/
def OpLog.advanceFrontier (o : OpLog) (parents : List Nat) (span : TimeSpan) : OpLog :=
  { o with frontier := DT.advanceFrontier o.frontier parents span }

/-- `consume_chars(content, len)`: take the first `len` characters, leaving the rest
(clamped at the end of the string, as the underlying ropey byte-index is). Modelled
from the spec at the codepoint level: the helper lives in the newer crate's unicount
module, which is not under `src/`. -/
def consumeChars (content : List Nat) (len : Nat) : List Nat × List Nat :=
  (content.take len, content.drop len)

/-! ### Chunks and reader primitives (`decode_oplog.rs` / `encoding.rs`). -/

/-- The chunk types. Modelled from the spec: the `Chunk` enum and its codes live in
the encoding module root, which is not under `src/`; the spec's container table gives
the codes. -/
inductive Chunk where
  | FileInfo
  | UserData
  | AgentNames
  | StartBranch
  | Frontier
  | Patches
  | InsertedContent
  | DeletedContent
  | AgentAssignment
  | PositionalPatches
  | TimeDAG
  | CRC
deriving DecidableEq, Repr

/-- The wire code of each chunk type (spec §6 table). -/
def Chunk.code : Chunk → Nat
  | .FileInfo => 1
  | .UserData => 2
  | .AgentNames => 3
  | .StartBranch => 10
  | .Frontier => 11
  | .Patches => 20
  | .InsertedContent => 21
  | .DeletedContent => 22
  | .AgentAssignment => 23
  | .PositionalPatches => 24
  | .TimeDAG => 25
  | .CRC => 100

/-- `Chunk::try_from` a wire code. -/
def Chunk.tryFrom (n : Nat) : Option Chunk :=
  if n = 1 then some .FileInfo
  else if n = 2 then some .UserData
  else if n = 3 then some .AgentNames
  else if n = 10 then some .StartBranch
  else if n = 11 then some .Frontier
  else if n = 20 then some .Patches
  else if n = 21 then some .InsertedContent
  else if n = 22 then some .DeletedContent
  else if n = 23 then some .AgentAssignment
  else if n = 24 then some .PositionalPatches
  else if n = 25 then some .TimeDAG
  else if n = 100 then some .CRC
  else none

/-- Modelled from the spec: `MAGIC_BYTES` — the magic header `DT` plus six reserved
bytes (the exact reserved values are not under `src/`; the spec names `DT` + 6
reserved bytes). -/
def MAGIC_BYTES : Bytes := [68, 84, 0, 0, 0, 0, 0, 0]

/-- `PROTOCOL_VERSION` (spec: currently 1). -/
def PROTOCOL_VERSION : Nat := 1

/-- `BufReader::check_has_bytes`. -/
def checkHasBytes (buf : Bytes) (num : Nat) : DR Unit :=
  if buf.length < num then DR.err .UnexpectedEOF else DR.ok ()

/-- `BufReader::read_magic`: eight bytes, compared against `MAGIC_BYTES`. -/
def readMagic (buf : Bytes) : DR Bytes := do
  let _ ← checkHasBytes buf 8
  if buf.take 8 ≠ MAGIC_BYTES then DR.err .InvalidMagic
  else DR.ok (buf.drop 8)

/-- `BufReader::next_usize` (also `next_u32`/`next_u64` — all LEB128): error on an
empty buffer, then decode and consume. -/
def nextUsize (buf : Bytes) : DR (Nat × Bytes) := do
  let _ ← checkHasBytes buf 1
  let (v, c) ← varintDec buf
  DR.ok (v, buf.drop c)

/-- `BufReader::peek_u32`: `None` at EOF, else decode without consuming. -/
def peekU32 (buf : Bytes) : DR (Option Nat) :=
  if buf.isEmpty then DR.ok none
  else do
    let (v, _) ← varintDec buf
    DR.ok (some v)

/-- `BufReader::next_u32_le`: four little-endian bytes. -/
def nextU32le (buf : Bytes) : DR (Nat × Bytes) :=
  match buf with
  | b0 :: b1 :: b2 :: b3 :: rest =>
    DR.ok (b0 + 256 * b1 + 65536 * b2 + 16777216 * b3, rest)
  | _ => DR.err .UnexpectedEOF

/-- `BufReader::next_zigzag_isize`. -/
def nextZigzag (buf : Bytes) : DR (Int × Bytes) := do
  let (n, buf) ← nextUsize buf
  DR.ok (zigzagDec n, buf)

/-- `BufReader::next_n_bytes`. -/
def nextNBytes (buf : Bytes) (num : Nat) : DR (Bytes × Bytes) :=
  if buf.length < num then DR.err .UnexpectedEOF
  else DR.ok (buf.take num, buf.drop num)

/-- `BufReader::next_str`: length-prefixed UTF-8. -/
def nextStr (buf : Bytes) : DR (List Nat × Bytes) := do
  if buf.isEmpty then DR.err .UnexpectedEOF
  else do
    let (len, buf) ← nextUsize buf
    if buf.length < len then DR.err .InvalidLength
    else do
      let (bytes, buf) ← nextNBytes buf len
      match utf8Decode bytes with
      | some s => DR.ok (s, buf)
      | none => DR.err .InvalidUTF8

/-- `BufReader::next_chunk`: chunk type, length, body. -/
def nextChunk (buf : Bytes) : DR ((Chunk × Bytes) × Bytes) := do
  let (t, buf) ← nextUsize buf
  match Chunk.tryFrom t with
  | none => DR.err .InvalidChunkHeader
  | some chunkType => do
    let (len, buf) ← nextUsize buf
    if buf.length < len then DR.err .InvalidLength
    else do
      let (body, buf) ← nextNBytes buf len
      DR.ok ((chunkType, body), buf)

/-- `BufReader::read_chunk`: `None` when the next chunk is a different type or at
EOF, otherwise the chunk body. -/
def readChunk (expect : Chunk) (buf : Bytes) : DR (Option Bytes × Bytes) := do
  let actual ← peekU32 buf
  match actual with
  | none => DR.ok (none, buf)
  | some t =>
    if t ≠ expect.code then DR.ok (none, buf)
    else do
      let ((_, body), buf) ← nextChunk buf
      DR.ok (some body, buf)

/-- `BufReader::expect_chunk`: `UnexpectedChunk` unless the type matches. -/
def expectChunk (expect : Chunk) (buf : Bytes) : DR (Bytes × Bytes) := do
  let ((actual, body), buf) ← nextChunk buf
  if expect ≠ actual then DR.err (.UnexpectedChunk expect.code actual.code)
  else DR.ok (body, buf)

/-- `BufReader::read_next_agent_assignment`: one agent-assignment record — the
file-local agent index plus one (with a jump-flag bit), a length, and an optional
zigzag jump applied to the per-agent seq cursor held in `map`. The
`(cursor as isize + jump) as usize` cast wraps and is taken mod `2^64`. -/
def readNextAgentAssignment (buf : Bytes) (map : List (Nat × Nat)) :
    DR (Option (CRDTSpan × List (Nat × Nat)) × Bytes) :=
  if buf.isEmpty then DR.ok (none, buf)
  else do
    let (n0, buf) ← nextUsize buf
    let (n, hasJump) := stripBit n0
    let (len, buf) ← nextUsize buf
    let (jump, buf) ← if hasJump then nextZigzag buf else DR.ok ((0 : Int), buf)
    if n = 0 then DR.err .InvalidLength
    else
      match map.get? (n - 1) with
      | none => DR.err .InvalidLength
      | some (agent, cursor) =>
        let start := (((cursor : Int) + jump) % (USIZE : Int)).toNat
        let stop := start + len
        DR.ok (some ({ agent := agent, seq_range := ⟨start, stop⟩ },
          map.set (n - 1) (agent, stop)), buf)

/-- `frontier_is_sorted` (strictly ascending). -/
def frontierIsSorted : List Nat → Bool
  | [] => true
  | [_] => true
  | a :: b :: rest => a < b && frontierIsSorted (b :: rest)

/-- `sort_unstable` on a frontier, embedded as insertion sort. -/
def sortAsc (l : List Nat) : List Nat := l.foldr insertAsc []

/-- The loop of `BufReader::read_frontier`: `(mapped_agent << 1 | has_more, seq)`
pairs; resolving an out-of-range mapped agent panics (`agent_map[mapped_agent]`). -/
def readFrontierLoop (o : OpLog) (agentMap : List (Nat × Nat)) :
    Nat → List Nat → Bytes → DR (List Nat × Bytes)
  | 0, _, _ => DR.crash
  | fuel + 1, acc, buf => do
    let (n0, buf) ← nextUsize buf
    let (mappedAgent, hasMore) := stripBit n0
    match agentMap.get? mappedAgent with
    | none => DR.crash
    | some (agent, _) => do
      let (seq, buf) ← nextUsize buf
      let time ← o.crdtIdToTime agent seq
      if hasMore then readFrontierLoop o agentMap fuel (acc ++ [time]) buf
      else DR.ok (acc ++ [time], buf)

/-- `BufReader::read_frontier`: read the entries, then sort if not already sorted. -/
def readFrontier (o : OpLog) (agentMap : List (Nat × Nat)) (buf : Bytes) :
    DR (List Nat × Bytes) := do
  let (result, buf) ← readFrontierLoop o agentMap (buf.length + 1) [] buf
  if frontierIsSorted result then DR.ok (result, buf)
  else DR.ok (sortAsc result, buf)

/-! ### `ReadPatchesIter` (`decode_oplog.rs`, claim C5). -/

/-- `ReadPatchesIter::next_internal`: decode one positional-patch record. Takes the
buffer and `last_cursor_pos`; returns the operation, the remaining buffer and the new
cursor. `isize::wrapping_add(last_cursor_pos as isize, diff) as usize` is modelled as
arithmetic mod `2^64`. -/
def nextInternal (buf : Bytes) (lastCursorPos : Nat) :
    DR (OperationInternal × Bytes × Nat) := do
  let (n0, buf) ← nextUsize buf
  let (n1, hasLength) := stripBit n0
  let (n2, diffNotZero) := stripBit n1
  let (n3, isDel) := stripBit n2
  let tag := if isDel then InsDelTag.Del else InsDelTag.Ins
  let (len, diff, fwd, buf) ←
    if hasLength then do
      let (n4, fwd) := if tag = InsDelTag.Del then stripBit n3 else (n3, true)
      let (diff, buf) ← if diffNotZero then nextZigzag buf else DR.ok ((0 : Int), buf)
      DR.ok (n4, diff, fwd, buf)
    else
      DR.ok (1, zigzagDec n3, true, buf)
  let start := (((lastCursorPos : Int) + diff) % (USIZE : Int)).toNat
  let stop := start + len
  let newCursor := if tag = InsDelTag.Ins ∧ fwd = true then stop else start
  let op : OperationInternal :=
    { span := { span := ⟨start, stop⟩, fwd := fwd }, tag := tag, content_pos := none }
  DR.ok (op, buf, newCursor)

/-! ### `OpLog::merge_data` (`decode_oplog.rs`). Each `while` loop becomes a
fuel-indexed recursion; fuel `chunk length + 1` suffices because every iteration
consumes at least one byte. -/

/-- The agent-names loop of `merge_data`: intern each name, building the
file-to-self agent map with seq cursors starting at 0. -/
def readAgentNamesLoop : Nat → OpLog → List (Nat × Nat) → Bytes →
    DR (OpLog × List (Nat × Nat))
  | 0, _, _, _ => DR.crash
  | fuel + 1, o, map, buf =>
    if buf.isEmpty then DR.ok (o, map)
    else do
      let (name, buf) ← nextStr buf
      let (o, id) := o.getOrCreateAgentId name
      readAgentNamesLoop fuel o (map ++ [(id, 0)]) buf

/-- The agent-assignment loop of `merge_data`: read records, check the agent id is
known, assign local times. -/
def readAssignmentLoop : Nat → OpLog → List (Nat × Nat) → Nat → Bytes →
    DR (OpLog × List (Nat × Nat) × Nat)
  | 0, _, _, _, _ => DR.crash
  | fuel + 1, o, map, nextTime, buf => do
    let (r, buf) ← readNextAgentAssignment buf map
    match r with
    | none => DR.ok (o, map, nextTime)
    | some (crdtSpan, map) =>
      if o.client_data.length ≤ crdtSpan.agent then DR.err .InvalidLength
      else
        readAssignmentLoop fuel (o.assignNextTimeToCrdtSpan nextTime crdtSpan) map
          (nextTime + crdtSpan.len) buf

/-- The positional-patches loop of `merge_data`: iterate `ReadPatchesIter`, consume
content characters for the op's kind, and push each operation. -/
def readPatchesLoop : Nat → OpLog → Option (List Nat) → Option (List Nat) → Nat →
    Nat → Bytes → DR (OpLog × Option (List Nat) × Option (List Nat) × Nat)
  | 0, _, _, _, _, _, _ => DR.crash
  | fuel + 1, o, insContent, delContent, lastCursor, nextTime, buf =>
    if buf.isEmpty then DR.ok (o, insContent, delContent, nextTime)
    else do
      let (op, buf, lastCursor) ← nextInternal buf lastCursor
      let len := op.len
      let (contentHere, insContent, delContent) :=
        match op.tag with
        | InsDelTag.Ins =>
          match insContent with
          | some c =>
            let (h, r) := consumeChars c len
            (some h, some r, delContent)
          | none => (none, insContent, delContent)
        | InsDelTag.Del =>
          match delContent with
          | some c =>
            let (h, r) := consumeChars c len
            (some h, insContent, some r)
          | none => (none, insContent, delContent)
      let o := o.pushOpInternal nextTime op.span op.tag contentHere
      readPatchesLoop fuel o insContent delContent lastCursor (nextTime + len) buf

/-- The parents loop of the TimeDAG decoder: each parent is
`(n << 2 | has_more << 1 | is_foreign)`, local parents are `next_time - n` (a debug
underflow panics), foreign parents are `(mapped agent, seq)` with `n = 0` for ROOT. -/
def readParentsLoop (o : OpLog) (map : List (Nat × Nat)) (nextTime : Nat) :
    Nat → List Nat → Bytes → DR (List Nat × Bytes)
  | 0, _, _ => DR.crash
  | fuel + 1, parents, buf => do
    let (n0, buf) ← nextUsize buf
    let (n1, isForeign) := stripBit n0
    let (n, hasMore) := stripBit n1
    let (parent, buf) ←
      if isForeign then
        if n = 0 then DR.ok (ROOT_TIME, buf)
        else
          match map.get? (n - 1) with
          | none => DR.crash
          | some (agent, _) => do
            let (seq, buf) ← nextUsize buf
            match o.client_data.get? agent with
            | some c =>
              match c.trySeqToTime seq with
              | some t => DR.ok (t, buf)
              | none => DR.err ParseError.InvalidLength
            | none => DR.err ParseError.InvalidLength
      else
        if nextTime < n then DR.crash
        else DR.ok (nextTime - n, buf)
    if hasMore then readParentsLoop o map nextTime fuel (parents ++ [parent]) buf
    else DR.ok (parents ++ [parent], buf)

/-- The TimeDAG loop of `merge_data`: entry length, parents, insert history and
advance the frontier. -/
def readHistoryLoop : Nat → OpLog → List (Nat × Nat) → Nat → Bytes → DR (OpLog × Nat)
  | 0, _, _, _, _ => DR.crash
  | fuel + 1, o, map, nextTime, buf =>
    if buf.isEmpty then DR.ok (o, nextTime)
    else do
      let (len, buf) ← nextUsize buf
      let (parents, buf) ← readParentsLoop o map nextTime (buf.length + 1) [] buf
      let span : TimeSpan := ⟨nextTime, nextTime + len⟩
      let o := (o.insertHistory parents span).advanceFrontier parents span
      readHistoryLoop fuel o map (nextTime + len) buf

/-- One round of the (reflected, polynomial `0xEDB88320`) CRC-32 bit loop. -/
def crc32Round (c : Nat) : Nat :=
  if c % 2 = 1 then Nat.xor (c / 2) 3988292384 else c / 2

/-- Fold one byte into a CRC-32 accumulator: xor, then eight bit rounds. -/
def crc32Byte (crc b : Nat) : Nat :=
  crc32Round (crc32Round (crc32Round (crc32Round (crc32Round (crc32Round (crc32Round
    (crc32Round (Nat.xor crc b))))))))

/-- Modelled from the spec: `checksum` — CRC-32 (the source delegates to the
`crc32fast` crate; the spec fixes little-endian CRC32 over the preceding bytes). -/
def checksum (data : Bytes) : Nat :=
  Nat.xor (data.foldl crc32Byte 4294967295) 4294967295

/-- Four little-endian bytes of a 32-bit value. -/
def u32leBytes (n : Nat) : Bytes :=
  [n % 256, n / 256 % 256, n / 65536 % 256, n / 16777216 % 256]

/-- `OpLog::merge_data`, translated clause by clause from the source. The overlap
case is the source's `todo!("Overlapping data sets not implemented!")`, a panic. -/
def OpLog.mergeData (self : OpLog) (data : Bytes) : DR OpLog := do
  let reader ← readMagic data
  let (protocolVersion, reader) ← nextUsize reader
  if protocolVersion ≠ PROTOCOL_VERSION then DR.err .UnsupportedProtocolVersion
  else do
    let (fileinfo, reader) ← expectChunk .FileInfo reader
    let (_userdata, fileinfo) ← readChunk .UserData fileinfo
    let (agentNamesChunk, _fileinfo) ← expectChunk .AgentNames fileinfo
    let (self, fileToSelfAgentMap) ←
      readAgentNamesLoop (agentNamesChunk.length + 1) self [] agentNamesChunk
    let (sbOpt, reader) ← readChunk .StartBranch reader
    let _ ← (match sbOpt with
      | some startBranch => do
        let (startFrontierChunk, _sb) ← expectChunk .Frontier startBranch
        let (frontier, _rest) ←
          (match readFrontier self fileToSelfAgentMap startFrontierChunk with
            | DR.err ParseError.InvalidRemoteID => DR.err ParseError.DataMissing
            | other => other)
        if frontier ≠ self.frontier then DR.crash
        else DR.ok ()
      | none => DR.ok () : DR Unit)
    let (patchChunk, reader) ← expectChunk .Patches reader
    let (insChunkOpt, patchChunk) ← readChunk .InsertedContent patchChunk
    let insContent ← (match insChunkOpt with
      | some chunk =>
        match utf8Decode chunk with
        | some s => DR.ok (some s)
        | none => DR.err ParseError.InvalidUTF8
      | none => DR.ok none : DR (Option (List Nat)))
    let (delChunkOpt, patchChunk) ← readChunk .DeletedContent patchChunk
    let delContent ← (match delChunkOpt with
      | some chunk =>
        match utf8Decode chunk with
        | some s => DR.ok (some s)
        | none => DR.err ParseError.InvalidUTF8
      | none => DR.ok none : DR (Option (List Nat)))
    let (agentAssignmentChunk, patchChunk) ← expectChunk .AgentAssignment patchChunk
    let firstNewTime := self.len
    let (self, map2, finalAgentAssignmentLen) ←
      readAssignmentLoop (agentAssignmentChunk.length + 1) self fileToSelfAgentMap
        firstNewTime agentAssignmentChunk
    let (posPatchesChunk, patchChunk) ← expectChunk .PositionalPatches patchChunk
    let (self, insContentRem, _delContentRem, finalPatchesLen) ←
      readPatchesLoop (posPatchesChunk.length + 1) self insContent delContent 0
        firstNewTime posPatchesChunk
    if finalAgentAssignmentLen ≠ finalPatchesLen then DR.err .InvalidLength
    else do
      let _ ← (match insContentRem with
        | some content => if content ≠ [] then DR.err ParseError.InvalidContent else DR.ok ()
        | none => DR.ok () : DR Unit)
      let (historyChunk, _patchChunk) ← expectChunk .TimeDAG patchChunk
      let (self, finalHistoryLen) ←
        readHistoryLoop (historyChunk.length + 1) self map2 firstNewTime historyChunk
      if finalHistoryLen ≠ finalPatchesLen then DR.err .InvalidLength
      else do
        let readerLen := reader.length
        let (crcOpt, _reader) ← readChunk .CRC reader
        match crcOpt with
        | some crcReader => do
          let (expectedCrc, _) ← nextU32le crcReader
          let checksummedData := data.take (data.length - readerLen)
          if checksum checksummedData ≠ expectedCrc then DR.err .ChecksumFailed
          else DR.ok self
        | none => DR.ok self

/-- `OpLog::load_from`: decode into a fresh oplog. -/
def OpLog.loadFrom (data : Bytes) : DR OpLog := OpLog.new.mergeData data

/-! ### The encoder.

Modelled from the spec: `encode_oplog.rs` is not under `src/`. The spec fixes the
container layout (§6), the varint/zigzag/flag-bit conventions, and states the encoder
is symmetric with the decoder. Notes:
- A full encode's start frontier is ROOT; the `Frontier` chunk format
  (`mapped_agent << 1 | has_more`, resolved through the file agent table) cannot name
  ROOT, and the decoder treats `StartBranch` as optional, so a full encode omits the
  `StartBranch` chunk.
- One record is written per stored run of each list (the spec's RLE lists). -/

/-- A chunk with its header: `varint code, varint length, body`. -/
def encodeChunk (c : Chunk) (body : Bytes) : Bytes :=
  varintEnc c.code ++ varintEnc body.length ++ body

/-- A length-prefixed UTF-8 string. -/
def writeStr (s : List Nat) : Bytes :=
  varintEnc (utf8Encode s).length ++ utf8Encode s

/-- The `AgentNames` chunk body: the names in agent order. -/
def encodeAgentNames (names : List (List Nat)) : Bytes :=
  (names.map writeStr).flatten

/-- The initial file agent map: agent `i` of the file is agent `i` of the oplog, with
seq cursor 0 (what the decoder builds for a fresh oplog). -/
def initialAgentMap (n : Nat) : List (Nat × Nat) :=
  (List.range n).map (fun i => (i, 0))

/-- The agent map the names loop builds over fresh agents: ids counting up from
`start`, cursors 0 (equals `initialAgentMap n` when `start = 0`). -/
def idMapFrom (start : Nat) : Nat → List (Nat × Nat)
  | 0 => []
  | k + 1 => (start, 0) :: idMapFrom (start + 1) k

/-- The `AgentAssignment` chunk body: per span, `(agent_idx + 1) << 1 | jump_flag`,
the length, and a zigzag jump relative to the per-agent seq cursor when nonzero. The
cursor state has the decoder's shape (`idx → (agent, next_seq_cursor)`). -/
def encodeAssignments (map : List (Nat × Nat)) : List (Nat × CRDTSpan) → Bytes
  | [] => []
  | (_, s) :: rest =>
    let cursor := ((map.get? s.agent).getD (0, 0)).2
    let jump : Int := (s.seq_range.start : Int) - (cursor : Int)
    varintEnc ((s.agent + 1) * 2 + (if jump = 0 then 0 else 1)) ++
    varintEnc s.seq_range.len ++
    (if jump = 0 then [] else varintEnc (zigzagEnc jump)) ++
    encodeAssignments (map.set s.agent (s.agent, s.seq_range.stop)) rest

/-- One `PositionalPatches` record (symmetric with `next_internal`): flag bits
`has_length, diff_nonzero, del` from the low end, a `fwd` bit above them for deletes
with length, the cursor-relative zigzag diff packed into the first varint for
single-character forward records and written separately (when nonzero) otherwise. -/
def encodePatchRecord (lastCursor : Nat) (op : OperationInternal) : Bytes × Nat :=
  let start := op.span.span.start
  let len := op.len
  let isDel := op.tag = InsDelTag.Del
  let diff : Int := (start : Int) - (lastCursor : Int)
  let newCursor :=
    if op.tag = InsDelTag.Ins ∧ op.span.fwd = true then op.span.span.stop else start
  if len = 1 then
    let n := ((zigzagEnc diff * 2 + (if isDel then 1 else 0)) * 2 +
      (if diff = 0 then 0 else 1)) * 2
    (varintEnc n, newCursor)
  else
    let payload := if isDel then len * 2 + (if op.span.fwd then 1 else 0) else len
    let n := ((payload * 2 + (if isDel then 1 else 0)) * 2 +
      (if diff = 0 then 0 else 1)) * 2 + 1
    (varintEnc n ++ (if diff = 0 then [] else varintEnc (zigzagEnc diff)), newCursor)

/-- The `PositionalPatches` chunk body. -/
def encodePatches (lastCursor : Nat) : List (Nat × OperationInternal) → Bytes
  | [] => []
  | (_, op) :: rest =>
    let (bytes, c) := encodePatchRecord lastCursor op
    bytes ++ encodePatches c rest

/-- One TimeDAG parent: `n << 2 | has_more << 1 | is_foreign`; ROOT is foreign with
`n = 0`, local parents store `span.start - p`. -/
def encodeParent (start p : Nat) (hasMore : Bool) : Bytes :=
  if p = ROOT_TIME then varintEnc ((if hasMore then 1 else 0) * 2 + 1)
  else varintEnc (((start - p) * 2 + (if hasMore then 1 else 0)) * 2)

/-- A TimeDAG entry's parent list (the last parent clears `has_more`). -/
def encodeParents (start : Nat) : List Nat → Bytes
  | [] => []
  | [p] => encodeParent start p false
  | p :: rest => encodeParent start p true ++ encodeParents start rest

/-- The `TimeDAG` chunk body. -/
def encodeHistory (entries : List HistoryEntry) : Bytes :=
  (entries.map fun e => varintEnc e.span.len ++ encodeParents e.span.start e.parents).flatten

/-- The `Frontier` chunk body from `(mapped_agent, seq)` pairs. -/
def encodeFrontierEntries : List (Nat × Nat) → Bytes
  | [] => []
  | [(a, s)] => varintEnc (a * 2) ++ varintEnc s
  | (a, s) :: rest => varintEnc (a * 2 + 1) ++ varintEnc s ++ encodeFrontierEntries rest

/-- A `StartBranch` chunk holding a `Frontier` chunk. -/
def encodeStartBranch (entries : List (Nat × Nat)) : Bytes :=
  encodeChunk .StartBranch (encodeChunk .Frontier (encodeFrontierEntries entries))

/-- Everything of a full encode before the CRC chunk: magic, protocol version,
`FileInfo(AgentNames)`, and `Patches(InsertedContent?, DeletedContent?,
AgentAssignment, PositionalPatches, TimeDAG)`. `sIns`/`sDel` are the
`store_inserted_content` / `store_deleted_content` options. -/
def encodeBody (o : OpLog) (sIns sDel : Bool) : Bytes :=
  MAGIC_BYTES ++ varintEnc PROTOCOL_VERSION ++
  encodeChunk .FileInfo
    (encodeChunk .AgentNames (encodeAgentNames (o.client_data.map (·.name)))) ++
  encodeChunk .Patches (
    (if sIns then encodeChunk .InsertedContent (utf8Encode o.ins_content) else []) ++
    (if sDel then encodeChunk .DeletedContent (utf8Encode o.del_content) else []) ++
    encodeChunk .AgentAssignment
      (encodeAssignments (initialAgentMap o.client_data.length) o.client_with_lv) ++
    encodeChunk .PositionalPatches (encodePatches 0 o.operations) ++
    encodeChunk .TimeDAG (encodeHistory o.history))

/-- The body followed by a CRC chunk holding the four little-endian bytes of `crc`. -/
def encodeWithCrc (o : OpLog) (sIns sDel : Bool) (crc : Nat) : Bytes :=
  encodeBody o sIns sDel ++ encodeChunk .CRC (u32leBytes crc)

/-- `OpLog::encode`: the body plus the correct CRC-32 of the body. -/
def OpLog.encode (o : OpLog) (sIns sDel : Bool) : Bytes :=
  encodeWithCrc o sIns sDel (checksum (encodeBody o sIns sDel))

/-- The names loop's effect as a fold (used to state the loop lemma). -/
def foldNames (o : OpLog) (map : List (Nat × Nat)) :
    List (List Nat) → OpLog × List (Nat × Nat)
  | [] => (o, map)
  | n :: rest =>
    let p := o.getOrCreateAgentId n
    foldNames p.1 (map ++ [(p.2, 0)]) rest

/-- The assignment loop's effect on the oplog as a fold. -/
def applyAssignments : OpLog → Nat → List (Nat × CRDTSpan) → OpLog
  | o, _, [] => o
  | o, nt, (_, s) :: rest =>
    applyAssignments (o.assignNextTimeToCrdtSpan nt s) (nt + s.len) rest

/-- The TimeDAG loop's effect on the oplog as a fold. -/
def applyHistory : OpLog → Nat → List HistoryEntry → OpLog
  | o, _, [] => o
  | o, nt, e :: rest =>
    applyHistory ((o.insertHistory e.parents ⟨nt, nt + e.span.len⟩).advanceFrontier
      e.parents ⟨nt, nt + e.span.len⟩) (nt + e.span.len) rest

/-! ### Well-formedness of an OpLog, relative to the content-storing options.

These are the invariants the spec states for OpLog state (LVs assigned densely in
append order across the agent-assignment list, the operation list and the history;
per-agent seq→LV lists derived from the assignment list; packed content indexed
sequentially by the ops of each kind; the frontier derived by replaying
`advance_frontier`; agent names interned and distinct). -/

/-- Assignment spans cover local times consecutively starting at `t`. -/
def spansConsecutive : Nat → List (Nat × CRDTSpan) → Bool
  | _, [] => true
  | t, (t0, s) :: rest =>
    t0 == t && decide (0 < s.len) && decide (s.seq_range.stop < USIZE) &&
      spansConsecutive (t + s.len) rest

/-- Operations cover local times consecutively starting at `t`; spans are nonempty,
bounded, forward for inserts, and canonically forward when of length 1. -/
def opsConsecutive : Nat → List (Nat × OperationInternal) → Bool
  | _, [] => true
  | t, (t0, op) :: rest =>
    t0 == t && decide (0 < op.len) && decide (op.span.span.stop < USIZE) &&
      (op.tag == InsDelTag.Ins → op.span.fwd) && (op.len == 1 → op.span.fwd) &&
      opsConsecutive (t + op.len) rest

/-- History entries cover local times consecutively starting at `t`; every entry has
at least one parent, and each parent is ROOT or strictly before the entry. -/
def histConsecutive : Nat → List HistoryEntry → Bool
  | _, [] => true
  | t, e :: rest =>
    e.span.start == t && decide (0 < e.span.len) &&
      !e.parents.isEmpty &&
      e.parents.all (fun p => p == ROOT_TIME || decide (p < e.span.start)) &&
      histConsecutive e.span.stop rest

/-- The content positions of the operations walk each packed content string
sequentially: ops of a stored kind take the next `len` characters, ops of an
unstored kind carry no content. -/
def opsContentOk (sIns sDel : Bool) : Nat → Nat → List (Nat × OperationInternal) → Bool
  | _, _, [] => true
  | insPos, delPos, (_, op) :: rest =>
    match op.tag with
    | InsDelTag.Ins =>
      (if sIns then op.content_pos == some ⟨insPos, insPos + op.len⟩
        else op.content_pos == none) &&
      opsContentOk sIns sDel (if sIns then insPos + op.len else insPos) delPos rest
    | InsDelTag.Del =>
      (if sDel then op.content_pos == some ⟨delPos, delPos + op.len⟩
        else op.content_pos == none) &&
      opsContentOk sIns sDel insPos (if sDel then delPos + op.len else delPos) rest

/-- Total position-span length of the stored-content ops of kind `Ins`. -/
def sumInsLens : List (Nat × OperationInternal) → Nat
  | [] => 0
  | (_, op) :: rest => (if op.tag = InsDelTag.Ins then op.len else 0) + sumInsLens rest

/-- Total position-span length of the ops of kind `Del`. -/
def sumDelLens : List (Nat × OperationInternal) → Nat
  | [] => 0
  | (_, op) :: rest => (if op.tag = InsDelTag.Del then op.len else 0) + sumDelLens rest

/-- Total time-span length of the operations. -/
def sumOpLens : List (Nat × OperationInternal) → Nat
  | [] => 0
  | (_, op) :: rest => op.len + sumOpLens rest

/-- Total length of the assignment spans. -/
def sumSpanLens : List (Nat × CRDTSpan) → Nat
  | [] => 0
  | (_, s) :: rest => s.len + sumSpanLens rest

/-- Total length of the history entries. -/
def sumHistLens : List HistoryEntry → Nat
  | [] => 0
  | e :: rest => e.span.len + sumHistLens rest

/-- The agent's seq→LV list as derived from the assignment list. -/
def derivedItemTimes (agent : Nat) (l : List (Nat × CRDTSpan)) : List (TimeSpan × Nat) :=
  l.filterMap fun e => if e.2.agent = agent then some (e.2.seq_range, e.1) else none

/-- The frontier derived by replaying `advance_frontier` over the history. -/
def derivedFrontier (entries : List HistoryEntry) : List Nat :=
  entries.foldl (fun f e => advanceFrontier f e.parents e.span) [ROOT_TIME]

/-- A valid codepoint string. -/
def validStr (s : List Nat) : Bool := s.all (fun c => decide (ValidCp c))

/-- Distinct agent names. -/
def namesDistinct : List (List Nat) → Bool
  | [] => true
  | n :: rest => rest.all (fun m => !(m == n)) && namesDistinct rest

/-- Well-formedness of an OpLog with respect to the content options `sIns`/`sDel`:
everything `encode` needs for `load_from` to reproduce the oplog exactly. -/
def wf (o : OpLog) (sIns sDel : Bool) : Bool :=
  namesDistinct (o.client_data.map (·.name)) &&
  (o.client_data.map (·.name)).all validStr &&
  spansConsecutive 0 o.client_with_lv &&
  o.client_with_lv.all (fun e => decide (e.2.agent < o.client_data.length)) &&
  (List.range o.client_data.length).all (fun a =>
    decide ((o.client_data.getD a { name := [], item_times := [] }).item_times =
      derivedItemTimes a o.client_with_lv)) &&
  opsConsecutive 0 o.operations &&
  opsContentOk sIns sDel 0 0 o.operations &&
  validStr o.ins_content && validStr o.del_content &&
  (if sIns then sumInsLens o.operations == o.ins_content.length
    else o.ins_content.isEmpty) &&
  (if sDel then sumDelLens o.operations == o.del_content.length
    else o.del_content.isEmpty) &&
  histConsecutive 0 o.history &&
  sumSpanLens o.client_with_lv == o.len &&
  sumInsLens o.operations + sumDelLens o.operations == o.len &&
  sumHistLens o.history == o.len &&
  o.frontier == derivedFrontier o.history &&
  decide (o.len < USIZE)

/-! ### The S1 scenario (claim C6), via spec-modelled local edits.

Modelled from the spec: `ListCRDT::local_insert` / `local_delete` live in the main
crate root (not under `src/`). Per the spec a local edit appends one operation,
assigns the next local times and sequence numbers, appends a history entry whose
parents are the current frontier, advances the frontier, and splices the branch
content at the given character position. -/

/-- A document: an OpLog plus a materialized branch content. -/
structure ListCRDT where
  ops : OpLog
  content : List Nat
deriving DecidableEq, Repr

/-- A fresh document. -/
def ListCRDT.new : ListCRDT := { ops := OpLog.new, content := [] }

/-- Intern an agent name on the document. -/
def ListCRDT.getOrCreateAgentId (d : ListCRDT) (name : List Nat) : ListCRDT × Nat :=
  let (o, id) := d.ops.getOrCreateAgentId name
  ({ d with ops := o }, id)

/-- Modelled from the spec: the next unused sequence number of an agent. -/
def OpLog.nextSeqFor (o : OpLog) (agent : Nat) : Nat :=
  match o.client_data.get? agent with
  | some cd => (cd.item_times.map (fun e => e.1.stop)).foldl max 0
  | none => 0

/-- `local_insert(agent, pos, content)`. -/
def ListCRDT.localInsert (d : ListCRDT) (agent pos : Nat) (content : List Nat) : ListCRDT :=
  let o := d.ops
  let t := o.len
  let len := content.length
  let seq := o.nextSeqFor agent
  let o := o.assignNextTimeToCrdtSpan t { agent := agent, seq_range := ⟨seq, seq + len⟩ }
  let o := o.pushOpInternal t { span := ⟨pos, pos + len⟩, fwd := true } InsDelTag.Ins
    (some content)
  let parents := d.ops.frontier
  let span : TimeSpan := ⟨t, t + len⟩
  let o := (o.insertHistory parents span).advanceFrontier parents span
  { ops := o, content := d.content.take pos ++ content ++ d.content.drop pos }

/-- `local_delete(agent, pos, len)` (without stored deleted content). -/
def ListCRDT.localDelete (d : ListCRDT) (agent pos len : Nat) : ListCRDT :=
  let o := d.ops
  let t := o.len
  let seq := o.nextSeqFor agent
  let o := o.assignNextTimeToCrdtSpan t { agent := agent, seq_range := ⟨seq, seq + len⟩ }
  let o := o.pushOpInternal t { span := ⟨pos, pos + len⟩, fwd := true } InsDelTag.Del none
  let parents := d.ops.frontier
  let span : TimeSpan := ⟨t, t + len⟩
  let o := (o.insertHistory parents span).advanceFrontier parents span
  { ops := o, content := d.content.take pos ++ d.content.drop (pos + len) }

/-- The S1 scenario (`simple_doc` in the decode tests): agent `seph` inserts
`"hi there"` at 0, deletes 4 characters at position 3, inserts `"m"` at 3. -/
def simple_doc : ListCRDT :=
  let d := ListCRDT.new
  let (d, a) := d.getOrCreateAgentId [115, 101, 112, 104]
  let d := d.localInsert a 0 [104, 105, 32, 116, 104, 101, 114, 101]
  let d := d.localDelete a 3 4
  d.localInsert a 3 [109]

/-- Claim C5's description of decoding one `PositionalPatches` record, written from
the claim's words (for the refinement theorem, not from the source): the decoder
reads one varint `n` and strips, in order, `has_length`, `diff_nonzero` and `del`
flag bits from its low end; when `has_length` is clear the operation has length
exactly 1, is forward, and the remaining bits of `n` zigzag-decode to the
cursor-relative diff; when `has_length` is set the remaining bits are the length,
for deletes one further `fwd` flag bit is stripped first, and the diff is read as a
separate zigzag varint only if `diff_nonzero` is set. The span starts at
`last_cursor_pos + diff`. Returns `(start, len, fwd, tag)` with the start as an
unwrapped integer, plus the remaining buffer. -/
def readPatchSpec (buf : Bytes) (lastCursorPos : Nat) :
    DR ((Int × Nat × Bool × InsDelTag) × Bytes) := do
  let (n, buf) ← nextUsize buf
  let hasLength := n % 2 = 1
  let diffNonzero := n / 2 % 2 = 1
  let del := n / 4 % 2 = 1
  let tag := if del then InsDelTag.Del else InsDelTag.Ins
  if hasLength then
    let fwd : Bool := if del then n / 8 % 2 = 1 else true
    let len := if del then n / 16 else n / 8
    let (diff, buf) ← if diffNonzero then nextZigzag buf else DR.ok ((0 : Int), buf)
    DR.ok (((lastCursorPos : Int) + diff, len, fwd, tag), buf)
  else
    let diff := zigzagDec (n / 8)
    DR.ok (((lastCursorPos : Int) + diff, 1, true, tag), buf)

/-- Flip every bit of the byte at index `i`. -/
def flipByte (bs : Bytes) (i : Nat) : Bytes := bs.set i (Nat.xor (bs.getD i 0) 255)

/-- A small concrete encoded blob (the empty oplog, full encode). -/
def crcDemoBlob : Bytes := OpLog.new.encode true false

/-- A destination oplog holding agent `"a"`'s single assignment at local time 0,
but with frontier `[1]`: a StartBranch naming `("a", 0)` decodes to frontier `[0]`,
which differs. -/
def overlapDest : OpLog :=
  { client_data := [{ name := [97], item_times := [(⟨0, 1⟩, 0)] }],
    client_with_lv := [(0, { agent := 0, seq_range := ⟨0, 1⟩ })],
    operations := [], ins_content := [], del_content := [],
    history := [], frontier := [1] }

/-- A blob whose StartBranch frontier `("a", 0)` decodes (against `overlapDest`) to
`[0]`, mismatching `overlapDest.frontier`. -/
def overlapBlob : Bytes :=
  MAGIC_BYTES ++ (varintEnc PROTOCOL_VERSION ++
    (encodeChunk Chunk.FileInfo (encodeChunk Chunk.AgentNames (encodeAgentNames [[97]])) ++
      (encodeStartBranch [(0, 0)] ++ [])))

/-- Keys of an assignment list run consecutively from `t`: each key is the running
sum of the preceding span lengths. -/
def cwlConsecutive : Nat → List (Nat × CRDTSpan) → Bool
  | _, [] => true
  | t, (t0, s) :: rest => t0 == t && cwlConsecutive (t + s.len) rest

/-- History spans run consecutively from `t`: each entry starts where the previous
one stopped, with `start ≤ stop`. -/
def histSpansFrom : Nat → List HistoryEntry → Bool
  | _, [] => true
  | t, e :: rest =>
    e.span.start == t && decide (t ≤ e.span.stop) && histSpansFrom e.span.stop rest

/-! ### MarkerTree (`src/src/marker_tree/root.rs`) — claim C7.

`insert`'s three cases, the effect of `make_space_in_leaf`, and the
`check_leaf` / `check_internal` invariant are embedded from root.rs. The node
layout, `split_at` and `update_parent_count` live in the module's other files,
which are not under `src/`; those parts are modelled from the spec: a B-tree of
fixed fanout whose per-node aggregates equal the sum of descendant entry
lengths, splits propagating toward the root. -/

/-- Modelled from the spec: `NUM_ENTRIES`, the fixed node capacity (the spec
recommends nodes of at most 16 entries). -/
def NUM_ENTRIES : Nat := 16

/-- `CRDTLocation`: an agent (client) and a sequence number. -/
structure CRDTLocation where
  client : Nat
  seq : Nat
deriving DecidableEq, Repr

/-- A marker-tree entry: a location plus a signed length (negative once the run
is deleted). -/
structure Entry where
  loc : CRDTLocation
  len : Int
deriving DecidableEq, Repr

/-- Modelled from the spec: `get_text_len` — live characters, i.e. positive
lengths only (`content_len` sums positive entry lengths). -/
def Entry.getTextLen (e : Entry) : Nat := if 0 < e.len then e.len.toNat else 0

/-- Modelled from the spec: `get_seq_len` — the absolute length. -/
def Entry.getSeqLen (e : Entry) : Nat := e.len.natAbs

/-- Modelled from the spec: `keep_start` — truncate to the first `o` sequence
elements, keeping the liveness sign. -/
def Entry.keepStart (e : Entry) (o : Nat) : Entry :=
  { e with len := if e.len < 0 then -(o : Int) else (o : Int) }

/-- Modelled from the spec: `keep_end` — the remainder after the first `o`
sequence elements. -/
def Entry.keepEnd (e : Entry) (o : Nat) : Entry :=
  { loc := { client := e.loc.client, seq := e.loc.seq + o },
    len := if e.len < 0 then e.len + o else e.len - o }

/-- A marker-tree node: a leaf's ordered entries, or an internal node's
children, each cached with its subtree count (the `(u32, Option<Node>)` pairs of
the source, with the unused `None` suffix of the fixed array dropped). -/
inductive MNode where
  | leaf (entries : List Entry)
  | internal (children : List (Nat × MNode))

/-- Total text length of a leaf's entries (the sum `check_leaf` computes). -/
def sumTextLens : List Entry → Nat
  | [] => 0
  | e :: rest => e.getTextLen + sumTextLens rest

mutual
/-- The recursive text-length total of a subtree (what `check_leaf` /
`check_internal` compute). -/
def MNode.total : MNode → Nat
  | .leaf es => sumTextLens es
  | .internal cs => totalChildren cs
/-- The recursive total over a child list. -/
def totalChildren : List (Nat × MNode) → Nat
  | [] => 0
  | (_, c) :: rest => MNode.total c + totalChildren rest
end

mutual
/-- `check_internal`'s aggregate invariant: every cached child count equals that
child's recursive total, recursively. -/
def MNode.agg : MNode → Bool
  | .leaf _ => true
  | .internal cs => aggChildren cs
/-- The aggregate invariant over a child list. -/
def aggChildren : List (Nat × MNode) → Bool
  | [] => true
  | (n, c) :: rest => (n == MNode.total c) && MNode.agg c && aggChildren rest
end

/-- The tree root with its cached total count. -/
structure MarkerTree where
  count : Nat
  root : MNode

/-- `MarkerTree::check`: the whole-tree invariant — the root count equals the
recursive total and every cached aggregate matches. -/
def MarkerTree.wf (tr : MarkerTree) : Bool :=
  (tr.count == tr.root.total) && tr.root.agg

/-- A resolved cursor: the child index taken at each internal level, then the
entry index and the offset inside that entry at the leaf. -/
structure MCursor where
  path : List Nat
  idx : Nat
  offset : Nat
deriving DecidableEq, Repr

/-- The outcome of inserting into a subtree: the rebuilt node, or — after a
B-tree split — two nodes. -/
inductive InsRes where
  | one (n : MNode)
  | two (a b : MNode)

/-- Total of an insertion outcome. -/
def resTotal : InsRes → Nat
  | .one n => n.total
  | .two a b => a.total + b.total

/-- Aggregate invariant of an insertion outcome. -/
def resAgg : InsRes → Bool
  | .one n => n.agg
  | .two a b => a.agg && b.agg

/-- The rebuilt piece(s) as children, cached with their recomputed totals. -/
def resChildren : InsRes → List (Nat × MNode)
  | .one n => [(n.total, n)]
  | .two a b => [(a.total, a), (b.total, b)]

/-- `insert`'s effect on the leaf's entry list (root.rs lines 160-190 plus
`make_space_in_leaf`): a brand-new leaf takes the entry; an entry whose end the
cursor sits at and which the new location's sequence continues is extended in
place; otherwise the new entry is spliced in at the cursor, splitting the
current entry when the cursor is strictly inside it. A cursor the source's
assertions would reject gives `none`. -/
def insertIntoLeaf (es : List Entry) (idx offset len : Nat) (loc : CRDTLocation) :
    Option (List Entry) :=
  if idx = 0 ∧ es.length = 0 then some [Entry.mk loc (len : Int)]
  else
    match es.get? idx with
    | some old =>
      if 0 < old.len ∧ old.len.toNat = offset ∧ old.loc.client = loc.client ∧
          old.loc.seq + old.len.toNat = loc.seq then
        some (es.set idx (Entry.mk old.loc (old.len + (len : Int))))
      else if old.getSeqLen < offset then none
      else if offset = old.getSeqLen then
        some (es.take (idx + 1) ++ Entry.mk loc (len : Int) :: es.drop (idx + 1))
      else if offset = 0 then
        some (es.take idx ++ Entry.mk loc (len : Int) :: es.drop idx)
      else
        some (es.take idx ++ old.keepStart offset :: Entry.mk loc (len : Int) ::
          old.keepEnd offset :: es.drop (idx + 1))
    | none =>
      if idx = es.length ∧ offset = 0 then some (es ++ [Entry.mk loc (len : Int)])
      else none

/-- Modelled from the spec: a leaf that overflows `NUM_ENTRIES` splits in two. -/
def splitLeaf (es : List Entry) : InsRes :=
  if es.length ≤ NUM_ENTRIES then InsRes.one (.leaf es)
  else InsRes.two (.leaf (es.take (NUM_ENTRIES / 2))) (.leaf (es.drop (NUM_ENTRIES / 2)))

/-- Insert into a subtree along the cursor path; splits propagate upward and
every rebuilt child is cached with its recomputed total. -/
def insertNode : MNode → List Nat → Nat → Nat → Nat → CRDTLocation → Option InsRes
  | .leaf es, [], idx, offset, len, loc =>
    (insertIntoLeaf es idx offset len loc).map splitLeaf
  | .internal cs, i :: path, idx, offset, len, loc =>
    match cs.get? i with
    | none => none
    | some (_, c) =>
      match insertNode c path idx offset len loc with
      | none => none
      | some r =>
        let newChildren := cs.take i ++ resChildren r ++ cs.drop (i + 1)
        some (if newChildren.length ≤ NUM_ENTRIES then
            InsRes.one (.internal newChildren)
          else InsRes.two (.internal (newChildren.take (NUM_ENTRIES / 2)))
            (.internal (newChildren.drop (NUM_ENTRIES / 2))))
  | _, _, _, _, _, _ => none

/-- `MarkerTree::insert`: insert `len` characters at the cursor. The root count
grows by `len` (`update_parent_count` walking to the root) and a root split adds
a level. -/
def MarkerTree.insert (tr : MarkerTree) (cur : MCursor) (len : Nat)
    (loc : CRDTLocation) : Option MarkerTree :=
  match insertNode tr.root cur.path cur.idx cur.offset len loc with
  | none => none
  | some (InsRes.one n) => some (MarkerTree.mk (tr.count + len) n)
  | some (InsRes.two a b) =>
    some (MarkerTree.mk (tr.count + len) (.internal [(a.total, a), (b.total, b)]))

/-! ## Part B: theorems. Everything below this point is lemmas and claim theorems;
all definitions stand above this marker. -/

theorem zigzagDec_enc (z : Int) : zigzagDec (zigzagEnc z) = z := by
  rcases le_or_lt 0 z with h | h
  · have he : zigzagEnc z = 2 * z.toNat := by simp [zigzagEnc, h]
    rw [he]
    unfold zigzagDec
    rw [if_pos (by omega)]
    omega
  · have he : zigzagEnc z = 2 * (-z).toNat - 1 := by simp [zigzagEnc, not_le.mpr h]
    have hz : 1 ≤ (-z).toNat := by omega
    rw [he]
    unfold zigzagDec
    rw [if_neg (by omega)]
    omega

theorem varintEncF_nonempty (fuel n : Nat) : varintEncF fuel n ≠ [] := by
  cases fuel with
  | zero => simp [varintEncF]
  | succ f =>
    unfold varintEncF
    split <;> simp

theorem varintEnc_nonempty (n : Nat) : varintEnc n ≠ [] := varintEncF_nonempty n n

theorem varintDec_encF (fuel n : Nat) (h : n ≤ fuel) (rest : Bytes) :
    varintDec (varintEncF fuel n ++ rest) = DR.ok (n, (varintEncF fuel n).length) := by
  induction fuel generalizing n with
  | zero =>
    have : n = 0 := by omega
    subst this
    simp [varintEncF, varintDec]
  | succ f ih =>
    unfold varintEncF
    by_cases hn : n < 128
    · simp [varintDec, hn]
    · have hd : n / 128 ≤ f := by omega
      simp only [if_neg hn, List.cons_append, varintDec]
      rw [if_neg (by omega)]
      rw [ih (n / 128) hd]
      dsimp only
      have hmod : (n % 128 + 128) % 128 + 128 * (n / 128) = n := by omega
      rw [hmod]
      simp

theorem varintDec_enc (n : Nat) (rest : Bytes) :
    varintDec (varintEnc n ++ rest) = DR.ok (n, (varintEnc n).length) :=
  varintDec_encF n n le_rfl rest

theorem utf8EncodeCp_nonempty (c : Nat) : utf8EncodeCp c ≠ [] := by
  unfold utf8EncodeCp
  split
  · simp
  · split
    · simp
    · split <;> simp

theorem utf8DecodeCp_enc (c : Nat) (hc : ValidCp c) (rest : Bytes) :
    utf8DecodeCp (utf8EncodeCp c ++ rest) = some (c, rest) := by
  obtain ⟨h1, h2⟩ := hc
  unfold utf8EncodeCp
  by_cases ha : c < 128
  · rw [if_pos ha]
    simp only [List.cons_append, List.nil_append]
    unfold utf8DecodeCp
    dsimp only
    rw [if_pos ha]
  · rw [if_neg ha]
    by_cases hb : c < 2048
    · rw [if_pos hb]
      simp only [List.cons_append, List.nil_append]
      unfold utf8DecodeCp
      dsimp only
      rw [if_neg (by omega), if_neg (by omega), if_pos (by omega)]
      have hcont : utf8Cont (128 + c % 64) = true := by
        unfold utf8Cont
        simp only [Bool.and_eq_true, decide_eq_true_eq]
        omega
      rw [if_pos hcont]
      have : (192 + c / 64 - 192) * 64 + (128 + c % 64 - 128) = c := by omega
      rw [this]
    · rw [if_neg hb]
      by_cases hd : c < 65536
      · rw [if_pos hd]
        simp only [List.cons_append, List.nil_append]
        unfold utf8DecodeCp
        dsimp only
        rw [if_neg (by omega), if_neg (by omega), if_neg (by omega), if_pos (by omega)]
        have hcont : (utf8Cont (128 + c / 64 % 64) && utf8Cont (128 + c % 64)) = true := by
          unfold utf8Cont
          simp only [Bool.and_eq_true, decide_eq_true_eq]
          omega
        rw [if_pos hcont]
        have hval : (224 + c / 4096 - 224) * 4096 + (128 + c / 64 % 64 - 128) * 64 +
            (128 + c % 64 - 128) = c := by omega
        simp only [hval]
        rw [if_pos (by simp only [Bool.and_eq_true, decide_eq_true_eq, Bool.or_eq_true]; omega)]
      · rw [if_neg hd]
        simp only [List.cons_append, List.nil_append]
        unfold utf8DecodeCp
        dsimp only
        rw [if_neg (by omega), if_neg (by omega), if_neg (by omega), if_neg (by omega),
          if_pos (by omega)]
        have hcont : (utf8Cont (128 + c / 4096 % 64) && utf8Cont (128 + c / 64 % 64) &&
            utf8Cont (128 + c % 64)) = true := by
          unfold utf8Cont
          simp only [Bool.and_eq_true, decide_eq_true_eq]
          omega
        rw [if_pos hcont]
        have hval : (240 + c / 262144 - 240) * 262144 + (128 + c / 4096 % 64 - 128) * 4096 +
            (128 + c / 64 % 64 - 128) * 64 + (128 + c % 64 - 128) = c := by omega
        simp only [hval]
        rw [if_pos (by simp only [Bool.and_eq_true, decide_eq_true_eq]; omega)]

theorem utf8DecodeF_enc (fuel : Nat) (s : List Nat) (hs : ∀ c ∈ s, ValidCp c)
    (hfuel : (utf8Encode s).length ≤ fuel) :
    utf8DecodeF fuel (utf8Encode s) = some s := by
  induction fuel generalizing s with
  | zero =>
    cases s with
    | nil => simp [utf8Encode, utf8DecodeF]
    | cons c cs =>
      exfalso
      have h1 : utf8Encode (c :: cs) = utf8EncodeCp c ++ utf8Encode cs := rfl
      have := utf8EncodeCp_nonempty c
      rw [h1] at hfuel
      simp only [List.length_append, Nat.le_zero] at hfuel
      cases hc : utf8EncodeCp c with
      | nil => exact this hc
      | cons x xs => rw [hc] at hfuel; simp at hfuel
  | succ f ih =>
    cases s with
    | nil => simp [utf8Encode, utf8DecodeF]
    | cons c cs =>
      have h1 : utf8Encode (c :: cs) = utf8EncodeCp c ++ utf8Encode cs := rfl
      have hc : ValidCp c := hs c (by simp)
      have hcs : ∀ x ∈ cs, ValidCp x := fun x hx => hs x (by simp [hx])
      rw [h1]
      have hstep := utf8DecodeCp_enc c hc (utf8Encode cs)
      cases henc : utf8EncodeCp c with
      | nil => exact absurd henc (utf8EncodeCp_nonempty c)
      | cons x xs =>
        rw [henc] at hstep
        simp only [List.cons_append] at hstep
        simp only [List.cons_append]
        unfold utf8DecodeF
        rw [hstep]
        dsimp only
        have hlen : (utf8Encode cs).length ≤ f := by
          rw [h1, henc] at hfuel
          simp only [List.length_append, List.length_cons] at hfuel
          omega
        rw [ih cs hcs hlen]

theorem utf8Decode_encode (s : List Nat) (hs : ∀ c ∈ s, ValidCp c) :
    utf8Decode (utf8Encode s) = some s :=
  utf8DecodeF_enc (utf8Encode s).length s hs le_rfl

theorem utf8Encode_append (a b : List Nat) :
    utf8Encode (a ++ b) = utf8Encode a ++ utf8Encode b := by
  simp [utf8Encode]

/-! ### Reader-primitive lemmas: each primitive consumes exactly what the encoder
wrote. -/

theorem nextUsize_enc (n : Nat) (rest : Bytes) :
    nextUsize (varintEnc n ++ rest) = DR.ok (n, rest) := by
  unfold nextUsize checkHasBytes
  have hne := varintEnc_nonempty n
  rw [if_neg (by cases h : varintEnc n with
    | nil => exact absurd h hne
    | cons x xs => simp [h])]
  simp only [DR.monad_bind, DR.bind_ok, varintDec_enc n rest]
  rw [List.drop_left]

theorem nextZigzag_enc (z : Int) (rest : Bytes) :
    nextZigzag (varintEnc (zigzagEnc z) ++ rest) = DR.ok (z, rest) := by
  unfold nextZigzag
  rw [nextUsize_enc]
  simp only [DR.monad_bind, DR.bind_ok, zigzagDec_enc]

theorem peekU32_enc (n : Nat) (rest : Bytes) :
    peekU32 (varintEnc n ++ rest) = DR.ok (some n) := by
  unfold peekU32
  have hne := varintEnc_nonempty n
  rw [if_neg (by cases h : varintEnc n with
    | nil => exact absurd h hne
    | cons x xs => simp [h])]
  simp [varintDec_enc n rest]

theorem nextNBytes_exact (pre rest : Bytes) :
    nextNBytes (pre ++ rest) pre.length = DR.ok (pre, rest) := by
  unfold nextNBytes
  rw [if_neg (by simp), List.take_left, List.drop_left]

theorem chunkTryFrom_code (c : Chunk) : Chunk.tryFrom c.code = some c := by
  cases c <;> rfl

theorem chunk_code_lt (c : Chunk) : c.code < 128 := by
  cases c <;> simp [Chunk.code]

theorem varintEnc_small (n : Nat) (h : n < 128) : varintEnc n = [n] := by
  cases n with
  | zero => rfl
  | succ m =>
    show varintEncF (m + 1) (m + 1) = [m + 1]
    unfold varintEncF
    rw [if_pos h]

theorem nextChunk_enc (c : Chunk) (body rest : Bytes) :
    nextChunk (encodeChunk c body ++ rest) = DR.ok ((c, body), rest) := by
  unfold nextChunk encodeChunk
  rw [List.append_assoc, List.append_assoc]
  rw [nextUsize_enc]
  simp only [DR.monad_bind, DR.bind_ok, chunkTryFrom_code]
  rw [nextUsize_enc]
  simp only [DR.monad_bind, DR.bind_ok]
  rw [if_neg (by simp), nextNBytes_exact]
  simp

theorem expectChunk_enc (c : Chunk) (body rest : Bytes) :
    expectChunk c (encodeChunk c body ++ rest) = DR.ok (body, rest) := by
  unfold expectChunk
  rw [nextChunk_enc]
  simp

theorem readChunk_enc (c : Chunk) (body rest : Bytes) :
    readChunk c (encodeChunk c body ++ rest) = DR.ok (some body, rest) := by
  unfold readChunk
  have h1 : encodeChunk c body ++ rest = varintEnc c.code ++ (varintEnc body.length ++ body ++ rest) := by
    unfold encodeChunk
    simp [List.append_assoc]
  rw [h1, peekU32_enc]
  simp only [DR.monad_bind, DR.bind_ok]
  rw [if_neg (by simp), ← h1, nextChunk_enc]
  simp

theorem readChunk_skip (c c' : Chunk) (hne : c'.code ≠ c.code) (body rest : Bytes) :
    readChunk c (encodeChunk c' body ++ rest) = DR.ok (none, encodeChunk c' body ++ rest) := by
  unfold readChunk
  have h1 : encodeChunk c' body ++ rest = varintEnc c'.code ++ (varintEnc body.length ++ body ++ rest) := by
    unfold encodeChunk
    simp [List.append_assoc]
  rw [h1, peekU32_enc, ← h1]
  simp only [DR.monad_bind, DR.bind_ok]
  rw [if_pos hne]

theorem readChunk_nil (c : Chunk) : readChunk c [] = DR.ok (none, []) := rfl

theorem readMagic_prefix (rest : Bytes) :
    readMagic (MAGIC_BYTES ++ rest) = DR.ok rest := by
  unfold readMagic checkHasBytes
  rw [if_neg (by simp [MAGIC_BYTES])]
  simp only [DR.monad_bind, DR.bind_ok]
  rw [if_neg (by rw [show (8 : Nat) = MAGIC_BYTES.length from rfl, List.take_left]; simp)]
  rw [show (8 : Nat) = MAGIC_BYTES.length from rfl, List.drop_left]

theorem nextStr_enc (s : List Nat) (hs : ∀ c ∈ s, ValidCp c) (rest : Bytes) :
    nextStr (writeStr s ++ rest) = DR.ok (s, rest) := by
  unfold nextStr writeStr
  rw [List.append_assoc]
  have hne : ¬ (varintEnc (utf8Encode s).length ++ (utf8Encode s ++ rest)).isEmpty = true := by
    cases h : varintEnc (utf8Encode s).length with
    | nil => exact absurd h (varintEnc_nonempty _)
    | cons x xs => simp [h]
  rw [if_neg hne, nextUsize_enc]
  simp only [DR.monad_bind, DR.bind_ok]
  rw [if_neg (by simp), nextNBytes_exact]
  simp only [DR.monad_bind, DR.bind_ok]
  rw [utf8Decode_encode s hs]

/-! ### Claim C10: `PositionRun` truncate / append round-trip. -/

/-- C10: for every `PositionRun` built by `new_void` or `new_ins` and every `at` with
`0 < at < final_len`, `truncate at` leaves the run as the length-`at` prefix and
returns a remainder that `can_append` accepts, and appending it back restores the
original run exactly (same tag, final_len, content_len). `truncate` on an `Upstream`
run asserts (modelled as `none`). -/
theorem positionrun_truncate_roundtrip (len at_ : Nat) (hpos : 0 < at_) (hlt : at_ < len) :
    (∃ self rem, (PositionRun.new_void len).truncate at_ = some (self, rem) ∧
      self.len = at_ ∧ self.tag = MapTag.NotInsertedYet ∧
      self.can_append rem = true ∧ self.append rem = PositionRun.new_void len) ∧
    (∃ self rem, (PositionRun.new_ins len).truncate at_ = some (self, rem) ∧
      self.len = at_ ∧ self.tag = MapTag.Inserted ∧
      self.can_append rem = true ∧ self.append rem = PositionRun.new_ins len) ∧
    (∀ fl cl, (PositionRun.new_upstream fl cl).truncate at_ = none) := by
  refine ⟨⟨_, _, rfl, rfl, rfl, rfl, ?_⟩, ⟨_, _, rfl, rfl, rfl, rfl, ?_⟩,
    fun fl cl => rfl⟩
  · unfold PositionRun.append PositionRun.new_void
    simp only [PositionRun.mk.injEq, true_and, and_true]
    omega
  · unfold PositionRun.append PositionRun.new_ins
    simp only [PositionRun.mk.injEq, true_and, and_true]
    omega

/-- Witness for C10 at `len = 5`, `at = 2`. -/
theorem positionrun_truncate_roundtrip_witness :
    (∃ self rem, (PositionRun.new_void 5).truncate 2 = some (self, rem) ∧
      self.len = 2 ∧ self.tag = MapTag.NotInsertedYet ∧
      self.can_append rem = true ∧ self.append rem = PositionRun.new_void 5) ∧
    (∃ self rem, (PositionRun.new_ins 5).truncate 2 = some (self, rem) ∧
      self.len = 2 ∧ self.tag = MapTag.Inserted ∧
      self.can_append rem = true ∧ self.append rem = PositionRun.new_ins 5) ∧
    (∀ fl cl, (PositionRun.new_upstream fl cl).truncate 2 = none) :=
  positionrun_truncate_roundtrip 5 2 (by decide) (by decide)

/-! ### Claim C9: unicount. -/

theorem codepoint_size_encHead (c : Nat) (hc : ValidCp c) (h0 : c ≠ 0) :
    codepoint_size ((utf8EncodeCp c).getD 0 0) = (utf8EncodeCp c).length := by
  obtain ⟨h1, h2⟩ := hc
  unfold utf8EncodeCp
  by_cases ha : c < 128
  · rw [if_pos ha]
    simp only [List.getD_cons_zero, List.length_cons, List.length_nil]
    unfold codepoint_size
    rw [if_neg h0, if_pos (by omega)]
  · rw [if_neg ha]
    by_cases hb : c < 2048
    · rw [if_pos hb]
      simp only [List.getD_cons_zero, List.length_cons, List.length_nil]
      unfold codepoint_size
      rw [if_neg (by omega), if_neg (by omega), if_neg (by omega), if_pos (by omega)]
    · rw [if_neg hb]
      by_cases hd : c < 65536
      · rw [if_pos hd]
        simp only [List.getD_cons_zero, List.length_cons, List.length_nil]
        unfold codepoint_size
        rw [if_neg (by omega), if_neg (by omega), if_neg (by omega), if_neg (by omega),
          if_pos (by omega)]
      · rw [if_neg hd]
        simp only [List.getD_cons_zero, List.length_cons, List.length_nil]
        unfold codepoint_size
        rw [if_neg (by omega), if_neg (by omega), if_neg (by omega), if_neg (by omega),
          if_neg (by omega), if_pos (by omega)]

theorem strPosLoop_spec (whole : List Nat)
    (hv : ∀ c ∈ whole, ValidCp c) (h0 : ∀ c ∈ whole, c ≠ 0)
    (hlen : (utf8Encode whole).length < USIZE) :
    ∀ (k : Nat) (pre suf : List Nat), whole = pre ++ suf → k ≤ suf.length →
      strPosLoop (utf8Encode whole) k (utf8Encode pre).length =
        some (utf8Encode (pre ++ suf.take k)).length := by
  intro k
  induction k with
  | zero =>
    intro pre suf hw _
    simp [strPosLoop]
  | succ n ih =>
    intro pre suf hw hk
    cases suf with
    | nil => simp at hk
    | cons c suf2 =>
      have hc : ValidCp c := hv c (by rw [hw]; simp)
      have hc0 : c ≠ 0 := h0 c (by rw [hw]; simp)
      have hcs : utf8Encode (c :: suf2) = utf8EncodeCp c ++ utf8Encode suf2 := rfl
      have hwbytes : utf8Encode whole =
          utf8Encode pre ++ (utf8EncodeCp c ++ utf8Encode suf2) := by
        rw [hw, utf8Encode_append, hcs]
      have hcpne : 0 < (utf8EncodeCp c).length := by
        cases h : utf8EncodeCp c with
        | nil => exact absurd h (utf8EncodeCp_nonempty c)
        | cons x xs => simp [h]
      unfold strPosLoop
      have hcond : (utf8Encode pre).length < (utf8Encode whole).length := by
        rw [hwbytes]
        simp only [List.length_append]
        omega
      rw [if_pos hcond]
      have hgetD : (utf8Encode whole).getD (utf8Encode pre).length 0 =
          (utf8EncodeCp c).getD 0 0 := by
        rw [hwbytes, List.getD_append_right _ _ _ _ le_rfl]
        simp only [Nat.sub_self]
        rw [List.getD_append _ _ _ _ hcpne]
      rw [hgetD, codepoint_size_encHead c hc hc0]
      have hnb : (utf8Encode pre).length + (utf8EncodeCp c).length =
          (utf8Encode (pre ++ [c])).length := by
        rw [utf8Encode_append]
        simp [utf8Encode]
      have hbound : (utf8Encode pre).length + (utf8EncodeCp c).length < USIZE := by
        have : (utf8Encode whole).length =
            (utf8Encode pre).length + (utf8EncodeCp c).length + (utf8Encode suf2).length := by
          rw [hwbytes]
          simp only [List.length_append]
          omega
        omega
      rw [if_pos hbound, hnb]
      have hw2 : whole = (pre ++ [c]) ++ suf2 := by rw [hw]; simp
      have hk2 : n ≤ suf2.length := by simpa using hk
      rw [ih (pre ++ [c]) suf2 hw2 hk2]
      congr 2
      simp

/-- C9 (amended): for every valid UTF-8 string `s` (of byte length below `2^64`) and
`char_pos ≤ #chars`: when `s` is NUL-free, `str_pos_to_bytes_smol` returns the byte
offset of the `char_pos`-th character (the byte length of `s` at `char_pos = #chars`);
and `split_at_char` splits `s` into two substrings whose concatenation is `s` and
whose first part holds exactly `char_pos` characters. On strings containing a NUL
character `str_pos_to_bytes_smol` is wrong (`codepoint_size(0) = usize::MAX`); see the
counterexample. -/
theorem unicount_correct (s : List Nat) (charPos : Nat)
    (hv : ∀ c ∈ s, ValidCp c) (hp : charPos ≤ s.length)
    (hlen : (utf8Encode s).length < USIZE) :
    ((∀ c ∈ s, c ≠ 0) →
      str_pos_to_bytes_smol (utf8Encode s) charPos =
        some (utf8Encode (s.take charPos)).length) ∧
    str_pos_to_bytes s charPos = (utf8Encode (s.take charPos)).length ∧
    (split_at_char s charPos).1 ++ (split_at_char s charPos).2 = utf8Encode s ∧
    utf8Decode (split_at_char s charPos).1 = some (s.take charPos) ∧
    utf8Decode (split_at_char s charPos).2 = some (s.drop charPos) ∧
    (s.take charPos).length = charPos := by
  have hsplit : split_at_char s charPos =
      ((utf8Encode s).take (utf8Encode (s.take charPos)).length,
       (utf8Encode s).drop (utf8Encode (s.take charPos)).length) := by
    unfold split_at_char str_pos_to_bytes
    rw [List.splitAt_eq]
  have hdecomp : utf8Encode s = utf8Encode (s.take charPos) ++ utf8Encode (s.drop charPos) := by
    rw [← utf8Encode_append, List.take_append_drop]
  refine ⟨?_, rfl, ?_, ?_, ?_, ?_⟩
  · intro h0
    have := strPosLoop_spec s hv h0 hlen charPos [] s rfl hp
    unfold str_pos_to_bytes_smol
    have hnil : (utf8Encode []).length = 0 := rfl
    rw [← hnil, this]
    simp
  · rw [hsplit]
    simp
  · rw [hsplit]
    simp only
    rw [hdecomp, List.take_left]
    exact utf8Decode_encode _ (fun c hc => hv c (List.mem_of_mem_take hc))
  · rw [hsplit]
    simp only
    rw [hdecomp, List.drop_left]
    exact utf8Decode_encode _ (fun c hc => hv c (List.mem_of_mem_drop hc))
  · exact List.length_take_of_le hp

/-- Witness for C9 at `s = "ab¢"` (`[97, 98, 162]`), `char_pos = 2`. -/
theorem unicount_correct_witness :
    ((∀ c ∈ [97, 98, 162], c ≠ 0) →
      str_pos_to_bytes_smol (utf8Encode [97, 98, 162]) 2 =
        some (utf8Encode ([97, 98, 162].take 2)).length) ∧
    str_pos_to_bytes [97, 98, 162] 2 = (utf8Encode ([97, 98, 162].take 2)).length ∧
    (split_at_char [97, 98, 162] 2).1 ++ (split_at_char [97, 98, 162] 2).2 =
      utf8Encode [97, 98, 162] ∧
    utf8Decode (split_at_char [97, 98, 162] 2).1 = some ([97, 98, 162].take 2) ∧
    utf8Decode (split_at_char [97, 98, 162] 2).2 = some ([97, 98, 162].drop 2) ∧
    ([97, 98, 162].take 2).length = 2 :=
  unicount_correct [97, 98, 162] 2 (by decide) (by decide) (by decide)

/-- C9 counterexample: on the valid one-character UTF-8 string `"\x00"`,
`str_pos_to_bytes_smol` at `char_pos = 1` returns `usize::MAX` instead of the byte
length 1 (`codepoint_size` maps the NUL byte to `usize::MAX`). -/
theorem unicount_nul_counterexample :
    (∀ c ∈ [0], ValidCp c) ∧
    utf8Encode [0] = [0] ∧
    (utf8Encode [0]).length = 1 ∧
    str_pos_to_bytes_smol (utf8Encode [0]) 1 = some USIZE_MAX ∧
    USIZE_MAX ≠ 1 := by
  refine ⟨by decide, rfl, rfl, ?_, by decide⟩
  decide

set_option maxRecDepth 100000

/-! ### Claim C5: `next_internal` record decoding. -/

/-- C5: `ReadPatchesIter::next_internal` decodes a record exactly as the claim
describes (`readPatchSpec`): one varint with `has_length` / `diff_nonzero` / `del`
stripped in order from the low end; no-length records are single-character forward
records with the diff zigzag-packed in the remaining bits; length-carrying records
strip one further `fwd` bit for deletes and read the diff as a separate zigzag varint
only when `diff_nonzero`; the span starts at `last_cursor_pos + diff`. The
hypotheses `0 ≤ start < 2^64` say the cursor arithmetic does not wrap (the source
computes it with `isize::wrapping_add`). -/
theorem next_internal_refines_spec (buf : Bytes) (last : Nat)
    (startI : Int) (len : Nat) (fwd : Bool) (tag : InsDelTag) (buf' : Bytes)
    (hspec : readPatchSpec buf last = DR.ok ((startI, len, fwd, tag), buf'))
    (hlo : 0 ≤ startI) (hhi : startI < (USIZE : Int)) :
    nextInternal buf last = DR.ok
      ({ span := { span := ⟨startI.toNat, startI.toNat + len⟩, fwd := fwd },
         tag := tag, content_pos := none }, buf',
        if tag = InsDelTag.Ins ∧ fwd = true then startI.toNat + len else startI.toNat) := by
  unfold readPatchSpec at hspec
  unfold nextInternal
  cases hn : nextUsize buf with
  | err e =>
    rw [hn] at hspec
    simp at hspec
  | crash =>
    rw [hn] at hspec
    simp at hspec
  | ok p =>
    obtain ⟨n, buf1⟩ := p
    rw [hn] at hspec
    simp only [DR.monad_bind, DR.bind_ok] at hspec ⊢
    simp only [stripBit]
    have e2 : n / 2 / 2 = n / 4 := by omega
    simp only [e2]
    have e3 : n / 4 / 2 = n / 8 := by omega
    simp only [e3]
    have e4 : n / 8 / 2 = n / 16 := by omega
    simp only [e4]
    by_cases hL : n % 2 = 1
    · rw [if_pos hL] at hspec
      simp only [hL, decide_True, if_true, decide_eq_true_eq]
      by_cases hD : n / 4 % 2 = 1
      · rw [if_pos hD] at hspec
        simp only [hD, if_true] at hspec
        simp only [hD, decide_True, if_true, decide_eq_true_eq]
        by_cases hZ : n / 2 % 2 = 1
        · rw [if_pos hZ] at hspec
          simp only [hZ, decide_True, if_true, decide_eq_true_eq]
          cases hzz : nextZigzag buf1 with
          | err e =>
            rw [hzz] at hspec
            simp at hspec
          | crash =>
            rw [hzz] at hspec
            simp at hspec
          | ok q =>
            obtain ⟨diff, buf2⟩ := q
            rw [hzz] at hspec
            simp only [DR.bind_ok, DR.ok.injEq, Prod.mk.injEq] at hspec
            obtain ⟨⟨hs, hl, hf, ht⟩, hb⟩ := hspec
            subst hl hf ht hb
            simp only [DR.bind_ok]
            have hmod : startI % (USIZE : Int) = startI := Int.emod_eq_of_lt hlo hhi
            simp [hs, hmod]
        · rw [if_neg hZ] at hspec
          simp only [DR.bind_ok, DR.ok.injEq, Prod.mk.injEq] at hspec
          obtain ⟨⟨hs, hl, hf, ht⟩, hb⟩ := hspec
          subst hl hf ht hb
          simp only [hZ, decide_False, if_false, Bool.false_eq_true, DR.bind_ok]
          have hmod : startI % (USIZE : Int) = startI := Int.emod_eq_of_lt hlo hhi
          simp [hs, hmod]
      · rw [if_neg hD] at hspec
        simp only [hD, if_false] at hspec
        simp only [hD, decide_False, Bool.false_eq_true, if_false,
          decide_eq_true_eq]
        by_cases hZ : n / 2 % 2 = 1
        · rw [if_pos hZ] at hspec
          simp only [hZ, decide_True, if_true, decide_eq_true_eq]
          cases hzz : nextZigzag buf1 with
          | err e =>
            rw [hzz] at hspec
            simp at hspec
          | crash =>
            rw [hzz] at hspec
            simp at hspec
          | ok q =>
            obtain ⟨diff, buf2⟩ := q
            rw [hzz] at hspec
            simp only [DR.bind_ok, DR.ok.injEq, Prod.mk.injEq] at hspec
            obtain ⟨⟨hs, hl, hf, ht⟩, hb⟩ := hspec
            subst hl hf ht hb
            simp only [DR.bind_ok]
            have hmod : startI % (USIZE : Int) = startI := Int.emod_eq_of_lt hlo hhi
            simp [hs, hmod]
        · rw [if_neg hZ] at hspec
          simp only [DR.bind_ok, DR.ok.injEq, Prod.mk.injEq] at hspec
          obtain ⟨⟨hs, hl, hf, ht⟩, hb⟩ := hspec
          subst hl hf ht hb
          simp only [hZ, decide_False, if_false, Bool.false_eq_true, DR.bind_ok]
          have hmod : startI % (USIZE : Int) = startI := Int.emod_eq_of_lt hlo hhi
          simp [hs, hmod]
    · rw [if_neg hL] at hspec
      simp only [DR.ok.injEq, Prod.mk.injEq] at hspec
      obtain ⟨⟨hs, hl, hf, ht⟩, hb⟩ := hspec
      subst hl hf ht hb
      simp only [hL, decide_False, Bool.false_eq_true, if_false]
      have hmod : startI % (USIZE : Int) = startI := Int.emod_eq_of_lt hlo hhi
      by_cases hD : n / 4 % 2 = 1
      · simp [hD, hs, hmod]
      · simp [hD, hs, hmod]

/-- Witness for C5: a concrete delete record with length (varint `95 = 0b1011111`:
`has_length`, `diff_nonzero`, `del`, `fwd` set, length 5) followed by the zigzag diff
`-3` (varint 5), decoded at `last_cursor_pos = 7`: span `[4, 9)` forward delete. -/
theorem next_internal_refines_spec_witness :
    nextInternal [95, 5] 7 = DR.ok
      ({ span := { span := ⟨Int.toNat 4, Int.toNat 4 + 5⟩, fwd := true },
         tag := InsDelTag.Del, content_pos := none }, [],
        if InsDelTag.Del = InsDelTag.Ins ∧ true = true then Int.toNat 4 + 5
        else Int.toNat 4) :=
  next_internal_refines_spec [95, 5] 7 4 5 true InsDelTag.Del []
    (by decide) (by decide) (by decide)

/-! ### Claim C6: the S1 scenario. -/

/-- C6 (amended): in the S1 scenario (insert `"hi there"` at 0, delete 4 at position
3, insert `"m"` at 3) the final document content is `"hi me"`
(`[104, 105, 32, 109, 101]`), not `"him ere"`; and encoding the resulting OpLog and
reloading it yields an equal OpLog. -/
theorem simple_doc_content_and_roundtrip :
    simple_doc.content = [104, 105, 32, 109, 101] ∧
    OpLog.loadFrom (simple_doc.ops.encode true false) = DR.ok simple_doc.ops := by
  constructor
  · rfl
  · rfl

/-- C6 counterexample: the scenario's final content is not `"him ere"`
(`[104, 105, 109, 32, 101, 114, 101]`), the literal the claim states. -/
theorem simple_doc_not_him_ere :
    simple_doc.content ≠ [104, 105, 109, 32, 101, 114, 101] := by decide

/-! ### Claim C3, counterexample part: a single byte flip the decoder misses. -/

/-- C3 counterexample: `crcDemoBlob` is an encoded blob (it loads back), and flipping
the single byte at index `length - 6` — the CRC chunk's type byte — makes the decoder
skip checksum verification entirely: `load_from` still succeeds. So not every
single-byte flip causes `load_from` to fail. -/
theorem crc_flip_not_detected :
    crcDemoBlob = OpLog.new.encode true false ∧
    OpLog.loadFrom crcDemoBlob = DR.ok OpLog.new ∧
    DR.isOk (OpLog.loadFrom (flipByte crcDemoBlob (crcDemoBlob.length - 6))) = true := by
  refine ⟨rfl, by rfl, by rfl⟩

/-! ### Round-trip phase lemmas: each decoder loop consumes exactly what the encoder
wrote and reproduces the encoded state. -/

theorem length_set_eq {α : Type} (l : List α) (i : Nat) (x : α) :
    (l.set i x).length = l.length := by simp

theorem assign_preserves_client_len (o : OpLog) (nt : Nat) (s : CRDTSpan) :
    (o.assignNextTimeToCrdtSpan nt s).client_data.length = o.client_data.length := by
  unfold OpLog.assignNextTimeToCrdtSpan
  cases h : o.client_data.get? s.agent <;> simp

theorem mapId_set (map : List (Nat × Nat)) (a v : Nat)
    (hid : ∀ i (h : i < map.length), (map.get ⟨i, h⟩).1 = i) :
    ∀ i (h : i < (map.set a (a, v)).length), ((map.set a (a, v)).get ⟨i, h⟩).1 = i := by
  intro i h
  have hlen2 : i < map.length := by simpa using h
  rw [List.get_eq_getElem]
  by_cases hieq : a = i
  · subst hieq
    rw [List.getElem_set_self]
  · rw [List.getElem_set_ne hieq]
    have := hid i hlen2
    rw [List.get_eq_getElem] at this
    exact this

theorem readAssignmentLoop_enc (spans : List (Nat × CRDTSpan)) :
    ∀ (fuel : Nat) (o : OpLog) (map : List (Nat × Nat)) (nt : Nat),
    spans.length < fuel →
    map.length = o.client_data.length →
    (∀ i (h : i < map.length), (map.get ⟨i, h⟩).1 = i) →
    (∀ e ∈ spans, e.2.agent < o.client_data.length ∧
      e.2.seq_range.start ≤ e.2.seq_range.stop ∧ e.2.seq_range.stop < USIZE) →
    ∃ map2, readAssignmentLoop fuel o map nt (encodeAssignments map spans) =
      DR.ok (applyAssignments o nt spans, map2, nt + sumSpanLens spans) := by
  induction spans with
  | nil =>
    intro fuel o map nt hfuel _ _ _
    cases fuel with
    | zero => omega
    | succ f =>
      refine ⟨map, ?_⟩
      unfold readAssignmentLoop readNextAgentAssignment encodeAssignments
      simp [applyAssignments, sumSpanLens]
  | cons hd tl ih =>
    intro fuel o map nt hfuel hmaplen hid hagents
    obtain ⟨t, s⟩ := hd
    cases fuel with
    | zero => omega
    | succ f =>
      obtain ⟨hagent, hse, hsu⟩ := hagents (t, s) (by simp)
      dsimp only at hagent hse hsu
      have hagent' : s.agent < map.length := by omega
      have hget : map.get? s.agent = some (s.agent, (map.get ⟨s.agent, hagent'⟩).2) := by
        rw [List.get?_eq_get hagent']
        have := hid s.agent hagent'
        cases hg : map.get ⟨s.agent, hagent'⟩ with
        | mk a c =>
          rw [hg] at this
          simp at this
          simp [this]
      set cursor := (map.get ⟨s.agent, hagent'⟩).2 with hcursor
      have hgetD : ((map.get? s.agent).getD (0, 0)).2 = cursor := by
        rw [hget]
        rfl
      set jump : Int := (s.seq_range.start : Int) - (cursor : Int) with hjump
      have hstop : s.seq_range.start + s.seq_range.len = s.seq_range.stop := by
        unfold TimeSpan.len
        omega
      have hrec : readNextAgentAssignment
          (varintEnc ((s.agent + 1) * 2 + (if jump = 0 then 0 else 1)) ++
            (varintEnc s.seq_range.len ++
              ((if jump = 0 then [] else varintEnc (zigzagEnc jump)) ++
                encodeAssignments (map.set s.agent (s.agent, s.seq_range.stop)) tl))) map =
          DR.ok (some ({ agent := s.agent, seq_range := s.seq_range },
            map.set s.agent (s.agent, s.seq_range.stop)),
            encodeAssignments (map.set s.agent (s.agent, s.seq_range.stop)) tl) := by
        unfold readNextAgentAssignment
        rw [if_neg (by
          cases h : varintEnc ((s.agent + 1) * 2 + (if jump = 0 then 0 else 1)) with
          | nil => exact absurd h (varintEnc_nonempty _)
          | cons x xs => simp [h])]
        rw [nextUsize_enc]
        simp only [DR.monad_bind, DR.bind_ok, stripBit]
        by_cases hj : jump = 0
        · simp only [hj, reduceIte, List.nil_append]
          rw [nextUsize_enc]
          simp only [DR.bind_ok]
          rw [if_neg (by
            simp only [decide_eq_true_eq]
            omega)]
          try simp only [DR.monad_bind, DR.bind_ok]
          rw [if_neg (by omega)]
          have e3 : ((s.agent + 1) * 2 + 0) / 2 - 1 = s.agent := by omega
          have hstart0 : (((cursor : Int) + 0) % (USIZE : Int)).toNat = s.seq_range.start := by
            have h1 : (cursor : Int) + 0 = (s.seq_range.start : Int) := by omega
            rw [h1, Int.emod_eq_of_lt (by omega) (by omega)]
            simp
          rw [e3, hget]
          try dsimp only
          try simp only [hstart0, hstop]
          try rfl
          try simp only [hstop]
          try rfl
        · simp only [if_neg hj]
          rw [nextUsize_enc]
          simp only [DR.bind_ok]
          rw [if_pos (by
            simp only [decide_eq_true_eq]
            omega)]
          unfold nextZigzag
          rw [nextUsize_enc]
          simp only [DR.monad_bind, DR.bind_ok, zigzagDec_enc]
          rw [if_neg (by omega)]
          try simp only [DR.monad_bind, DR.bind_ok]
          have e3 : ((s.agent + 1) * 2 + 1) / 2 - 1 = s.agent := by omega
          have hstart : (((cursor : Int) + jump) % (USIZE : Int)).toNat = s.seq_range.start := by
            have h1 : (cursor : Int) + jump = (s.seq_range.start : Int) := by omega
            rw [h1, Int.emod_eq_of_lt (by omega) (by omega)]
            simp
          rw [e3, hget]
          try dsimp only
          try simp only [hstart, hstop]
          try rfl
          try simp only [hstop]
          try rfl
      unfold encodeAssignments
      rw [hgetD]
      unfold readAssignmentLoop
      simp only [List.append_assoc]
      rw [hrec]
      simp only [DR.monad_bind, DR.bind_ok]
      rw [if_neg (by omega)]
      have hrest := ih f (o.assignNextTimeToCrdtSpan nt { agent := s.agent, seq_range := s.seq_range })
        (map.set s.agent (s.agent, s.seq_range.stop)) (nt + ({ agent := s.agent, seq_range := s.seq_range } : CRDTSpan).len)
        (by
          simp only [List.length_cons] at hfuel
          omega)
        (by rw [length_set_eq, assign_preserves_client_len]; exact hmaplen)
        (mapId_set map s.agent s.seq_range.stop hid)
        (by
          intro e he
          have := hagents e (by simp [he])
          rw [assign_preserves_client_len]
          exact this)
      obtain ⟨map2, hrest⟩ := hrest
      refine ⟨map2, ?_⟩
      have hsum : nt + ({ agent := s.agent, seq_range := s.seq_range } : CRDTSpan).len + sumSpanLens tl =
          nt + sumSpanLens ((t, s) :: tl) := by
        simp only [sumSpanLens, CRDTSpan.len, TimeSpan.len]
        omega
      rw [hrest, hsum]
      simp only [applyAssignments]

theorem nextInternal_encRecord (op : OperationInternal) (lastCur : Nat) (rest : Bytes)
    (hlen : 0 < op.len) (hstopU : op.span.span.stop < USIZE)
    (hfwdIns : op.tag = InsDelTag.Ins → op.span.fwd = true)
    (hfwd1 : op.len = 1 → op.span.fwd = true) :
    nextInternal ((encodePatchRecord lastCur op).1 ++ rest) lastCur =
      DR.ok ({ span := op.span, tag := op.tag, content_pos := none }, rest,
        (encodePatchRecord lastCur op).2) := by
  obtain ⟨⟨⟨ss, se⟩, fw⟩, tg, cp⟩ := op
  unfold OperationInternal.len TimeSpan.len at hlen hfwd1
  dsimp only at hlen hfwd1 hstopU hfwdIns
  have hss : ss < se := by omega
  have hsU : (ss : Int) < (USIZE : Int) := by exact_mod_cast Nat.lt_trans hss hstopU
  have hstart : (((lastCur : Int) + ((ss : Int) - (lastCur : Int))) %
      (USIZE : Int)).toNat = ss := by
    have h2 : (lastCur : Int) + ((ss : Int) - (lastCur : Int)) = (ss : Int) := by omega
    rw [h2, Int.emod_eq_of_lt (by omega) hsU]
    simp
  unfold encodePatchRecord nextInternal
  unfold OperationInternal.len TimeSpan.len
  dsimp only
  by_cases hone : se - ss = 1
  · rw [if_pos hone]
    have hfw : fw = true := hfwd1 hone
    subst hfw
    have hse : se = ss + 1 := by omega
    subst hse
    cases tg with
    | Ins =>
      by_cases hz : (ss : Int) - (lastCur : Int) = 0
      · simp only [reduceIte, reduceCtorEq, if_pos hz, Nat.add_zero]
        rw [nextUsize_enc]
        simp only [DR.monad_bind, DR.bind_ok, stripBit]
        have b0 : decide (zigzagEnc ((ss : Int) - (lastCur : Int)) * 2 * 2 * 2 % 2 = 1)
            = false := by
          simp only [decide_eq_false_iff_not]
          omega
        have b2 : decide (zigzagEnc ((ss : Int) - (lastCur : Int)) * 2 * 2 * 2 / 2 / 2 % 2
            = 1) = false := by
          simp only [decide_eq_false_iff_not]
          omega
        have d3 : zigzagEnc ((ss : Int) - (lastCur : Int)) * 2 * 2 * 2 / 2 / 2 / 2
            = zigzagEnc ((ss : Int) - (lastCur : Int)) := by omega
        simp only [b0, b2, d3, reduceIte, zigzagDec_enc, hstart, DR.monad_bind, DR.bind_ok]
        try simp
        try omega
      · simp only [reduceIte, reduceCtorEq, if_neg hz, Nat.add_zero]
        rw [nextUsize_enc]
        simp only [DR.monad_bind, DR.bind_ok, stripBit]
        have b0 : decide ((zigzagEnc ((ss : Int) - (lastCur : Int)) * 2 * 2 + 1) * 2 % 2 = 1)
            = false := by
          simp only [decide_eq_false_iff_not]
          omega
        have b2 : decide ((zigzagEnc ((ss : Int) - (lastCur : Int)) * 2 * 2 + 1) * 2 / 2 / 2
            % 2 = 1) = false := by
          simp only [decide_eq_false_iff_not]
          omega
        have d3 : (zigzagEnc ((ss : Int) - (lastCur : Int)) * 2 * 2 + 1) * 2 / 2 / 2 / 2
            = zigzagEnc ((ss : Int) - (lastCur : Int)) := by omega
        simp only [b0, b2, d3, reduceIte, zigzagDec_enc, hstart, DR.monad_bind, DR.bind_ok]
        try simp
        try omega
    | Del =>
      by_cases hz : (ss : Int) - (lastCur : Int) = 0
      · simp only [reduceIte, reduceCtorEq, if_pos hz, Nat.add_zero]
        rw [nextUsize_enc]
        simp only [DR.monad_bind, DR.bind_ok, stripBit]
        have b0 : decide ((zigzagEnc ((ss : Int) - (lastCur : Int)) * 2 + 1) * 2 * 2 % 2 = 1)
            = false := by
          simp only [decide_eq_false_iff_not]
          omega
        have b2 : decide ((zigzagEnc ((ss : Int) - (lastCur : Int)) * 2 + 1) * 2 * 2 / 2 / 2
            % 2 = 1) = true := by
          simp only [decide_eq_true_eq]
          omega
        have d3 : (zigzagEnc ((ss : Int) - (lastCur : Int)) * 2 + 1) * 2 * 2 / 2 / 2 / 2
            = zigzagEnc ((ss : Int) - (lastCur : Int)) := by omega
        simp only [b0, b2, d3, reduceIte, zigzagDec_enc, hstart, DR.monad_bind, DR.bind_ok]
        try simp
        try omega
      · simp only [reduceIte, reduceCtorEq, if_neg hz, Nat.add_zero]
        rw [nextUsize_enc]
        simp only [DR.monad_bind, DR.bind_ok, stripBit]
        have b0 : decide (((zigzagEnc ((ss : Int) - (lastCur : Int)) * 2 + 1) * 2 + 1) * 2
            % 2 = 1) = false := by
          simp only [decide_eq_false_iff_not]
          omega
        have b2 : decide (((zigzagEnc ((ss : Int) - (lastCur : Int)) * 2 + 1) * 2 + 1) * 2
            / 2 / 2 % 2 = 1) = true := by
          simp only [decide_eq_true_eq]
          omega
        have d3 : ((zigzagEnc ((ss : Int) - (lastCur : Int)) * 2 + 1) * 2 + 1) * 2 / 2 / 2
            / 2 = zigzagEnc ((ss : Int) - (lastCur : Int)) := by omega
        simp only [b0, b2, d3, reduceIte, zigzagDec_enc, hstart, DR.monad_bind, DR.bind_ok]
        try simp
        try omega
  · rw [if_neg hone]
    have hplus : ss + (se - ss) = se := by omega
    cases tg with
    | Ins =>
      have hfw : fw = true := hfwdIns rfl
      subst hfw
      by_cases hz : (ss : Int) - (lastCur : Int) = 0
      · simp only [reduceIte, reduceCtorEq, if_pos hz, Nat.add_zero, List.append_nil]
        rw [nextUsize_enc]
        simp only [DR.monad_bind, DR.bind_ok, stripBit]
        have hlc : (lastCur : Int) = (ss : Int) := by omega
        have hstart0 : (((lastCur : Int) + 0) % (USIZE : Int)).toNat = ss := by
          rw [Int.add_zero, hlc, Int.emod_eq_of_lt (by omega) hsU]
          simp
        have b0 : decide (((se - ss) * 2 * 2 * 2 + 1) % 2 = 1) = true := by
          simp only [decide_eq_true_eq]
          omega
        have b1 : decide (((se - ss) * 2 * 2 * 2 + 1) / 2 % 2 = 1) = false := by
          simp only [decide_eq_false_iff_not]
          omega
        have b2 : decide (((se - ss) * 2 * 2 * 2 + 1) / 2 / 2 % 2 = 1) = false := by
          simp only [decide_eq_false_iff_not]
          omega
        have d3 : ((se - ss) * 2 * 2 * 2 + 1) / 2 / 2 / 2 = se - ss := by omega
        simp only [b0, b1, b2, d3, reduceIte, hstart0, hplus, DR.monad_bind, DR.bind_ok]
        try simp
        try omega
      · simp only [reduceIte, reduceCtorEq, if_neg hz, Nat.add_zero]
        rw [List.append_assoc, nextUsize_enc]
        simp only [DR.monad_bind, DR.bind_ok, stripBit]
        have b0 : decide ((((se - ss) * 2 * 2 + 1) * 2 + 1) % 2 = 1) = true := by
          simp only [decide_eq_true_eq]
          omega
        have b1 : decide ((((se - ss) * 2 * 2 + 1) * 2 + 1) / 2 % 2 = 1) = true := by
          simp only [decide_eq_true_eq]
          omega
        have b2 : decide ((((se - ss) * 2 * 2 + 1) * 2 + 1) / 2 / 2 % 2 = 1) = false := by
          simp only [decide_eq_false_iff_not]
          omega
        have d3 : (((se - ss) * 2 * 2 + 1) * 2 + 1) / 2 / 2 / 2 = se - ss := by omega
        simp only [b0, b1, b2, d3, reduceIte, nextZigzag_enc, hstart, hplus,
          DR.monad_bind, DR.bind_ok]
        try simp
        try omega
    | Del =>
      cases fw with
      | false =>
        by_cases hz : (ss : Int) - (lastCur : Int) = 0
        · simp only [reduceIte, reduceCtorEq, if_pos hz, Nat.add_zero, List.append_nil]
          rw [nextUsize_enc]
          simp only [DR.monad_bind, DR.bind_ok, stripBit]
          have hlc : (lastCur : Int) = (ss : Int) := by omega
          have hstart0 : (((lastCur : Int) + 0) % (USIZE : Int)).toNat = ss := by
            rw [Int.add_zero, hlc, Int.emod_eq_of_lt (by omega) hsU]
            simp
          have b0 : decide ((((se - ss) * 2 * 2 + 1) * 2 * 2 + 1) % 2 = 1) = true := by
            simp only [decide_eq_true_eq]
            omega
          have b1 : decide ((((se - ss) * 2 * 2 + 1) * 2 * 2 + 1) / 2 % 2 = 1) = false := by
            simp only [decide_eq_false_iff_not]
            omega
          have b2 : decide ((((se - ss) * 2 * 2 + 1) * 2 * 2 + 1) / 2 / 2 % 2 = 1)
              = true := by
            simp only [decide_eq_true_eq]
            omega
          have b3 : decide ((((se - ss) * 2 * 2 + 1) * 2 * 2 + 1) / 2 / 2 / 2 % 2 = 1)
              = false := by
            simp only [decide_eq_false_iff_not]
            omega
          have d4 : (((se - ss) * 2 * 2 + 1) * 2 * 2 + 1) / 2 / 2 / 2 / 2 = se - ss := by
            omega
          simp only [b0, b1, b2, b3, d4, reduceIte, hstart0, hplus, DR.monad_bind,
            DR.bind_ok]
          try simp
          try omega
        · simp only [reduceIte, reduceCtorEq, if_neg hz, Nat.add_zero]
          rw [List.append_assoc, nextUsize_enc]
          simp only [DR.monad_bind, DR.bind_ok, stripBit]
          have b0 : decide (((((se - ss) * 2 * 2 + 1) * 2 + 1) * 2 + 1) % 2 = 1)
              = true := by
            simp only [decide_eq_true_eq]
            omega
          have b1 : decide (((((se - ss) * 2 * 2 + 1) * 2 + 1) * 2 + 1) / 2 % 2 = 1)
              = true := by
            simp only [decide_eq_true_eq]
            omega
          have b2 : decide (((((se - ss) * 2 * 2 + 1) * 2 + 1) * 2 + 1) / 2 / 2 % 2 = 1)
              = true := by
            simp only [decide_eq_true_eq]
            omega
          have b3 : decide (((((se - ss) * 2 * 2 + 1) * 2 + 1) * 2 + 1) / 2 / 2 / 2 % 2 = 1)
              = false := by
            simp only [decide_eq_false_iff_not]
            omega
          have d4 : ((((se - ss) * 2 * 2 + 1) * 2 + 1) * 2 + 1) / 2 / 2 / 2 / 2
              = se - ss := by omega
          simp only [b0, b1, b2, b3, d4, reduceIte, nextZigzag_enc, hstart, hplus,
            DR.monad_bind, DR.bind_ok]
          try simp
          try omega
      | true =>
        by_cases hz : (ss : Int) - (lastCur : Int) = 0
        · simp only [reduceIte, reduceCtorEq, if_pos hz, Nat.add_zero, List.append_nil]
          rw [nextUsize_enc]
          simp only [DR.monad_bind, DR.bind_ok, stripBit]
          have hlc : (lastCur : Int) = (ss : Int) := by omega
          have hstart0 : (((lastCur : Int) + 0) % (USIZE : Int)).toNat = ss := by
            rw [Int.add_zero, hlc, Int.emod_eq_of_lt (by omega) hsU]
            simp
          have b0 : decide (((((se - ss) * 2 + 1) * 2 + 1) * 2 * 2 + 1) % 2 = 1)
              = true := by
            simp only [decide_eq_true_eq]
            omega
          have b1 : decide (((((se - ss) * 2 + 1) * 2 + 1) * 2 * 2 + 1) / 2 % 2 = 1)
              = false := by
            simp only [decide_eq_false_iff_not]
            omega
          have b2 : decide (((((se - ss) * 2 + 1) * 2 + 1) * 2 * 2 + 1) / 2 / 2 % 2 = 1)
              = true := by
            simp only [decide_eq_true_eq]
            omega
          have b3 : decide (((((se - ss) * 2 + 1) * 2 + 1) * 2 * 2 + 1) / 2 / 2 / 2 % 2 = 1)
              = true := by
            simp only [decide_eq_true_eq]
            omega
          have d4 : ((((se - ss) * 2 + 1) * 2 + 1) * 2 * 2 + 1) / 2 / 2 / 2 / 2
              = se - ss := by omega
          simp only [b0, b1, b2, b3, d4, reduceIte, hstart0, hplus, DR.monad_bind,
            DR.bind_ok]
          try simp
          try omega
        · simp only [reduceIte, reduceCtorEq, if_neg hz, Nat.add_zero]
          rw [List.append_assoc, nextUsize_enc]
          simp only [DR.monad_bind, DR.bind_ok, stripBit]
          have b0 : decide ((((((se - ss) * 2 + 1) * 2 + 1) * 2 + 1) * 2 + 1) % 2 = 1)
              = true := by
            simp only [decide_eq_true_eq]
            omega
          have b1 : decide ((((((se - ss) * 2 + 1) * 2 + 1) * 2 + 1) * 2 + 1) / 2 % 2 = 1)
              = true := by
            simp only [decide_eq_true_eq]
            omega
          have b2 : decide ((((((se - ss) * 2 + 1) * 2 + 1) * 2 + 1) * 2 + 1) / 2 / 2 % 2
              = 1) = true := by
            simp only [decide_eq_true_eq]
            omega
          have b3 : decide ((((((se - ss) * 2 + 1) * 2 + 1) * 2 + 1) * 2 + 1) / 2 / 2 / 2
              % 2 = 1) = true := by
            simp only [decide_eq_true_eq]
            omega
          have d4 : (((((se - ss) * 2 + 1) * 2 + 1) * 2 + 1) * 2 + 1) / 2 / 2 / 2 / 2
              = se - ss := by omega
          simp only [b0, b1, b2, b3, d4, reduceIte, nextZigzag_enc, hstart, hplus,
            DR.monad_bind, DR.bind_ok]
          try simp
          try omega

theorem iteTT {α : Sort _} (a b : α) : (if true = true then a else b) = a := rfl

theorem iteFT {α : Sort _} (a b : α) : (if false = true then a else b) = b := rfl

theorem encodePatchRecord_fst_ne_nil (lc : Nat) (op : OperationInternal) :
    (encodePatchRecord lc op).1 ≠ [] := by
  unfold encodePatchRecord
  dsimp only
  by_cases h : op.len = 1
  · rw [if_pos h]
    exact varintEnc_nonempty _
  · rw [if_neg h]
    intro hc
    rcases List.append_eq_nil.mp hc with ⟨h1, _⟩
    exact varintEnc_nonempty _ h1

theorem readPatchesLoop_enc (sIns sDel : Bool) (ops : List (Nat × OperationInternal)) :
    ∀ (fuel : Nat) (o : OpLog) (insC delC : List Nat) (lastCur nt : Nat),
    ops.length < fuel →
    opsConsecutive nt ops = true →
    opsContentOk sIns sDel o.ins_content.length o.del_content.length ops = true →
    (sIns = true → sumInsLens ops ≤ insC.length) →
    (sDel = true → sumDelLens ops ≤ delC.length) →
    readPatchesLoop fuel o (if sIns then some insC else none)
        (if sDel then some delC else none) lastCur nt (encodePatches lastCur ops) =
      DR.ok ({ o with
          operations := o.operations ++ ops,
          ins_content := o.ins_content ++ (if sIns then insC.take (sumInsLens ops) else []),
          del_content := o.del_content ++
            (if sDel then delC.take (sumDelLens ops) else []) },
        (if sIns then some (insC.drop (sumInsLens ops)) else none),
        (if sDel then some (delC.drop (sumDelLens ops)) else none),
        nt + sumOpLens ops) := by
  induction ops with
  | nil =>
    intro fuel o insC delC lastCur nt hfuel _ _ _ _
    cases fuel with
    | zero => omega
    | succ f =>
      unfold readPatchesLoop encodePatches
      simp only [List.isEmpty_nil, if_true, sumInsLens, sumDelLens, sumOpLens,
        List.take_zero, List.drop_zero, List.append_nil, ite_self, Nat.add_zero]
      try rfl
  | cons hd rest ih =>
    intro fuel o insC delC lastCur nt hfuel hops hcont hins hdel
    obtain ⟨t0, op⟩ := hd
    cases fuel with
    | zero => omega
    | succ f =>
      simp only [opsConsecutive, Bool.and_eq_true, beq_iff_eq, decide_eq_true_eq] at hops
      obtain ⟨⟨⟨⟨⟨ht0, hlen⟩, hstop⟩, hfwdIns⟩, hfwd1⟩, hrest⟩ := hops
      subst ht0
      rcases hepr : encodePatchRecord lastCur op with ⟨bytes, cur⟩
      have hbne : bytes ≠ [] := by
        have h := encodePatchRecord_fst_ne_nil lastCur op
        rw [hepr] at h
        exact h
      have hni : nextInternal (bytes ++ encodePatches cur rest) lastCur =
          DR.ok ({ span := op.span, tag := op.tag, content_pos := none },
            encodePatches cur rest, cur) := by
        have h := nextInternal_encRecord op lastCur (encodePatches cur rest)
          hlen hstop hfwdIns hfwd1
        rw [hepr] at h
        exact h
      unfold readPatchesLoop
      simp only [encodePatches, hepr]
      rw [if_neg (by
        cases hb : bytes with
        | nil => exact absurd hb hbne
        | cons x xs => simp [hb])]
      rw [hni]
      simp only [DR.monad_bind, DR.bind_ok]
      try dsimp only
      have hlenRfl : ({ span := op.span, tag := op.tag, content_pos := none } :
          OperationInternal).len = op.len := rfl
      simp only [hlenRfl]
      cases htag : op.tag with
      | Ins =>
        simp only [opsContentOk, htag, Bool.and_eq_true] at hcont
        cases sIns with
        | true =>
          simp only [iteTT, iteFT, if_true, if_false, Bool.false_eq_true, List.append_nil] at hcont ih ⊢
          obtain ⟨hcp, hcrest⟩ := hcont
          rw [beq_iff_eq] at hcp
          have hInsLe := hins rfl
          simp only [sumInsLens, htag, reduceIte, if_true] at hInsLe
          simp only [consumeChars, OpLog.pushOpInternal, List.length_take]
          have hmin : min op.len insC.length = op.len := by omega
          simp only [hmin]
          have hopeq : OperationInternal.mk op.span InsDelTag.Ins
              (some ⟨o.ins_content.length, o.ins_content.length + op.len⟩) = op := by
            rw [← htag, ← hcp]
          rw [hopeq]
          rw [ih f _ (insC.drop op.len) delC cur (t0 + op.len) (by simp at hfuel; omega)
            hrest (by
              simp only [List.length_append, List.length_take, hmin]
              exact hcrest)
            (by
              intro _
              simp only [List.length_drop]
              omega)
            (by
              intro hsd
              have h5 := hdel hsd
              simp only [sumDelLens, htag, reduceCtorEq, reduceIte, if_false,
                Nat.zero_add] at h5
              exact h5)]
          have hdd : (insC.drop op.len).drop (sumInsLens rest) =
              insC.drop (op.len + sumInsLens rest) := by
            rw [List.drop_drop, Nat.add_comm]
          simp only [sumInsLens, sumDelLens, sumOpLens, htag, reduceIte, reduceCtorEq,
            if_true, if_false, Nat.zero_add, List.take_add, hdd, List.append_assoc,
            List.singleton_append, Nat.add_assoc]
        | false =>
          simp only [iteTT, iteFT, if_true, if_false, Bool.false_eq_true, List.append_nil] at hcont ih ⊢
          obtain ⟨hcp, hcrest⟩ := hcont
          rw [beq_iff_eq] at hcp
          simp only [OpLog.pushOpInternal]
          have hopeq : OperationInternal.mk op.span InsDelTag.Ins none = op := by
            rw [← htag, ← hcp]
          rw [hopeq]
          rw [ih f { o with operations := o.operations ++ [(t0, op)] } insC delC cur
            (t0 + op.len) (by simp at hfuel; omega)
            hrest hcrest (by intro h; simp at h)
            (by
              intro hsd
              have h5 := hdel hsd
              simp only [sumDelLens, htag, reduceCtorEq, reduceIte, if_false,
                Nat.zero_add] at h5
              exact h5)]
          simp only [sumDelLens, sumOpLens, htag, reduceCtorEq, reduceIte, if_true,
            if_false, Nat.zero_add, List.append_assoc, List.singleton_append,
            Nat.add_assoc]
      | Del =>
        simp only [opsContentOk, htag, Bool.and_eq_true] at hcont
        cases sDel with
        | true =>
          simp only [iteTT, iteFT, if_true, if_false, Bool.false_eq_true, List.append_nil] at hcont ih ⊢
          obtain ⟨hcp, hcrest⟩ := hcont
          rw [beq_iff_eq] at hcp
          have hDelLe := hdel rfl
          simp only [sumDelLens, htag, reduceIte, if_true] at hDelLe
          simp only [consumeChars, OpLog.pushOpInternal, List.length_take]
          have hmin : min op.len delC.length = op.len := by omega
          simp only [hmin]
          have hopeq : OperationInternal.mk op.span InsDelTag.Del
              (some ⟨o.del_content.length, o.del_content.length + op.len⟩) = op := by
            rw [← htag, ← hcp]
          rw [hopeq]
          rw [ih f _ insC (delC.drop op.len) cur (t0 + op.len) (by simp at hfuel; omega)
            hrest (by
              simp only [List.length_append, List.length_take, hmin]
              exact hcrest)
            (by
              intro hsi
              have h4 := hins hsi
              simp only [sumInsLens, htag, reduceCtorEq, reduceIte, if_false,
                Nat.zero_add] at h4
              exact h4)
            (by
              intro _
              simp only [List.length_drop]
              omega)]
          have hdd : (delC.drop op.len).drop (sumDelLens rest) =
              delC.drop (op.len + sumDelLens rest) := by
            rw [List.drop_drop, Nat.add_comm]
          simp only [sumInsLens, sumDelLens, sumOpLens, htag, reduceIte, reduceCtorEq,
            if_true, if_false, Nat.zero_add, List.take_add, hdd, List.append_assoc,
            List.singleton_append, Nat.add_assoc]
        | false =>
          simp only [iteTT, iteFT, if_true, if_false, Bool.false_eq_true, List.append_nil] at hcont ih ⊢
          obtain ⟨hcp, hcrest⟩ := hcont
          rw [beq_iff_eq] at hcp
          simp only [OpLog.pushOpInternal]
          have hopeq : OperationInternal.mk op.span InsDelTag.Del none = op := by
            rw [← htag, ← hcp]
          rw [hopeq]
          rw [ih f { o with operations := o.operations ++ [(t0, op)] } insC delC cur
            (t0 + op.len) (by simp at hfuel; omega)
            hrest hcrest
            (by
              intro hsi
              have h4 := hins hsi
              simp only [sumInsLens, htag, reduceCtorEq, reduceIte, if_false,
                Nat.zero_add] at h4
              exact h4)
            (by intro h; simp at h)]
          simp only [sumInsLens, sumOpLens, htag, reduceCtorEq, reduceIte, if_true,
            if_false, Nat.zero_add, List.append_assoc, List.singleton_append,
            Nat.add_assoc]

theorem encodeParent_ne_nil (start p : Nat) (hm : Bool) :
    encodeParent start p hm ≠ [] := by
  unfold encodeParent
  by_cases h : p = ROOT_TIME
  · rw [if_pos h]
    exact varintEnc_nonempty _
  · rw [if_neg h]
    exact varintEnc_nonempty _

theorem encodeParents_length_ge (start : Nat) (ps : List Nat) :
    ps.length ≤ (encodeParents start ps).length := by
  induction ps with
  | nil => simp [encodeParents]
  | cons p tl ih =>
    cases tl with
    | nil =>
      simp only [encodeParents, List.length_cons, List.length_nil]
      have h1 : 0 < (encodeParent start p false).length :=
        List.length_pos.mpr (encodeParent_ne_nil start p false)
      omega
    | cons q tl2 =>
      simp only [encodeParents, List.length_append, List.length_cons] at ih ⊢
      have h1 : 0 < (encodeParent start p true).length :=
        List.length_pos.mpr (encodeParent_ne_nil start p true)
      omega

theorem ne_nil_of_isEmpty_eq_false {α : Type _} {l : List α} (h : l.isEmpty = false) :
    l ≠ [] := by
  cases l with
  | nil => simp at h
  | cons a b => simp

theorem readParentsLoop_enc (o : OpLog) (map : List (Nat × Nat)) (start : Nat)
    (ps : List Nat) :
    ∀ (fuel : Nat) (acc : List Nat) (rest : Bytes),
    ps.length ≤ fuel →
    ps ≠ [] →
    (∀ p ∈ ps, p = ROOT_TIME ∨ p < start) →
    readParentsLoop o map start fuel acc (encodeParents start ps ++ rest) =
      DR.ok (acc ++ ps, rest) := by
  induction ps with
  | nil =>
    intro fuel acc rest _ hne _
    exact absurd rfl hne
  | cons p tl ih =>
    intro fuel acc rest hfuel _ hp
    cases fuel with
    | zero => simp at hfuel
    | succ f =>
      have hpp := hp p (by simp)
      cases tl with
      | nil =>
        simp only [encodeParents]
        unfold readParentsLoop encodeParent
        by_cases hr : p = ROOT_TIME
        · subst hr
          rw [if_pos rfl]
          rw [nextUsize_enc]
          simp only [DR.monad_bind, DR.bind_ok, stripBit]
          norm_num
        · have hlt : p < start := hpp.resolve_left hr
          rw [if_neg hr]
          rw [nextUsize_enc]
          simp only [DR.monad_bind, DR.bind_ok, stripBit, if_true, if_false,
            Bool.false_eq_true, Nat.add_zero]
          have b0 : decide ((start - p) * 2 * 2 % 2 = 1) = false := by
            simp only [decide_eq_false_iff_not]
            omega
          have b1 : decide ((start - p) * 2 * 2 / 2 % 2 = 1) = false := by
            simp only [decide_eq_false_iff_not]
            omega
          have d2 : (start - p) * 2 * 2 / 2 / 2 = start - p := by omega
          have dn : start - (start - p) = p := by omega
          have hcr : ¬ (start < start - p) := by omega
          simp only [b0, b1, d2, reduceIte, if_false, Bool.false_eq_true,
            DR.monad_bind, DR.bind_ok]
          rw [if_neg hcr]
          simp only [dn]
      | cons q tl2 =>
        simp only [encodeParents]
        rw [List.append_assoc]
        unfold readParentsLoop encodeParent
        by_cases hr : p = ROOT_TIME
        · subst hr
          rw [if_pos rfl]
          rw [nextUsize_enc]
          simp only [DR.monad_bind, DR.bind_ok, stripBit]
          norm_num
          rw [ih f (acc ++ [ROOT_TIME]) rest (by simp at hfuel ⊢; omega)
            (by simp) (fun x hx => hp x (by simp [hx]))]
          simp
        · have hlt : p < start := hpp.resolve_left hr
          rw [if_neg hr]
          rw [nextUsize_enc]
          simp only [DR.monad_bind, DR.bind_ok, stripBit, if_true, if_false,
            Bool.false_eq_true, Nat.add_zero]
          have b0 : decide (((start - p) * 2 + 1) * 2 % 2 = 1) = false := by
            simp only [decide_eq_false_iff_not]
            omega
          have b1 : decide (((start - p) * 2 + 1) * 2 / 2 % 2 = 1) = true := by
            simp only [decide_eq_true_eq]
            omega
          have d2 : ((start - p) * 2 + 1) * 2 / 2 / 2 = start - p := by omega
          have dn : start - (start - p) = p := by omega
          have hcr : ¬ (start < start - p) := by omega
          simp only [b0, b1, d2, reduceIte, if_false, if_true, Bool.false_eq_true,
            DR.monad_bind, DR.bind_ok]
          rw [if_neg hcr]
          simp only [dn]
          rw [ih f (acc ++ [p]) rest (by simp at hfuel ⊢; omega)
            (by simp) (fun x hx => hp x (by simp [hx]))]
          simp

theorem readHistoryLoop_enc (entries : List HistoryEntry) :
    ∀ (fuel : Nat) (o : OpLog) (map : List (Nat × Nat)) (nt : Nat),
    entries.length < fuel →
    histConsecutive nt entries = true →
    readHistoryLoop fuel o map nt (encodeHistory entries) =
      DR.ok (applyHistory o nt entries, nt + sumHistLens entries) := by
  induction entries with
  | nil =>
    intro fuel o map nt hfuel _
    cases fuel with
    | zero => omega
    | succ f =>
      unfold readHistoryLoop
      simp [encodeHistory, applyHistory, sumHistLens]
  | cons e rest ih =>
    intro fuel o map nt hfuel hhist
    cases fuel with
    | zero => omega
    | succ f =>
      simp only [histConsecutive, Bool.and_eq_true, beq_iff_eq, decide_eq_true_eq,
        Bool.not_eq_true', List.all_eq_true] at hhist
      obtain ⟨⟨⟨⟨hstart, hlen⟩, hne⟩, hpar⟩, hrest⟩ := hhist
      have hstop : e.span.stop = nt + e.span.len := by
        unfold TimeSpan.len at hlen ⊢
        omega
      rw [hstop] at hrest
      have henc : encodeHistory (e :: rest) =
          varintEnc e.span.len ++ (encodeParents e.span.start e.parents ++
            encodeHistory rest) := by
        simp [encodeHistory]
      rw [henc]
      unfold readHistoryLoop
      rw [if_neg (by
        cases hv : varintEnc e.span.len with
        | nil => exact absurd hv (varintEnc_nonempty _)
        | cons x xs => simp [hv])]
      rw [nextUsize_enc]
      simp only [DR.monad_bind, DR.bind_ok]
      rw [hstart]
      rw [readParentsLoop_enc o map nt e.parents _ [] (encodeHistory rest)
        (by
          have h1 := encodeParents_length_ge nt e.parents
          simp only [List.length_append]
          omega)
        (ne_nil_of_isEmpty_eq_false hne)
        (by
          intro p hpmem
          have := hpar p hpmem
          simp only [Bool.or_eq_true, beq_iff_eq, decide_eq_true_eq, hstart] at this
          exact this)]
      simp only [DR.monad_bind, DR.bind_ok, List.nil_append]
      rw [ih f _ map (nt + e.span.len) (by simp at hfuel; omega) hrest]
      simp only [applyHistory, sumHistLens, Nat.add_assoc]

theorem readAgentNamesLoop_enc (names : List (List Nat)) :
    ∀ (fuel : Nat) (o : OpLog) (map : List (Nat × Nat)),
    names.length < fuel →
    (∀ n ∈ names, validStr n = true) →
    readAgentNamesLoop fuel o map (encodeAgentNames names) =
      DR.ok (foldNames o map names) := by
  induction names with
  | nil =>
    intro fuel o map hfuel _
    cases fuel with
    | zero => omega
    | succ f =>
      unfold readAgentNamesLoop
      simp [encodeAgentNames, foldNames]
  | cons n rest ih =>
    intro fuel o map hfuel hv
    cases fuel with
    | zero => omega
    | succ f =>
      have hvn' : ∀ c ∈ n, ValidCp c := by
        intro c hc
        have h1 := hv n (by simp)
        unfold validStr at h1
        rw [List.all_eq_true] at h1
        have h2 := h1 c hc
        simpa using h2
      have henc : encodeAgentNames (n :: rest) =
          writeStr n ++ encodeAgentNames rest := by
        simp [encodeAgentNames]
      rw [henc]
      unfold readAgentNamesLoop
      rw [if_neg (by
        unfold writeStr
        cases hw : varintEnc (utf8Encode n).length with
        | nil => exact absurd hw (varintEnc_nonempty _)
        | cons x xs => simp [hw])]
      rw [nextStr_enc n hvn' (encodeAgentNames rest)]
      simp only [DR.monad_bind, DR.bind_ok]
      rcases hg : OpLog.getOrCreateAgentId o n with ⟨o2, id⟩
      rw [ih f o2 (map ++ [(id, 0)]) (by simp at hfuel; omega)
        (fun m hm => hv m (by simp [hm]))]
      simp only [foldNames, hg]

theorem writeStr_ne_nil (s : List Nat) : writeStr s ≠ [] := by
  unfold writeStr
  intro hc
  rcases List.append_eq_nil.mp hc with ⟨h1, _⟩
  exact varintEnc_nonempty _ h1

theorem encodeAgentNames_length_ge (names : List (List Nat)) :
    names.length ≤ (encodeAgentNames names).length := by
  induction names with
  | nil => simp [encodeAgentNames]
  | cons n rest ih =>
    have henc : encodeAgentNames (n :: rest) =
        writeStr n ++ encodeAgentNames rest := by
      simp [encodeAgentNames]
    rw [henc]
    simp only [List.length_append, List.length_cons]
    have h1 : 0 < (writeStr n).length := List.length_pos.mpr (writeStr_ne_nil n)
    omega

theorem encodeAssignments_length_ge (spans : List (Nat × CRDTSpan)) :
    ∀ (map : List (Nat × Nat)), spans.length ≤ (encodeAssignments map spans).length := by
  induction spans with
  | nil =>
    intro map
    simp [encodeAssignments]
  | cons hd rest ih =>
    intro map
    obtain ⟨t, s⟩ := hd
    simp only [encodeAssignments, List.length_append, List.length_cons]
    have h1 : 0 < (varintEnc ((s.agent + 1) * 2 +
        (if ((s.seq_range.start : Int) -
          ((((map.get? s.agent).getD (0, 0)).2 : Nat) : Int) = 0) then 0 else 1))).length := by
      apply List.length_pos.mpr
      exact varintEnc_nonempty _
    have h2 := ih (map.set s.agent (s.agent, s.seq_range.stop))
    omega

theorem encodePatches_length_ge (ops : List (Nat × OperationInternal)) :
    ∀ (lc : Nat), ops.length ≤ (encodePatches lc ops).length := by
  induction ops with
  | nil =>
    intro lc
    simp [encodePatches]
  | cons hd rest ih =>
    intro lc
    obtain ⟨t, op⟩ := hd
    rcases hepr : encodePatchRecord lc op with ⟨bytes, cur⟩
    have hbne : bytes ≠ [] := by
      have h := encodePatchRecord_fst_ne_nil lc op
      rw [hepr] at h
      exact h
    simp only [encodePatches, hepr, List.length_append, List.length_cons]
    have h1 : 0 < bytes.length := List.length_pos.mpr hbne
    have h2 := ih cur
    omega

theorem encodeHistory_length_ge (entries : List HistoryEntry) :
    entries.length ≤ (encodeHistory entries).length := by
  induction entries with
  | nil => simp [encodeHistory]
  | cons e rest ih =>
    have henc : encodeHistory (e :: rest) =
        varintEnc e.span.len ++ (encodeParents e.span.start e.parents ++
          encodeHistory rest) := by
      simp [encodeHistory]
    rw [henc]
    simp only [List.length_append, List.length_cons]
    have h1 : 0 < (varintEnc e.span.len).length :=
      List.length_pos.mpr (varintEnc_nonempty _)
    omega

theorem sumOpLens_split (ops : List (Nat × OperationInternal)) :
    sumOpLens ops = sumInsLens ops + sumDelLens ops := by
  induction ops with
  | nil => rfl
  | cons hd rest ih =>
    obtain ⟨t, op⟩ := hd
    simp only [sumOpLens, sumInsLens, sumDelLens, ih]
    cases htag : op.tag <;> simp [htag] <;> omega

theorem spansConsecutive_mem (spans : List (Nat × CRDTSpan)) :
    ∀ t, spansConsecutive t spans = true →
    ∀ e ∈ spans, e.2.seq_range.start ≤ e.2.seq_range.stop ∧ e.2.seq_range.stop < USIZE := by
  induction spans with
  | nil =>
    intro t _ e he
    simp at he
  | cons hd tl ih =>
    intro t hc e he
    obtain ⟨t0, s⟩ := hd
    simp only [spansConsecutive, Bool.and_eq_true, beq_iff_eq, decide_eq_true_eq] at hc
    obtain ⟨⟨⟨ht, hlen⟩, hstop⟩, hrest⟩ := hc
    rcases List.mem_cons.mp he with he1 | he2
    · subst he1
      unfold CRDTSpan.len TimeSpan.len at hlen
      dsimp only
      omega
    · exact ih (t + s.len) hrest e he2

theorem assign_fields (o : OpLog) (nt : Nat) (s : CRDTSpan) :
    (o.assignNextTimeToCrdtSpan nt s).operations = o.operations ∧
    (o.assignNextTimeToCrdtSpan nt s).ins_content = o.ins_content ∧
    (o.assignNextTimeToCrdtSpan nt s).del_content = o.del_content ∧
    (o.assignNextTimeToCrdtSpan nt s).history = o.history ∧
    (o.assignNextTimeToCrdtSpan nt s).frontier = o.frontier ∧
    (o.assignNextTimeToCrdtSpan nt s).client_with_lv = o.client_with_lv ++ [(nt, s)] := by
  unfold OpLog.assignNextTimeToCrdtSpan
  cases o.client_data.get? s.agent <;> simp

theorem applyAssignments_preserves (spans : List (Nat × CRDTSpan)) :
    ∀ (o : OpLog) (nt : Nat),
    (applyAssignments o nt spans).operations = o.operations ∧
    (applyAssignments o nt spans).ins_content = o.ins_content ∧
    (applyAssignments o nt spans).del_content = o.del_content ∧
    (applyAssignments o nt spans).history = o.history ∧
    (applyAssignments o nt spans).frontier = o.frontier ∧
    (applyAssignments o nt spans).client_data.length = o.client_data.length := by
  induction spans with
  | nil =>
    intro o nt
    simp [applyAssignments]
  | cons hd tl ih =>
    intro o nt
    obtain ⟨t, s⟩ := hd
    simp only [applyAssignments]
    obtain ⟨h1, h2, h3, h4, h5, h6⟩ := ih (o.assignNextTimeToCrdtSpan nt s) (nt + s.len)
    obtain ⟨g1, g2, g3, g4, g5, _⟩ := assign_fields o nt s
    exact ⟨by rw [h1, g1], by rw [h2, g2], by rw [h3, g3], by rw [h4, g4],
      by rw [h5, g5], by rw [h6, assign_preserves_client_len]⟩

theorem applyAssignments_cwl (spans : List (Nat × CRDTSpan)) :
    ∀ (o : OpLog) (nt : Nat), spansConsecutive nt spans = true →
    (applyAssignments o nt spans).client_with_lv = o.client_with_lv ++ spans := by
  induction spans with
  | nil =>
    intro o nt _
    simp [applyAssignments]
  | cons hd tl ih =>
    intro o nt hc
    obtain ⟨t, s⟩ := hd
    simp only [spansConsecutive, Bool.and_eq_true, beq_iff_eq, decide_eq_true_eq] at hc
    obtain ⟨⟨⟨ht, _⟩, _⟩, hrest⟩ := hc
    subst ht
    simp only [applyAssignments]
    rw [ih (o.assignNextTimeToCrdtSpan t s) (t + s.len) hrest]
    obtain ⟨_, _, _, _, _, g6⟩ := assign_fields o t s
    rw [g6]
    simp

theorem getD_set_self {α : Type _} (l : List α) (i : Nat) (x d : α) (h : i < l.length) :
    (l.set i x).getD i d = x := by
  rw [List.getD_eq_getElem _ _ (by simpa using h)]
  exact List.getElem_set_self _

theorem getD_set_ne {α : Type _} (l : List α) (i j : Nat) (x d : α) (hne : i ≠ j) :
    (l.set i x).getD j d = l.getD j d := by
  by_cases hj : j < l.length
  · rw [List.getD_eq_getElem _ _ (by simpa using hj), List.getD_eq_getElem _ _ hj]
    exact List.getElem_set_ne hne _
  · rw [List.getD_eq_default _ _ (by simpa using hj), List.getD_eq_default _ _ (by omega)]

theorem applyAssignments_getD (spans : List (Nat × CRDTSpan)) :
    ∀ (o : OpLog) (nt : Nat) (a : Nat),
    spansConsecutive nt spans = true →
    (∀ e ∈ spans, e.2.agent < o.client_data.length) →
    (applyAssignments o nt spans).client_data.getD a { name := [], item_times := [] } =
      { name := (o.client_data.getD a { name := [], item_times := [] }).name,
        item_times :=
          (o.client_data.getD a { name := [], item_times := [] }).item_times ++
            derivedItemTimes a spans } := by
  induction spans with
  | nil =>
    intro o nt a _ _
    simp [applyAssignments, derivedItemTimes]
  | cons hd tl ih =>
    intro o nt a hc hag
    obtain ⟨t, s⟩ := hd
    simp only [spansConsecutive, Bool.and_eq_true, beq_iff_eq, decide_eq_true_eq] at hc
    obtain ⟨⟨⟨ht, hlen⟩, hstop⟩, hrest⟩ := hc
    subst ht
    have hsag : s.agent < o.client_data.length := by
      have hx := hag (t, s) (by simp)
      simpa using hx
    have hget : o.client_data.get? s.agent = some (o.client_data.get ⟨s.agent, hsag⟩) :=
      List.get?_eq_get hsag
    have hcd : (o.assignNextTimeToCrdtSpan t s).client_data =
        o.client_data.set s.agent
          { name := (o.client_data.get ⟨s.agent, hsag⟩).name,
            item_times := (o.client_data.get ⟨s.agent, hsag⟩).item_times ++
              [(s.seq_range, t)] } := by
      unfold OpLog.assignNextTimeToCrdtSpan
      rw [hget]
    simp only [applyAssignments]
    rw [ih (o.assignNextTimeToCrdtSpan t s) (t + s.len) a hrest
      (by
        intro e he
        rw [assign_preserves_client_len]
        exact hag e (by simp [he]))]
    rw [hcd]
    have hgd : o.client_data.getD s.agent { name := [], item_times := [] } =
        o.client_data.get ⟨s.agent, hsag⟩ := by
      rw [List.getD_eq_getElem _ _ hsag, List.get_eq_getElem]
    by_cases haq : a = s.agent
    · subst haq
      rw [getD_set_self _ _ _ _ hsag, hgd]
      simp only [derivedItemTimes, List.filterMap_cons]
      try dsimp only
      simp only [if_true]
      simp [derivedItemTimes, List.append_assoc]
    · rw [getD_set_ne _ _ _ _ _ (fun hx => haq hx.symm)]
      simp only [derivedItemTimes, List.filterMap_cons]
      try dsimp only
      rw [if_neg (fun hx => haq hx.symm)]
      try simp [derivedItemTimes]

theorem applyHistory_preserves (entries : List HistoryEntry) :
    ∀ (o : OpLog) (nt : Nat),
    (applyHistory o nt entries).client_data = o.client_data ∧
    (applyHistory o nt entries).client_with_lv = o.client_with_lv ∧
    (applyHistory o nt entries).operations = o.operations ∧
    (applyHistory o nt entries).ins_content = o.ins_content ∧
    (applyHistory o nt entries).del_content = o.del_content := by
  induction entries with
  | nil =>
    intro o nt
    simp [applyHistory]
  | cons e tl ih =>
    intro o nt
    simp only [applyHistory]
    obtain ⟨h1, h2, h3, h4, h5⟩ :=
      ih ((o.insertHistory e.parents ⟨nt, nt + e.span.len⟩).advanceFrontier e.parents
        ⟨nt, nt + e.span.len⟩) (nt + e.span.len)
    refine ⟨?_, ?_, ?_, ?_, ?_⟩
    · rw [h1]
      rfl
    · rw [h2]
      rfl
    · rw [h3]
      rfl
    · rw [h4]
      rfl
    · rw [h5]
      rfl

theorem applyHistory_history (entries : List HistoryEntry) :
    ∀ (o : OpLog) (nt : Nat), histConsecutive nt entries = true →
    (applyHistory o nt entries).history = o.history ++ entries := by
  induction entries with
  | nil =>
    intro o nt _
    simp [applyHistory]
  | cons e tl ih =>
    intro o nt hc
    simp only [histConsecutive, Bool.and_eq_true, beq_iff_eq, decide_eq_true_eq,
      Bool.not_eq_true', List.all_eq_true] at hc
    obtain ⟨⟨⟨⟨hstart, hlen⟩, hne⟩, hpar⟩, hrest⟩ := hc
    have h1 : e.span.stop = nt + e.span.len := by
      unfold TimeSpan.len at hlen ⊢
      omega
    have hspan : ({ start := nt, stop := nt + e.span.len } : TimeSpan) = e.span := by
      rw [← h1, ← hstart]
    rw [h1] at hrest
    simp only [applyHistory]
    rw [hspan]
    rw [ih _ (nt + e.span.len) hrest]
    have hh : ((o.insertHistory e.parents e.span).advanceFrontier e.parents e.span).history = o.history ++ [{ span := e.span, parents := e.parents }] := rfl
    rw [hh]
    have he : ({ span := e.span, parents := e.parents } : HistoryEntry) = e := rfl
    rw [he]
    simp

theorem applyHistory_frontier (entries : List HistoryEntry) :
    ∀ (o : OpLog) (nt : Nat), histConsecutive nt entries = true →
    (applyHistory o nt entries).frontier =
      entries.foldl (fun f e => advanceFrontier f e.parents e.span) o.frontier := by
  induction entries with
  | nil =>
    intro o nt _
    simp [applyHistory]
  | cons e tl ih =>
    intro o nt hc
    simp only [histConsecutive, Bool.and_eq_true, beq_iff_eq, decide_eq_true_eq,
      Bool.not_eq_true', List.all_eq_true] at hc
    obtain ⟨⟨⟨⟨hstart, hlen⟩, hne⟩, hpar⟩, hrest⟩ := hc
    have h1 : e.span.stop = nt + e.span.len := by
      unfold TimeSpan.len at hlen ⊢
      omega
    have hspan : ({ start := nt, stop := nt + e.span.len } : TimeSpan) = e.span := by
      rw [← h1, ← hstart]
    rw [h1] at hrest
    simp only [applyHistory, List.foldl_cons]
    rw [hspan]
    rw [ih _ (nt + e.span.len) hrest]
    have hf : ((o.insertHistory e.parents e.span).advanceFrontier e.parents e.span).frontier = advanceFrontier o.frontier e.parents e.span := rfl
    rw [hf]

theorem findIdxQ_none {α : Type _} (p : α → Bool) (l : List α)
    (h : ∀ x ∈ l, p x = false) : l.findIdx? p = none := by
  induction l with
  | nil => rfl
  | cons a tl ih =>
    rw [List.findIdx?_cons]
    rw [h a (by simp)]
    simp [ih (fun x hx => h x (by simp [hx]))]

theorem foldNames_fresh (names : List (List Nat)) :
    ∀ (o : OpLog) (map : List (Nat × Nat)),
    (∀ n ∈ names, ∀ cd ∈ o.client_data, cd.name ≠ n) →
    namesDistinct names = true →
    foldNames o map names =
      ({ o with client_data := o.client_data ++
          names.map (fun n => { name := n, item_times := [] }) },
        map ++ idMapFrom o.client_data.length names.length) := by
  induction names with
  | nil =>
    intro o map _ _
    simp [foldNames, idMapFrom]
  | cons n rest ih =>
    intro o map hfresh hdist
    simp only [namesDistinct, Bool.and_eq_true, List.all_eq_true] at hdist
    obtain ⟨hall, hdrest⟩ := hdist
    have hfind : o.client_data.findIdx? (fun cd => cd.name = n) = none := by
      apply findIdxQ_none
      intro cd hcd
      have hx := hfresh n (by simp) cd hcd
      simp [hx]
    simp only [foldNames, OpLog.getOrCreateAgentId, hfind]
    have hih := ih ({ o with client_data :=
        o.client_data ++ [{ name := n, item_times := [] }] })
      (map ++ [(o.client_data.length, 0)])
      (by
        intro m hm cd hcd
        dsimp only at hcd
        rcases List.mem_append.mp hcd with hc1 | hc2
        · exact hfresh m (by simp [hm]) cd hc1
        · have hcdn : cd = { name := n, item_times := [] } := by simpa using hc2
          subst hcdn
          dsimp only
          have hmn := hall m hm
          simp only [Bool.not_eq_true', beq_eq_false_iff_ne] at hmn
          exact Ne.symm hmn)
      hdrest
    rw [hih]
    simp only [List.length_append, List.length_cons, List.length_nil, List.map_cons,
      idMapFrom, List.append_assoc, List.singleton_append, List.cons_append,
      List.nil_append]

theorem idMapFrom_eq_range (n : Nat) :
    ∀ s, idMapFrom s n = (List.range n).map (fun i => (s + i, 0)) := by
  induction n with
  | zero =>
    intro s
    simp [idMapFrom]
  | succ k ih =>
    intro s
    rw [List.range_succ_eq_map]
    simp only [idMapFrom, List.map_cons, List.map_map]
    rw [ih (s + 1)]
    have hf : (fun i => (s + 1 + i, (0 : Nat))) =
        ((fun i => (s + i, (0 : Nat))) ∘ (fun i => i + 1)) := by
      funext i
      dsimp only [Function.comp]
      rw [show s + 1 + i = s + (i + 1) from by omega]
    rw [hf]
    simp

theorem idMapFrom_zero (n : Nat) : idMapFrom 0 n = initialAgentMap n := by
  rw [idMapFrom_eq_range n 0]
  unfold initialAgentMap
  have hf : (fun i => ((0 : Nat) + i, (0 : Nat))) = (fun i => (i, 0)) := by
    funext i
    rw [Nat.zero_add]
  rw [hf]

theorem initialAgentMap_length (n : Nat) : (initialAgentMap n).length = n := by
  simp [initialAgentMap]

theorem initialAgentMap_id (n : Nat) :
    ∀ i (h : i < (initialAgentMap n).length), ((initialAgentMap n).get ⟨i, h⟩).1 = i := by
  intro i h
  have hi : i < n := by simpa [initialAgentMap] using h
  unfold initialAgentMap
  rw [List.get_eq_getElem]
  simp

theorem u32le_enc (c : Nat) (rest : Bytes) (hc : c < 4294967296) :
    nextU32le (u32leBytes c ++ rest) = DR.ok (c, rest) := by
  unfold u32leBytes nextU32le
  simp only [List.cons_append, List.nil_append]
  have h : c % 256 + 256 * (c / 256 % 256) + 65536 * (c / 65536 % 256) +
      16777216 * (c / 16777216 % 256) = c := by omega
  rw [h]

theorem take_prefix_of_append (a b : Bytes) :
    (a ++ b).take ((a ++ b).length - b.length) = a := by
  simp only [List.length_append, Nat.add_sub_cancel]
  exact List.take_left a b

theorem expectChunk_exact (c : Chunk) (body : Bytes) :
    expectChunk c (encodeChunk c body) = DR.ok (body, []) := by
  have h := expectChunk_enc c body []
  rwa [List.append_nil] at h

theorem readChunk_enc_exact (c : Chunk) (body : Bytes) :
    readChunk c (encodeChunk c body) = DR.ok (some body, []) := by
  have h := readChunk_enc c body []
  rwa [List.append_nil] at h

theorem readChunk_skip_exact (c c' : Chunk) (hne : c'.code ≠ c.code) (body : Bytes) :
    readChunk c (encodeChunk c' body) = DR.ok (none, encodeChunk c' body) := by
  have h := readChunk_skip c c' hne body []
  simpa using h

theorem varintEncF_lt (fuel : Nat) :
    ∀ n, ∀ b ∈ varintEncF fuel n, b < 256 := by
  induction fuel with
  | zero =>
    intro n b hb
    simp only [varintEncF, List.mem_singleton] at hb
    omega
  | succ f ih =>
    intro n b hb
    simp only [varintEncF] at hb
    by_cases h : n < 128
    · rw [if_pos h] at hb
      simp only [List.mem_singleton] at hb
      omega
    · rw [if_neg h] at hb
      rcases List.mem_cons.mp hb with h1 | h2
      · omega
      · exact ih (n / 128) b h2

theorem varintEnc_lt (n : Nat) : ∀ b ∈ varintEnc n, b < 256 :=
  varintEncF_lt n n

theorem utf8EncodeCp_lt (c : Nat) (h : ValidCp c) : ∀ b ∈ utf8EncodeCp c, b < 256 := by
  obtain ⟨hc, _⟩ := h
  intro b hb
  unfold utf8EncodeCp at hb
  by_cases h1 : c < 128
  · rw [if_pos h1] at hb
    simp only [List.mem_singleton] at hb
    omega
  · rw [if_neg h1] at hb
    by_cases h2 : c < 2048
    · rw [if_pos h2] at hb
      rcases List.mem_cons.mp hb with h | h
      · omega
      rcases List.mem_cons.mp h with h' | h'
      · omega
      · simp at h'
    · rw [if_neg h2] at hb
      by_cases h3 : c < 65536
      · rw [if_pos h3] at hb
        rcases List.mem_cons.mp hb with h | h
        · omega
        rcases List.mem_cons.mp h with h' | h'
        · omega
        rcases List.mem_cons.mp h' with h4 | h4
        · omega
        · simp at h4
      · rw [if_neg h3] at hb
        rcases List.mem_cons.mp hb with h | h
        · omega
        rcases List.mem_cons.mp h with h' | h'
        · omega
        rcases List.mem_cons.mp h' with h4 | h4
        · omega
        rcases List.mem_cons.mp h4 with h5 | h5
        · omega
        · simp at h5

theorem utf8Encode_lt (s : List Nat) (hs : ∀ c ∈ s, ValidCp c) :
    ∀ b ∈ utf8Encode s, b < 256 := by
  intro b hb
  unfold utf8Encode at hb
  rw [List.mem_flatten] at hb
  obtain ⟨l, hl, hbl⟩ := hb
  rw [List.mem_map] at hl
  obtain ⟨c, hc, hlc⟩ := hl
  subst hlc
  exact utf8EncodeCp_lt c (hs c hc) b hbl

theorem encodeChunk_lt (c : Chunk) (body : Bytes) (h : ∀ b ∈ body, b < 256) :
    ∀ b ∈ encodeChunk c body, b < 256 := by
  intro b hb
  unfold encodeChunk at hb
  rcases List.mem_append.mp hb with h1 | h2
  · rcases List.mem_append.mp h1 with h3 | h4
    · exact varintEnc_lt _ b h3
    · exact varintEnc_lt _ b h4
  · exact h b h2

theorem writeStr_lt (s : List Nat) (hs : ∀ c ∈ s, ValidCp c) :
    ∀ b ∈ writeStr s, b < 256 := by
  intro b hb
  unfold writeStr at hb
  rcases List.mem_append.mp hb with h1 | h2
  · exact varintEnc_lt _ b h1
  · exact utf8Encode_lt s hs b h2

theorem encodeAgentNames_lt (names : List (List Nat))
    (h : ∀ n ∈ names, ∀ c ∈ n, ValidCp c) :
    ∀ b ∈ encodeAgentNames names, b < 256 := by
  intro b hb
  unfold encodeAgentNames at hb
  rw [List.mem_flatten] at hb
  obtain ⟨l, hl, hbl⟩ := hb
  rw [List.mem_map] at hl
  obtain ⟨n, hn, hln⟩ := hl
  subst hln
  exact writeStr_lt n (h n hn) b hbl

theorem encodeAssignments_lt (spans : List (Nat × CRDTSpan)) :
    ∀ (map : List (Nat × Nat)), ∀ b ∈ encodeAssignments map spans, b < 256 := by
  induction spans with
  | nil =>
    intro map b hb
    simp [encodeAssignments] at hb
  | cons hd tl ih =>
    intro map b hb
    obtain ⟨t, s⟩ := hd
    simp only [encodeAssignments] at hb
    rcases List.mem_append.mp hb with h1 | h2
    · rcases List.mem_append.mp h1 with h3 | h4
      · rcases List.mem_append.mp h3 with h5 | h6
        · exact varintEnc_lt _ b h5
        · exact varintEnc_lt _ b h6
      · by_cases hj : ((s.seq_range.start : Int) -
            ((((map.get? s.agent).getD (0, 0)).2 : Nat) : Int)) = 0
        · rw [if_pos hj] at h4
          simp at h4
        · rw [if_neg hj] at h4
          exact varintEnc_lt _ b h4
    · exact ih (map.set s.agent (s.agent, s.seq_range.stop)) b h2

theorem encodePatchRecord_lt (lc : Nat) (op : OperationInternal) :
    ∀ b ∈ (encodePatchRecord lc op).1, b < 256 := by
  intro b hb
  unfold encodePatchRecord at hb
  dsimp only at hb
  by_cases h1 : op.len = 1
  · rw [if_pos h1] at hb
    exact varintEnc_lt _ b hb
  · rw [if_neg h1] at hb
    dsimp only at hb
    rcases List.mem_append.mp hb with h2 | h3
    · exact varintEnc_lt _ b h2
    · by_cases hj : ((op.span.span.start : Int) - (lc : Int)) = 0
      · rw [if_pos hj] at h3
        simp at h3
      · rw [if_neg hj] at h3
        exact varintEnc_lt _ b h3

theorem encodePatches_lt (ops : List (Nat × OperationInternal)) :
    ∀ (lc : Nat), ∀ b ∈ encodePatches lc ops, b < 256 := by
  induction ops with
  | nil =>
    intro lc b hb
    simp [encodePatches] at hb
  | cons hd tl ih =>
    intro lc b hb
    obtain ⟨t, op⟩ := hd
    rcases hepr : encodePatchRecord lc op with ⟨bytes, cur⟩
    simp only [encodePatches, hepr] at hb
    rcases List.mem_append.mp hb with h1 | h2
    · have h := encodePatchRecord_lt lc op
      rw [hepr] at h
      exact h b h1
    · exact ih cur b h2

theorem encodeParent_lt (start p : Nat) (hm : Bool) :
    ∀ b ∈ encodeParent start p hm, b < 256 := by
  intro b hb
  unfold encodeParent at hb
  by_cases h : p = ROOT_TIME
  · rw [if_pos h] at hb
    exact varintEnc_lt _ b hb
  · rw [if_neg h] at hb
    exact varintEnc_lt _ b hb

theorem encodeParents_lt (start : Nat) (ps : List Nat) :
    ∀ b ∈ encodeParents start ps, b < 256 := by
  induction ps with
  | nil =>
    intro b hb
    simp [encodeParents] at hb
  | cons p tl ih =>
    intro b hb
    cases tl with
    | nil =>
      simp only [encodeParents] at hb
      exact encodeParent_lt start p false b hb
    | cons q tl2 =>
      simp only [encodeParents] at hb
      rcases List.mem_append.mp hb with h1 | h2
      · exact encodeParent_lt start p true b h1
      · exact ih b h2

theorem encodeHistory_lt (entries : List HistoryEntry) :
    ∀ b ∈ encodeHistory entries, b < 256 := by
  intro b hb
  unfold encodeHistory at hb
  rw [List.mem_flatten] at hb
  obtain ⟨l, hl, hbl⟩ := hb
  rw [List.mem_map] at hl
  obtain ⟨e, he, hle⟩ := hl
  subst hle
  rcases List.mem_append.mp hbl with h1 | h2
  · exact varintEnc_lt _ b h1
  · exact encodeParents_lt _ _ b h2

theorem validStr_ValidCp (s : List Nat) (h : validStr s = true) : ∀ c ∈ s, ValidCp c := by
  intro c hc
  unfold validStr at h
  rw [List.all_eq_true] at h
  have h2 := h c hc
  simpa using h2

theorem encodeBody_lt (o : OpLog) (sIns sDel : Bool) (hwf : wf o sIns sDel = true) :
    ∀ b ∈ encodeBody o sIns sDel, b < 256 := by
  have hnames : ∀ n ∈ o.client_data.map (·.name), ∀ c ∈ n, ValidCp c := by
    intro n hn
    apply validStr_ValidCp
    unfold wf at hwf
    simp only [Bool.and_eq_true, List.all_eq_true] at hwf
    exact hwf.1.1.1.1.1.1.1.1.1.1.1.1.1.1.1.2 n hn
  have hins : ∀ c ∈ o.ins_content, ValidCp c := by
    apply validStr_ValidCp
    unfold wf at hwf
    simp only [Bool.and_eq_true] at hwf
    exact hwf.1.1.1.1.1.1.1.1.1.2
  have hdel : ∀ c ∈ o.del_content, ValidCp c := by
    apply validStr_ValidCp
    unfold wf at hwf
    simp only [Bool.and_eq_true] at hwf
    exact hwf.1.1.1.1.1.1.1.1.2
  intro b hb
  unfold encodeBody at hb
  rcases List.mem_append.mp hb with h1 | h2
  · rcases List.mem_append.mp h1 with h3 | h4
    · rcases List.mem_append.mp h3 with h5 | h6
      · unfold MAGIC_BYTES at h5
        simp at h5
        rcases h5 with h | h | h | h | h <;> omega
      · exact varintEnc_lt _ b h6
    · exact encodeChunk_lt _ _ (encodeChunk_lt _ _ (encodeAgentNames_lt _ hnames)) b h4
  · apply encodeChunk_lt _ _ ?hbody b h2
    intro x hx
    rcases List.mem_append.mp hx with g1 | gTD
    · rcases List.mem_append.mp g1 with g2 | gPP
      · rcases List.mem_append.mp g2 with g3 | gAA
        · rcases List.mem_append.mp g3 with gIns | gDel
          · by_cases hsi : sIns = true
            · rw [if_pos hsi] at gIns
              exact encodeChunk_lt _ _ (utf8Encode_lt _ hins) x gIns
            · rw [if_neg hsi] at gIns
              simp at gIns
          · by_cases hsd : sDel = true
            · rw [if_pos hsd] at gDel
              exact encodeChunk_lt _ _ (utf8Encode_lt _ hdel) x gDel
            · rw [if_neg hsd] at gDel
              simp at gDel
        · exact encodeChunk_lt _ _ (encodeAssignments_lt _ _) x gAA
      · exact encodeChunk_lt _ _ (encodePatches_lt _ _) x gPP
    · exact encodeChunk_lt _ _ (encodeHistory_lt _) x gTD

theorem crc32Round_lt (c : Nat) (h : c < 4294967296) : crc32Round c < 4294967296 := by
  unfold crc32Round
  by_cases h2 : c % 2 = 1
  · rw [if_pos h2]
    have e : (4294967296 : Nat) = 2 ^ 32 := by norm_num
    rw [e]
    exact Nat.xor_lt_two_pow (by omega) (by norm_num)
  · rw [if_neg h2]
    omega

theorem crc32Byte_lt (crc b : Nat) (h : crc < 4294967296) (hb : b < 256) :
    crc32Byte crc b < 4294967296 := by
  unfold crc32Byte
  have h0 : Nat.xor crc b < 4294967296 := by
    have e : (4294967296 : Nat) = 2 ^ 32 := by norm_num
    rw [e]
    exact Nat.xor_lt_two_pow (by omega) (by omega)
  exact crc32Round_lt _ (crc32Round_lt _ (crc32Round_lt _ (crc32Round_lt _ (crc32Round_lt _
    (crc32Round_lt _ (crc32Round_lt _ (crc32Round_lt _ h0)))))))

theorem foldl_crc_lt (data : Bytes) :
    ∀ acc, acc < 4294967296 → (∀ b ∈ data, b < 256) →
    data.foldl crc32Byte acc < 4294967296 := by
  induction data with
  | nil =>
    intro acc h _
    simpa using h
  | cons x xs ih =>
    intro acc h hdata
    rw [List.foldl_cons]
    exact ih _ (crc32Byte_lt acc x h (hdata x (by simp))) (fun b hb => hdata b (by simp [hb]))

theorem checksum_lt (data : Bytes) (h : ∀ b ∈ data, b < 256) :
    checksum data < 4294967296 := by
  unfold checksum
  have h1 := foldl_crc_lt data 4294967295 (by norm_num) h
  have e : (4294967296 : Nat) = 2 ^ 32 := by norm_num
  rw [e]
  exact Nat.xor_lt_two_pow (by omega) (by norm_num)

theorem u32le_exact (c : Nat) (hc : c < 4294967296) :
    nextU32le (u32leBytes c) = DR.ok (c, []) := by
  have h := u32le_enc c [] hc
  rwa [List.append_nil] at h

theorem take_drop_crc (m v fi p crc : Bytes) :
    (m ++ (v ++ (fi ++ (p ++ crc)))).take
        ((m ++ (v ++ (fi ++ (p ++ crc)))).length - crc.length) =
      m ++ (v ++ (fi ++ p)) := by
  rw [show m ++ (v ++ (fi ++ (p ++ crc))) = (m ++ (v ++ (fi ++ p))) ++ crc from by
    simp [List.append_assoc]]
  exact take_prefix_of_append _ _

theorem assignments_rebuild_cd (o oA : OpLog)
    (hA : oA.client_data = o.client_data.map (fun cd => { name := cd.name, item_times := [] }))
    (hsc : spansConsecutive 0 o.client_with_lv = true)
    (hab : ∀ e ∈ o.client_with_lv, e.2.agent < o.client_data.length)
    (hit : ∀ a ∈ List.range o.client_data.length,
      (o.client_data.getD a { name := [], item_times := [] }).item_times =
        derivedItemTimes a o.client_with_lv) :
    (applyAssignments oA 0 o.client_with_lv).client_data = o.client_data := by
  have hlenA : (applyAssignments oA 0 o.client_with_lv).client_data.length =
      o.client_data.length := by
    rw [(applyAssignments_preserves o.client_with_lv oA 0).2.2.2.2.2, hA]
    simp
  have hagA : ∀ e ∈ o.client_with_lv, e.2.agent < oA.client_data.length := by
    intro e he
    rw [hA]
    simpa using hab e he
  apply List.ext_get hlenA
  intro n h1 h2
  rw [List.get_eq_getElem, List.get_eq_getElem]
  rw [← List.getD_eq_getElem _ { name := [], item_times := [] } h1]
  rw [applyAssignments_getD o.client_with_lv oA 0 n hsc hagA]
  have hn : n < o.client_data.length := h2
  rw [hA]
  rw [List.getD_eq_getElem _ _ (by simpa using hn)]
  rw [List.getElem_map]
  dsimp only
  rw [List.nil_append]
  rw [← hit n (List.mem_range.mpr hn)]
  rw [List.getD_eq_getElem _ _ hn]

theorem applyHistory_rebuild (o oC : OpLog)
    (h1 : oC.client_data = o.client_data)
    (h2 : oC.client_with_lv = o.client_with_lv)
    (h3 : oC.operations = o.operations)
    (h4 : oC.ins_content = o.ins_content)
    (h5 : oC.del_content = o.del_content)
    (h6 : oC.history = [])
    (h7 : oC.frontier = [ROOT_TIME])
    (hh : histConsecutive 0 o.history = true)
    (hf : o.frontier = derivedFrontier o.history) :
    applyHistory oC 0 o.history = o := by
  obtain ⟨p1, p2, p3, p4, p5⟩ := applyHistory_preserves o.history oC 0
  have hhist := applyHistory_history o.history oC 0 hh
  have hfr2 := applyHistory_frontier o.history oC 0 hh
  have heta : applyHistory oC 0 o.history =
      OpLog.mk (applyHistory oC 0 o.history).client_data
        (applyHistory oC 0 o.history).client_with_lv
        (applyHistory oC 0 o.history).operations
        (applyHistory oC 0 o.history).ins_content
        (applyHistory oC 0 o.history).del_content
        (applyHistory oC 0 o.history).history
        (applyHistory oC 0 o.history).frontier := rfl
  rw [heta, p1, p2, p3, p4, p5, hhist, hfr2, h1, h2, h3, h4, h5, h6, h7]
  rw [List.nil_append]
  have hdf : o.history.foldl (fun f e => advanceFrontier f e.parents e.span) [ROOT_TIME] =
      derivedFrontier o.history := rfl
  rw [hdf, ← hf]

theorem mergeData_encodeWithCrc (o : OpLog) (sIns sDel : Bool) (c : Nat)
    (hwf : wf o sIns sDel = true) (hc : c < 4294967296) :
    OpLog.new.mergeData (encodeWithCrc o sIns sDel c) =
      if checksum (encodeBody o sIns sDel) ≠ c then DR.err ParseError.ChecksumFailed
      else DR.ok o := by
  unfold wf at hwf
  simp only [Bool.and_eq_true, beq_iff_eq, List.all_eq_true, decide_eq_true_eq] at hwf
  obtain ⟨⟨⟨⟨⟨⟨⟨⟨⟨⟨⟨⟨⟨⟨⟨⟨hnd, hnv⟩, hsc⟩, hab⟩, hit⟩, hoc⟩, hcok⟩, hvi⟩, hvd⟩, hsi⟩,
    hsd⟩, hhc⟩, hss⟩, hsid⟩, hsh⟩, hfr⟩, hlen⟩ := hwf
  unfold OpLog.mergeData encodeWithCrc encodeBody
  simp only [List.append_assoc]
  rw [ readMagic_prefix]
  simp only [DR.monad_bind, DR.bind_ok]
  rw [nextUsize_enc]
  simp only [DR.monad_bind, DR.bind_ok]
  rw [if_neg (by simp)]
  rw [expectChunk_enc]
  simp only [DR.monad_bind, DR.bind_ok]
  rw [readChunk_skip_exact Chunk.UserData Chunk.AgentNames (by decide)]
  simp only [DR.monad_bind, DR.bind_ok]
  rw [expectChunk_exact]
  simp only [DR.monad_bind, DR.bind_ok]
  rw [readAgentNamesLoop_enc (o.client_data.map (fun x => x.name))
    ((encodeAgentNames (o.client_data.map (fun x => x.name))).length + 1) OpLog.new []
    (by
      have h1 := encodeAgentNames_length_ge (o.client_data.map (fun x => x.name))
      omega)
    hnv]
  rw [foldNames_fresh (o.client_data.map (fun x => x.name)) OpLog.new []
    (by
      intro n hn cd hcd
      simp [OpLog.new] at hcd)
    hnd]
  simp only [DR.monad_bind, DR.bind_ok]
  simp only [OpLog.new, List.nil_append, List.length_map, List.length_nil, idMapFrom_zero,
    List.map_map]
  set oA : OpLog := { client_data := List.map ((fun n => { name := n, item_times := [] }) ∘ fun x => x.name) o.client_data, client_with_lv := [], operations := [], ins_content := [], del_content := [], history := [], frontier := [ROOT_TIME] } with hoA
  have hoA0 : OpLog.len oA = 0 := by
    rw [hoA]
    rfl
  rw [hoA0]
  rw [readChunk_skip Chunk.StartBranch Chunk.Patches (by decide)]
  simp only [DR.monad_bind, DR.bind_ok]
  rw [expectChunk_enc]
  simp only [DR.monad_bind, DR.bind_ok]
  cases sIns with
  | true =>
    cases sDel with
    | true =>
      simp only [iteTT, iteFT, if_true, if_false, Bool.false_eq_true, List.nil_append] at hsi hsd ⊢
      rw [beq_iff_eq] at hsi
      rw [beq_iff_eq] at hsd
      rw [readChunk_enc]
      simp only [DR.monad_bind, DR.bind_ok]
      rw [utf8Decode_encode o.ins_content (validStr_ValidCp _ hvi)]
      simp only [DR.monad_bind, DR.bind_ok]
      rw [readChunk_enc]
      simp only [DR.monad_bind, DR.bind_ok]
      rw [utf8Decode_encode o.del_content (validStr_ValidCp _ hvd)]
      simp only [DR.monad_bind, DR.bind_ok]
      rw [expectChunk_enc]
      simp only [DR.monad_bind, DR.bind_ok]
      obtain ⟨map2, hasg⟩ := readAssignmentLoop_enc o.client_with_lv
        ((encodeAssignments (initialAgentMap o.client_data.length) o.client_with_lv).length + 1)
        oA (initialAgentMap o.client_data.length) 0
        (by
          have h1 := encodeAssignments_length_ge o.client_with_lv
            (initialAgentMap o.client_data.length)
          omega)
        (by
          rw [hoA]
          simp [initialAgentMap])
        (initialAgentMap_id o.client_data.length)
        (by
          intro e he
          have h1 := hab e he
          have h2 := spansConsecutive_mem o.client_with_lv 0 hsc e he
          refine ⟨?_, h2.1, h2.2⟩
          rw [hoA]
          simpa using h1)
      rw [hasg]
      simp only [DR.monad_bind, DR.bind_ok]
      rw [expectChunk_enc]
      simp only [DR.monad_bind, DR.bind_ok]
      have hpre := applyAssignments_preserves o.client_with_lv oA 0
      have hpat := readPatchesLoop_enc true true o.operations
        ((encodePatches 0 o.operations).length + 1)
        (applyAssignments oA 0 o.client_with_lv) o.ins_content o.del_content 0 0
        (by
          have h1 := encodePatches_length_ge o.operations 0
          omega)
        hoc
        (by
          rw [hpre.2.1, hpre.2.2.1, hoA]
          exact hcok)
        (by intro _ ; omega)
        (by intro _ ; omega)
      simp only [iteTT, iteFT, if_true, if_false, Bool.false_eq_true] at hpat
      rw [hpat]
      simp only [DR.monad_bind, DR.bind_ok]
      rw [if_neg (fun hcon => hcon (by rw [sumOpLens_split] ; omega))]
      rw [hsi]
      simp only [List.take_length, List.drop_length, DR.monad_bind, DR.bind_ok]
      rw [if_neg (by simp)]
      simp only [DR.monad_bind, DR.bind_ok]
      rw [hsd]
      simp only [List.take_length, DR.monad_bind, DR.bind_ok]
      rw [expectChunk_exact]
      simp only [DR.monad_bind, DR.bind_ok]
      rw [readHistoryLoop_enc o.history ((encodeHistory o.history).length + 1) _ map2 0
        (by
          have h1 := encodeHistory_length_ge o.history
          omega)
        hhc]
      simp only [DR.monad_bind, DR.bind_ok]
      rw [if_neg (fun hcon => hcon (by rw [sumOpLens_split] ; omega))]
      rw [readChunk_enc_exact]
      simp only [DR.monad_bind, DR.bind_ok]
      rw [u32le_exact c hc]
      simp only [DR.monad_bind, DR.bind_ok]
      rw [take_drop_crc]
      rw [applyHistory_rebuild o _
        (by
          dsimp only
          exact assignments_rebuild_cd o oA (by rw [hoA] ; rfl) hsc hab hit)
        (by
          dsimp only
          rw [applyAssignments_cwl o.client_with_lv oA 0 hsc, hoA]
          try rfl)
        (by
          dsimp only
          rw [hpre.1, hoA]
          try rfl)
        (by
          dsimp only
          rw [hpre.2.1, hoA] ; try rfl)
        (by
          dsimp only
          rw [hpre.2.2.1, hoA] ; try rfl)
        (by
          dsimp only
          rw [hpre.2.2.2.1, hoA]
          try rfl)
        (by
          dsimp only
          rw [hpre.2.2.2.2.1, hoA]
          try rfl)
        hhc hfr]
    | false =>
      simp only [iteTT, iteFT, if_true, if_false, Bool.false_eq_true, List.nil_append] at hsi hsd ⊢
      rw [beq_iff_eq] at hsi
      have hde : o.del_content = [] := by simpa using hsd
      rw [readChunk_enc]
      simp only [DR.monad_bind, DR.bind_ok]
      rw [utf8Decode_encode o.ins_content (validStr_ValidCp _ hvi)]
      simp only [DR.monad_bind, DR.bind_ok]
      rw [readChunk_skip Chunk.DeletedContent Chunk.AgentAssignment (by decide)]
      simp only [DR.monad_bind, DR.bind_ok]
      rw [expectChunk_enc]
      simp only [DR.monad_bind, DR.bind_ok]
      obtain ⟨map2, hasg⟩ := readAssignmentLoop_enc o.client_with_lv
        ((encodeAssignments (initialAgentMap o.client_data.length) o.client_with_lv).length + 1)
        oA (initialAgentMap o.client_data.length) 0
        (by
          have h1 := encodeAssignments_length_ge o.client_with_lv
            (initialAgentMap o.client_data.length)
          omega)
        (by
          rw [hoA]
          simp [initialAgentMap])
        (initialAgentMap_id o.client_data.length)
        (by
          intro e he
          have h1 := hab e he
          have h2 := spansConsecutive_mem o.client_with_lv 0 hsc e he
          refine ⟨?_, h2.1, h2.2⟩
          rw [hoA]
          simpa using h1)
      rw [hasg]
      simp only [DR.monad_bind, DR.bind_ok]
      rw [expectChunk_enc]
      simp only [DR.monad_bind, DR.bind_ok]
      have hpre := applyAssignments_preserves o.client_with_lv oA 0
      have hpat := readPatchesLoop_enc true false o.operations
        ((encodePatches 0 o.operations).length + 1)
        (applyAssignments oA 0 o.client_with_lv) o.ins_content o.del_content 0 0
        (by
          have h1 := encodePatches_length_ge o.operations 0
          omega)
        hoc
        (by
          rw [hpre.2.1, hpre.2.2.1, hoA]
          exact hcok)
        (by intro _ ; omega)
        (by intro hx ; simp at hx)
      simp only [iteTT, iteFT, if_true, if_false, Bool.false_eq_true] at hpat
      rw [hpat]
      simp only [DR.monad_bind, DR.bind_ok]
      rw [if_neg (fun hcon => hcon (by rw [sumOpLens_split] ; omega))]
      rw [hsi]
      simp only [List.take_length, List.drop_length, DR.monad_bind, DR.bind_ok]
      rw [if_neg (by simp)]
      simp only [DR.monad_bind, DR.bind_ok]
      rw [expectChunk_exact]
      simp only [DR.monad_bind, DR.bind_ok]
      rw [readHistoryLoop_enc o.history ((encodeHistory o.history).length + 1) _ map2 0
        (by
          have h1 := encodeHistory_length_ge o.history
          omega)
        hhc]
      simp only [DR.monad_bind, DR.bind_ok]
      rw [if_neg (fun hcon => hcon (by rw [sumOpLens_split] ; omega))]
      rw [readChunk_enc_exact]
      simp only [DR.monad_bind, DR.bind_ok]
      rw [u32le_exact c hc]
      simp only [DR.monad_bind, DR.bind_ok]
      rw [take_drop_crc]
      rw [applyHistory_rebuild o _
        (by
          dsimp only
          exact assignments_rebuild_cd o oA (by rw [hoA] ; rfl) hsc hab hit)
        (by
          dsimp only
          rw [applyAssignments_cwl o.client_with_lv oA 0 hsc, hoA]
          try rfl)
        (by
          dsimp only
          rw [hpre.1, hoA]
          try rfl)
        (by
          dsimp only
          rw [hpre.2.1, hoA] ; try rfl)
        (by
          dsimp only
          rw [List.append_nil, hpre.2.2.1, hoA] ; exact hde.symm)
        (by
          dsimp only
          rw [hpre.2.2.2.1, hoA]
          try rfl)
        (by
          dsimp only
          rw [hpre.2.2.2.2.1, hoA]
          try rfl)
        hhc hfr]
  | false =>
    cases sDel with
    | true =>
      simp only [iteTT, iteFT, if_true, if_false, Bool.false_eq_true, List.nil_append] at hsi hsd ⊢
      have hie : o.ins_content = [] := by simpa using hsi
      rw [beq_iff_eq] at hsd
      rw [readChunk_skip Chunk.InsertedContent Chunk.DeletedContent (by decide)]
      simp only [DR.monad_bind, DR.bind_ok]
      rw [readChunk_enc]
      simp only [DR.monad_bind, DR.bind_ok]
      rw [utf8Decode_encode o.del_content (validStr_ValidCp _ hvd)]
      simp only [DR.monad_bind, DR.bind_ok]
      rw [expectChunk_enc]
      simp only [DR.monad_bind, DR.bind_ok]
      obtain ⟨map2, hasg⟩ := readAssignmentLoop_enc o.client_with_lv
        ((encodeAssignments (initialAgentMap o.client_data.length) o.client_with_lv).length + 1)
        oA (initialAgentMap o.client_data.length) 0
        (by
          have h1 := encodeAssignments_length_ge o.client_with_lv
            (initialAgentMap o.client_data.length)
          omega)
        (by
          rw [hoA]
          simp [initialAgentMap])
        (initialAgentMap_id o.client_data.length)
        (by
          intro e he
          have h1 := hab e he
          have h2 := spansConsecutive_mem o.client_with_lv 0 hsc e he
          refine ⟨?_, h2.1, h2.2⟩
          rw [hoA]
          simpa using h1)
      rw [hasg]
      simp only [DR.monad_bind, DR.bind_ok]
      rw [expectChunk_enc]
      simp only [DR.monad_bind, DR.bind_ok]
      have hpre := applyAssignments_preserves o.client_with_lv oA 0
      have hpat := readPatchesLoop_enc false true o.operations
        ((encodePatches 0 o.operations).length + 1)
        (applyAssignments oA 0 o.client_with_lv) o.ins_content o.del_content 0 0
        (by
          have h1 := encodePatches_length_ge o.operations 0
          omega)
        hoc
        (by
          rw [hpre.2.1, hpre.2.2.1, hoA]
          exact hcok)
        (by intro hx ; simp at hx)
        (by intro _ ; omega)
      simp only [iteTT, iteFT, if_true, if_false, Bool.false_eq_true] at hpat
      rw [hpat]
      simp only [DR.monad_bind, DR.bind_ok]
      rw [if_neg (fun hcon => hcon (by rw [sumOpLens_split] ; omega))]
      rw [hsd]
      simp only [List.take_length, DR.monad_bind, DR.bind_ok]
      rw [expectChunk_exact]
      simp only [DR.monad_bind, DR.bind_ok]
      rw [readHistoryLoop_enc o.history ((encodeHistory o.history).length + 1) _ map2 0
        (by
          have h1 := encodeHistory_length_ge o.history
          omega)
        hhc]
      simp only [DR.monad_bind, DR.bind_ok]
      rw [if_neg (fun hcon => hcon (by rw [sumOpLens_split] ; omega))]
      rw [readChunk_enc_exact]
      simp only [DR.monad_bind, DR.bind_ok]
      rw [u32le_exact c hc]
      simp only [DR.monad_bind, DR.bind_ok]
      rw [take_drop_crc]
      rw [applyHistory_rebuild o _
        (by
          dsimp only
          exact assignments_rebuild_cd o oA (by rw [hoA] ; rfl) hsc hab hit)
        (by
          dsimp only
          rw [applyAssignments_cwl o.client_with_lv oA 0 hsc, hoA]
          try rfl)
        (by
          dsimp only
          rw [hpre.1, hoA]
          try rfl)
        (by
          dsimp only
          rw [List.append_nil, hpre.2.1, hoA] ; exact hie.symm)
        (by
          dsimp only
          rw [hpre.2.2.1, hoA] ; try rfl)
        (by
          dsimp only
          rw [hpre.2.2.2.1, hoA]
          try rfl)
        (by
          dsimp only
          rw [hpre.2.2.2.2.1, hoA]
          try rfl)
        hhc hfr]
    | false =>
      simp only [iteTT, iteFT, if_true, if_false, Bool.false_eq_true, List.nil_append] at hsi hsd ⊢
      have hie : o.ins_content = [] := by simpa using hsi
      have hde : o.del_content = [] := by simpa using hsd
      rw [readChunk_skip Chunk.InsertedContent Chunk.AgentAssignment (by decide)]
      simp only [DR.monad_bind, DR.bind_ok]
      rw [readChunk_skip Chunk.DeletedContent Chunk.AgentAssignment (by decide)]
      simp only [DR.monad_bind, DR.bind_ok]
      rw [expectChunk_enc]
      simp only [DR.monad_bind, DR.bind_ok]
      obtain ⟨map2, hasg⟩ := readAssignmentLoop_enc o.client_with_lv
        ((encodeAssignments (initialAgentMap o.client_data.length) o.client_with_lv).length + 1)
        oA (initialAgentMap o.client_data.length) 0
        (by
          have h1 := encodeAssignments_length_ge o.client_with_lv
            (initialAgentMap o.client_data.length)
          omega)
        (by
          rw [hoA]
          simp [initialAgentMap])
        (initialAgentMap_id o.client_data.length)
        (by
          intro e he
          have h1 := hab e he
          have h2 := spansConsecutive_mem o.client_with_lv 0 hsc e he
          refine ⟨?_, h2.1, h2.2⟩
          rw [hoA]
          simpa using h1)
      rw [hasg]
      simp only [DR.monad_bind, DR.bind_ok]
      rw [expectChunk_enc]
      simp only [DR.monad_bind, DR.bind_ok]
      have hpre := applyAssignments_preserves o.client_with_lv oA 0
      have hpat := readPatchesLoop_enc false false o.operations
        ((encodePatches 0 o.operations).length + 1)
        (applyAssignments oA 0 o.client_with_lv) o.ins_content o.del_content 0 0
        (by
          have h1 := encodePatches_length_ge o.operations 0
          omega)
        hoc
        (by
          rw [hpre.2.1, hpre.2.2.1, hoA]
          exact hcok)
        (by intro hx ; simp at hx)
        (by intro hx ; simp at hx)
      simp only [iteTT, iteFT, if_true, if_false, Bool.false_eq_true] at hpat
      rw [hpat]
      simp only [DR.monad_bind, DR.bind_ok]
      rw [if_neg (fun hcon => hcon (by rw [sumOpLens_split] ; omega))]
      rw [expectChunk_exact]
      simp only [DR.monad_bind, DR.bind_ok]
      rw [readHistoryLoop_enc o.history ((encodeHistory o.history).length + 1) _ map2 0
        (by
          have h1 := encodeHistory_length_ge o.history
          omega)
        hhc]
      simp only [DR.monad_bind, DR.bind_ok]
      rw [if_neg (fun hcon => hcon (by rw [sumOpLens_split] ; omega))]
      rw [readChunk_enc_exact]
      simp only [DR.monad_bind, DR.bind_ok]
      rw [u32le_exact c hc]
      simp only [DR.monad_bind, DR.bind_ok]
      rw [take_drop_crc]
      rw [applyHistory_rebuild o _
        (by
          dsimp only
          exact assignments_rebuild_cd o oA (by rw [hoA] ; rfl) hsc hab hit)
        (by
          dsimp only
          rw [applyAssignments_cwl o.client_with_lv oA 0 hsc, hoA]
          try rfl)
        (by
          dsimp only
          rw [hpre.1, hoA]
          try rfl)
        (by
          dsimp only
          rw [List.append_nil, hpre.2.1, hoA] ; exact hie.symm)
        (by
          dsimp only
          rw [List.append_nil, hpre.2.2.1, hoA] ; exact hde.symm)
        (by
          dsimp only
          rw [hpre.2.2.2.1, hoA]
          try rfl)
        (by
          dsimp only
          rw [hpre.2.2.2.2.1, hoA]
          try rfl)
        hhc hfr]

/-! ### Claim C8: header validation. -/

/-- C8: `merge_data` returns `UnexpectedEOF` on inputs shorter than 8 bytes, returns
`InvalidMagic` whenever the first 8 bytes differ from the magic header, and returns
`UnsupportedProtocolVersion` whenever the magic is correct but the following varint
protocol version is not 1 — in each case as an immediate error, before any chunk is
decoded. -/
theorem merge_data_header_validation (self : OpLog) :
    (∀ data : Bytes, data.length < 8 →
      self.mergeData data = DR.err ParseError.UnexpectedEOF) ∧
    (∀ data : Bytes, 8 ≤ data.length → data.take 8 ≠ MAGIC_BYTES →
      self.mergeData data = DR.err ParseError.InvalidMagic) ∧
    (∀ (v : Nat) (rest : Bytes), v ≠ PROTOCOL_VERSION →
      self.mergeData (MAGIC_BYTES ++ (varintEnc v ++ rest)) =
        DR.err ParseError.UnsupportedProtocolVersion) := by
  refine ⟨?_, ?_, ?_⟩
  · intro data h
    unfold OpLog.mergeData
    have hm : readMagic data = DR.err ParseError.UnexpectedEOF := by
      unfold readMagic checkHasBytes
      rw [if_pos h]
      simp
    rw [hm]
    simp
  · intro data hlen hmagic
    unfold OpLog.mergeData
    have hm : readMagic data = DR.err ParseError.InvalidMagic := by
      unfold readMagic checkHasBytes
      rw [if_neg (by omega)]
      simp only [DR.monad_bind, DR.bind_ok]
      rw [if_pos hmagic]
    rw [hm]
    simp
  · intro v rest hv
    unfold OpLog.mergeData
    rw [ readMagic_prefix]
    simp only [DR.monad_bind, DR.bind_ok]
    rw [nextUsize_enc]
    simp only [DR.bind_ok]
    rw [if_pos hv]

/-- Witness for C8 at three concrete inputs. -/
theorem merge_data_header_validation_witness :
    OpLog.new.mergeData [0] = DR.err ParseError.UnexpectedEOF ∧
    OpLog.new.mergeData [0, 0, 0, 0, 0, 0, 0, 0] = DR.err ParseError.InvalidMagic ∧
    OpLog.new.mergeData (MAGIC_BYTES ++ (varintEnc 2 ++ [])) =
      DR.err ParseError.UnsupportedProtocolVersion :=
  ⟨(merge_data_header_validation OpLog.new).1 [0] (by decide),
   (merge_data_header_validation OpLog.new).2.1 [0, 0, 0, 0, 0, 0, 0, 0]
     (by decide) (by decide),
   (merge_data_header_validation OpLog.new).2.2 2 [] (by decide)⟩

/-! ### Claim C1: the encode/decode round-trip. -/

/-- C1: for every well-formed OpLog `o` (agent names valid and distinct, spans
consecutive and in range, contents matching the store flags, history consecutive
with valid parents, frontier derived from the history), encoding `o` with
`encode` and loading the result back with `load_from` into a fresh OpLog
succeeds and returns an OpLog equal to `o`. -/
theorem oplog_encode_roundtrip (o : OpLog) (sIns sDel : Bool)
    (hwf : wf o sIns sDel = true) :
    OpLog.loadFrom (o.encode sIns sDel) = DR.ok o := by
  unfold OpLog.loadFrom OpLog.encode
  rw [mergeData_encodeWithCrc o sIns sDel _ hwf
    (checksum_lt _ (encodeBody_lt o sIns sDel hwf))]
  rw [if_neg (fun h => h rfl)]

/-- Witness for C1 at the S1 scenario's oplog, storing inserted content. -/
theorem oplog_encode_roundtrip_witness :
    wf simple_doc.ops true false = true ∧
    OpLog.loadFrom (simple_doc.ops.encode true false) = DR.ok simple_doc.ops :=
  ⟨by rfl, oplog_encode_roundtrip simple_doc.ops true false (by rfl)⟩

/-! ### Claim C3, amended part: the CRC value itself is checked strictly. -/

/-- C3 (amended): the stored CRC value is verified strictly: loading a blob that
consists of the encoded body of a well-formed OpLog followed by a CRC chunk whose
stored 4-byte value `c` differs from the body's actual CRC-32 fails with
`ChecksumFailed`. (By `crc_flip_not_detected`, flipping the CRC chunk's *type*
byte instead makes the decoder skip verification, so not every single-byte
corruption is caught.) -/
theorem crc_value_strict (o : OpLog) (sIns sDel : Bool) (c : Nat)
    (hwf : wf o sIns sDel = true) (hc : c < 4294967296)
    (hne : c ≠ checksum (encodeBody o sIns sDel)) :
    OpLog.loadFrom (encodeWithCrc o sIns sDel c) = DR.err ParseError.ChecksumFailed := by
  unfold OpLog.loadFrom
  rw [mergeData_encodeWithCrc o sIns sDel c hwf hc]
  rw [if_pos (fun h => hne h.symm)]

/-- Witness for C3's amended theorem: the empty oplog's body with a zeroed CRC
value fails to load with `ChecksumFailed`. -/
theorem crc_value_strict_witness :
    wf OpLog.new true false = true ∧
    (0 : Nat) < 4294967296 ∧
    (0 : Nat) ≠ checksum (encodeBody OpLog.new true false) ∧
    OpLog.loadFrom (encodeWithCrc OpLog.new true false 0) =
      DR.err ParseError.ChecksumFailed :=
  ⟨by rfl, by decide, by decide,
    crc_value_strict OpLog.new true false 0 (by rfl) (by decide) (by decide)⟩


/-! ### Claim C2: the StartBranch frontier-mismatch path. -/

/-- C2 (amended): when the file has a `StartBranch` chunk whose decoded start
frontier differs from the destination oplog's current frontier, `merge_data` hits
the source's `todo!("Overlapping data sets not implemented!")` — a panic, modelled
as `DR.crash` — rather than returning a `DataMissing` error. (`DataMissing` is
produced on this path only when the start frontier names an unknown remote id.)
The agent-names phase and the frontier decode are abstracted by hypotheses. -/
theorem merge_data_overlap_panics (self : OpLog) (nbytes : Bytes) (self2 : OpLog)
    (map : List (Nat × Nat)) (ents : List (Nat × Nat)) (fr : List Nat)
    (r2 rest : Bytes)
    (hnames : readAgentNamesLoop (nbytes.length + 1) self [] nbytes =
      DR.ok (self2, map))
    (hfr : readFrontier self2 map (encodeFrontierEntries ents) = DR.ok (fr, r2))
    (hne : fr ≠ self2.frontier) :
    self.mergeData (MAGIC_BYTES ++ (varintEnc PROTOCOL_VERSION ++
      (encodeChunk Chunk.FileInfo (encodeChunk Chunk.AgentNames nbytes) ++
        (encodeStartBranch ents ++ rest)))) = DR.crash := by
  unfold OpLog.mergeData
  rw [ readMagic_prefix]
  simp only [DR.monad_bind, DR.bind_ok]
  rw [nextUsize_enc]
  simp only [DR.monad_bind, DR.bind_ok]
  rw [if_neg (fun h => h rfl)]
  rw [expectChunk_enc]
  simp only [DR.monad_bind, DR.bind_ok]
  rw [readChunk_skip_exact Chunk.UserData Chunk.AgentNames (by decide)]
  simp only [DR.monad_bind, DR.bind_ok]
  rw [expectChunk_exact]
  simp only [DR.monad_bind, DR.bind_ok]
  rw [hnames]
  simp only [DR.monad_bind, DR.bind_ok]
  unfold encodeStartBranch
  rw [readChunk_enc]
  simp only [DR.monad_bind, DR.bind_ok]
  rw [expectChunk_exact]
  simp only [DR.monad_bind, DR.bind_ok]
  rw [hfr]
  simp only [DR.monad_bind, DR.bind_ok]
  rw [if_pos hne]
  simp only [DR.monad_bind, DR.bind_crash]

/-- Witness for C2's amended theorem at `overlapDest` / `overlapBlob`. -/
theorem merge_data_overlap_panics_witness :
    readAgentNamesLoop ((encodeAgentNames [[97]]).length + 1) overlapDest []
      (encodeAgentNames [[97]]) = DR.ok (overlapDest, [(0, 0)]) ∧
    readFrontier overlapDest [(0, 0)] (encodeFrontierEntries [(0, 0)]) =
      DR.ok ([0], []) ∧
    [0] ≠ overlapDest.frontier ∧
    overlapDest.mergeData (MAGIC_BYTES ++ (varintEnc PROTOCOL_VERSION ++
      (encodeChunk Chunk.FileInfo (encodeChunk Chunk.AgentNames
        (encodeAgentNames [[97]])) ++
        (encodeStartBranch [(0, 0)] ++ [])))) = DR.crash :=
  ⟨by rfl, by rfl, by decide,
    merge_data_overlap_panics overlapDest (encodeAgentNames [[97]]) overlapDest
      [(0, 0)] [(0, 0)] [0] [] [] (by rfl) (by rfl) (by decide)⟩

/-- C2 counterexample: on `overlapBlob`, whose StartBranch frontier decodes to `[0]`
while `overlapDest.frontier = [1]`, `merge_data` panics (`DR.crash`); in particular
it does not return the error `DataMissing`. -/
theorem merge_data_overlap_counterexample :
    overlapDest.mergeData overlapBlob = DR.crash ∧
    overlapDest.mergeData overlapBlob ≠ DR.err ParseError.DataMissing := by
  constructor
  · rfl
  · intro h
    have h2 : (DR.crash : DR OpLog) = DR.err ParseError.DataMissing := by
      calc (DR.crash : DR OpLog) = overlapDest.mergeData overlapBlob := by rfl
        _ = DR.err ParseError.DataMissing := h
    cases h2

/-! ### Claim C4: LV coverage of a successful decode. The loop postconditions below
hold on arbitrary input buffers, not only encoder output. -/

theorem DR.bind_ok_inv {α β : Type _} {x : DR α} {f : α → DR β} {b : β}
    (h : DR.bind x f = DR.ok b) : ∃ a, x = DR.ok a ∧ f a = DR.ok b := by
  cases x with
  | ok a => exact ⟨a, rfl, h⟩
  | err e => simp at h
  | crash => simp at h

theorem getOrCreate_fields (o : OpLog) (name : List Nat) :
    (o.getOrCreateAgentId name).1.client_with_lv = o.client_with_lv ∧
    (o.getOrCreateAgentId name).1.operations = o.operations ∧
    (o.getOrCreateAgentId name).1.history = o.history := by
  unfold OpLog.getOrCreateAgentId
  refine ⟨?_, ?_, ?_⟩ <;> (split <;> rfl)

theorem readAgentNamesLoop_post (fuel : Nat) :
    ∀ (o : OpLog) (map : List (Nat × Nat)) (buf : Bytes) (o2 : OpLog)
      (m2 : List (Nat × Nat)),
    readAgentNamesLoop fuel o map buf = DR.ok (o2, m2) →
    o2.client_with_lv = o.client_with_lv ∧ o2.operations = o.operations ∧
    o2.history = o.history := by
  induction fuel with
  | zero =>
    intro o map buf o2 m2 h
    simp [readAgentNamesLoop] at h
  | succ fuel ih =>
    intro o map buf o2 m2 h
    simp only [readAgentNamesLoop] at h
    by_cases he : buf.isEmpty
    · rw [if_pos he] at h
      simp only [DR.ok.injEq, Prod.mk.injEq] at h
      obtain ⟨h1, _⟩ := h
      subst h1
      exact ⟨rfl, rfl, rfl⟩
    · rw [if_neg he] at h
      simp only [DR.monad_bind] at h
      cases hn : nextStr buf with
      | ok p =>
        rw [hn] at h
        simp only [DR.bind_ok] at h
        obtain ⟨name, buf2⟩ := p
        dsimp only at h
        rcases hg : o.getOrCreateAgentId name with ⟨o3, id⟩
        rw [hg] at h
        dsimp only at h
        obtain ⟨g1, g2, g3⟩ := ih o3 (map ++ [(id, 0)]) buf2 o2 m2 h
        have hf := getOrCreate_fields o name
        rw [hg] at hf
        exact ⟨g1.trans hf.1, g2.trans hf.2.1, g3.trans hf.2.2⟩
      | err e =>
        rw [hn] at h
        simp at h
      | crash =>
        rw [hn] at h
        simp at h

theorem readAssignmentLoop_post (fuel : Nat) :
    ∀ (o : OpLog) (map : List (Nat × Nat)) (nt : Nat) (buf : Bytes) (o2 : OpLog)
      (m2 : List (Nat × Nat)) (nt2 : Nat),
    readAssignmentLoop fuel o map nt buf = DR.ok (o2, m2, nt2) →
    ∃ spans, o2.client_with_lv = o.client_with_lv ++ spans ∧
      cwlConsecutive nt spans = true ∧ nt2 = nt + sumSpanLens spans ∧
      o2.operations = o.operations ∧ o2.history = o.history := by
  induction fuel with
  | zero =>
    intro o map nt buf o2 m2 nt2 h
    simp [readAssignmentLoop] at h
  | succ fuel ih =>
    intro o map nt buf o2 m2 nt2 h
    simp only [readAssignmentLoop] at h
    simp only [DR.monad_bind] at h
    cases hn : readNextAgentAssignment buf map with
    | ok p =>
      rw [hn] at h
      simp only [DR.bind_ok] at h
      obtain ⟨rr, buf2⟩ := p
      dsimp only at h
      cases rr with
      | none =>
        dsimp only at h
        simp only [DR.ok.injEq, Prod.mk.injEq] at h
        obtain ⟨h1, _, h3⟩ := h
        subst h1
        subst h3
        refine ⟨[], by simp, rfl, by simp [sumSpanLens], rfl, rfl⟩
      | some q =>
        obtain ⟨cs, map3⟩ := q
        dsimp only at h
        split at h
        · exact DR.noConfusion h
        · obtain ⟨spans, h1, h2, h3, h4, h5⟩ :=
            ih (o.assignNextTimeToCrdtSpan nt cs) map3 (nt + cs.len) buf2 o2 m2 nt2 h
          obtain ⟨a1, a2, a3, a4, a5, a6⟩ := assign_fields o nt cs
          refine ⟨(nt, cs) :: spans, ?_, ?_, ?_, ?_, ?_⟩
          · rw [h1, a6]
            simp
          · simp only [cwlConsecutive, Bool.and_eq_true, beq_iff_eq]
            exact ⟨by simp, h2⟩
          · simp only [sumSpanLens]
            omega
          · rw [h4, a1]
          · rw [h5, a4]
    | err e =>
      rw [hn] at h
      simp at h
    | crash =>
      rw [hn] at h
      simp at h

theorem pushOp_fields (o : OpLog) (nt : Nat) (span : TimeSpanRev) (tag : InsDelTag)
    (ch : Option (List Nat)) :
    ∃ op : OperationInternal, op.span = span ∧
      (o.pushOpInternal nt span tag ch).operations = o.operations ++ [(nt, op)] ∧
      (o.pushOpInternal nt span tag ch).client_with_lv = o.client_with_lv ∧
      (o.pushOpInternal nt span tag ch).history = o.history := by
  unfold OpLog.pushOpInternal
  cases ch with
  | none => exact ⟨OperationInternal.mk span tag none, rfl, rfl, rfl, rfl⟩
  | some cs =>
    cases tag with
    | Ins =>
      exact ⟨OperationInternal.mk span InsDelTag.Ins
        (some (TimeSpan.mk o.ins_content.length (o.ins_content.length + cs.length))),
        rfl, rfl, rfl, rfl⟩
    | Del =>
      exact ⟨OperationInternal.mk span InsDelTag.Del
        (some (TimeSpan.mk o.del_content.length (o.del_content.length + cs.length))),
        rfl, rfl, rfl, rfl⟩

theorem readPatchesLoop_post (fuel : Nat) :
    ∀ (o : OpLog) (ic dc : Option (List Nat)) (lc nt : Nat) (buf : Bytes)
      (o2 : OpLog) (ic2 dc2 : Option (List Nat)) (nt2 : Nat),
    readPatchesLoop fuel o ic dc lc nt buf = DR.ok (o2, ic2, dc2, nt2) →
    ∃ ops, o2.operations = o.operations ++ ops ∧ nt2 = nt + sumOpLens ops ∧
      o2.client_with_lv = o.client_with_lv ∧ o2.history = o.history := by
  induction fuel with
  | zero =>
    intro o ic dc lc nt buf o2 ic2 dc2 nt2 h
    simp [readPatchesLoop] at h
  | succ fuel ih =>
    intro o ic dc lc nt buf o2 ic2 dc2 nt2 h
    simp only [readPatchesLoop] at h
    by_cases he : buf.isEmpty
    · rw [if_pos he] at h
      simp only [DR.ok.injEq, Prod.mk.injEq] at h
      obtain ⟨h1, _, _, h4⟩ := h
      subst h1
      refine ⟨[], by simp, by simp [sumOpLens, ← h4], rfl, rfl⟩
    · rw [if_neg he] at h
      simp only [DR.monad_bind] at h
      cases hn : nextInternal buf lc with
      | ok p =>
        rw [hn] at h
        simp only [DR.bind_ok] at h
        obtain ⟨op, buf2, lc2⟩ := p
        dsimp only at h
        have key : ∀ (T : InsDelTag) (CH : Option (List Nat))
            (IC DC : Option (List Nat)),
            readPatchesLoop fuel (o.pushOpInternal nt op.span T CH) IC DC lc2
              (nt + op.len) buf2 = DR.ok (o2, ic2, dc2, nt2) →
            ∃ ops, o2.operations = o.operations ++ ops ∧
              nt2 = nt + sumOpLens ops ∧
              o2.client_with_lv = o.client_with_lv ∧ o2.history = o.history := by
          intro T CH IC DC hh
          obtain ⟨ops, h1, h2, h3, h4⟩ :=
            ih (o.pushOpInternal nt op.span T CH) IC DC lc2 (nt + op.len) buf2
              o2 ic2 dc2 nt2 hh
          obtain ⟨op3, hsp, p1, p2, p3⟩ := pushOp_fields o nt op.span T CH
          have hlen : op3.len = op.len := by
            unfold OperationInternal.len
            rw [hsp]
            try rfl
          refine ⟨(nt, op3) :: ops, ?_, ?_, ?_, ?_⟩
          · rw [h1, p1]
            simp
          · simp only [sumOpLens]
            rw [hlen]
            omega
          · rw [h3, p2]
          · rw [h4, p3]
        cases ht : op.tag with
        | Ins =>
          rw [ht] at h
          cases ic with
          | none =>
            try dsimp only at h
            exact key _ _ _ _ h
          | some c =>
            simp only [consumeChars] at h
            try dsimp only at h
            exact key _ _ _ _ h
        | Del =>
          rw [ht] at h
          cases dc with
          | none =>
            try dsimp only at h
            exact key _ _ _ _ h
          | some c =>
            simp only [consumeChars] at h
            try dsimp only at h
            exact key _ _ _ _ h
      | err e =>
        rw [hn] at h
        simp at h
      | crash =>
        rw [hn] at h
        simp at h

theorem readHistoryLoop_post (fuel : Nat) :
    ∀ (o : OpLog) (map : List (Nat × Nat)) (nt : Nat) (buf : Bytes) (o2 : OpLog)
      (nt2 : Nat),
    readHistoryLoop fuel o map nt buf = DR.ok (o2, nt2) →
    ∃ entries, o2.history = o.history ++ entries ∧
      histSpansFrom nt entries = true ∧ nt2 = nt + sumHistLens entries ∧
      o2.client_with_lv = o.client_with_lv ∧ o2.operations = o.operations := by
  induction fuel with
  | zero =>
    intro o map nt buf o2 nt2 h
    simp [readHistoryLoop] at h
  | succ fuel ih =>
    intro o map nt buf o2 nt2 h
    simp only [readHistoryLoop] at h
    by_cases he : buf.isEmpty
    · rw [if_pos he] at h
      simp only [DR.ok.injEq, Prod.mk.injEq] at h
      obtain ⟨h1, h2⟩ := h
      subst h1
      refine ⟨[], by simp, rfl, by simp [sumHistLens, ← h2], rfl, rfl⟩
    · rw [if_neg he] at h
      simp only [DR.monad_bind] at h
      cases hn : nextUsize buf with
      | ok p =>
        rw [hn] at h
        simp only [DR.bind_ok] at h
        obtain ⟨len, buf2⟩ := p
        dsimp only at h
        cases hp : readParentsLoop o map nt (buf2.length + 1) [] buf2 with
        | ok q =>
          rw [hp] at h
          simp only [DR.bind_ok] at h
          obtain ⟨parents, buf3⟩ := q
          dsimp only at h
          obtain ⟨entries, h1, h2, h3, h4, h5⟩ :=
            ih ((o.insertHistory parents ⟨nt, nt + len⟩).advanceFrontier parents
              ⟨nt, nt + len⟩) map (nt + len) buf3 o2 nt2 h
          refine ⟨HistoryEntry.mk ⟨nt, nt + len⟩ parents :: entries, ?_, ?_, ?_, ?_, ?_⟩
          · rw [h1]
            have hhy : ((o.insertHistory parents ⟨nt, nt + len⟩).advanceFrontier parents ⟨nt, nt + len⟩).history = o.history ++ [HistoryEntry.mk ⟨nt, nt + len⟩ parents] := rfl
            rw [hhy]
            simp
          · simp only [histSpansFrom, Bool.and_eq_true, beq_iff_eq, decide_eq_true_eq]
            exact ⟨⟨by simp, by omega⟩, h2⟩
          · simp only [sumHistLens, TimeSpan.len]
            try dsimp only
            omega
          · rw [h4]
            rfl
          · rw [h5]
            rfl
        | err e =>
          rw [hp] at h
          simp at h
        | crash =>
          rw [hp] at h
          simp at h
      | err e =>
        rw [hn] at h
        simp at h
      | crash =>
        rw [hn] at h
        simp at h

theorem sumSpanLens_append (a b : List (Nat × CRDTSpan)) :
    sumSpanLens (a ++ b) = sumSpanLens a + sumSpanLens b := by
  induction a with
  | nil => simp [sumSpanLens]
  | cons hd tl ih =>
    obtain ⟨t, s⟩ := hd
    simp only [List.cons_append, List.append_eq, sumSpanLens, ih]
    omega

theorem sumOpLens_append (a b : List (Nat × OperationInternal)) :
    sumOpLens (a ++ b) = sumOpLens a + sumOpLens b := by
  induction a with
  | nil => simp [sumOpLens]
  | cons hd tl ih =>
    obtain ⟨t, op⟩ := hd
    simp only [List.cons_append, List.append_eq, sumOpLens, ih]
    omega

theorem sumHistLens_append (a b : List HistoryEntry) :
    sumHistLens (a ++ b) = sumHistLens a + sumHistLens b := by
  induction a with
  | nil => simp [sumHistLens]
  | cons hd tl ih =>
    simp only [List.cons_append, List.append_eq, sumHistLens, ih]
    omega

theorem cwlConsecutive_append (a b : List (Nat × CRDTSpan)) :
    ∀ t, cwlConsecutive t a = true →
    cwlConsecutive (t + sumSpanLens a) b = true →
    cwlConsecutive t (a ++ b) = true := by
  induction a with
  | nil =>
    intro t _ hb
    simpa [sumSpanLens] using hb
  | cons hd tl ih =>
    intro t ha hb
    obtain ⟨t0, s⟩ := hd
    simp only [cwlConsecutive, Bool.and_eq_true, beq_iff_eq] at ha
    obtain ⟨h1, h2⟩ := ha
    simp only [List.cons_append, cwlConsecutive, Bool.and_eq_true, beq_iff_eq]
    refine ⟨h1, ih (t + s.len) h2 ?_⟩
    have hs : t + sumSpanLens ((t0, s) :: tl) = t + s.len + sumSpanLens tl := by
      simp only [sumSpanLens]
      omega
    rw [hs] at hb
    exact hb

theorem histSpansFrom_append (a b : List HistoryEntry) :
    ∀ t, histSpansFrom t a = true →
    histSpansFrom (t + sumHistLens a) b = true →
    histSpansFrom t (a ++ b) = true := by
  induction a with
  | nil =>
    intro t _ hb
    simpa [sumHistLens] using hb
  | cons e tl ih =>
    intro t ha hb
    simp only [histSpansFrom, Bool.and_eq_true, beq_iff_eq, decide_eq_true_eq] at ha
    obtain ⟨⟨h1, h2⟩, h3⟩ := ha
    simp only [List.cons_append, histSpansFrom, Bool.and_eq_true, beq_iff_eq,
      decide_eq_true_eq]
    refine ⟨⟨h1, h2⟩, ih e.span.stop h3 ?_⟩
    have hs : t + sumHistLens (e :: tl) = e.span.stop + sumHistLens tl := by
      simp only [sumHistLens, TimeSpan.len]
      rw [h1]
      omega
    rw [hs] at hb
    exact hb

theorem cwl_last_aux (l : List (Nat × CRDTSpan)) :
    ∀ t, cwlConsecutive t l = true → ∀ p, l.getLast? = some p →
    p.1 + p.2.len = t + sumSpanLens l := by
  induction l with
  | nil =>
    intro t _ p hp
    simp at hp
  | cons hd tl ih =>
    intro t hc p hp
    obtain ⟨t0, s⟩ := hd
    simp only [cwlConsecutive, Bool.and_eq_true, beq_iff_eq] at hc
    obtain ⟨h1, h2⟩ := hc
    cases tl with
    | nil =>
      simp only [List.getLast?_singleton, Option.some.injEq] at hp
      subst hp
      simp only [sumSpanLens]
      omega
    | cons x xs =>
      obtain ⟨xa, xb⟩ := x
      rw [List.getLast?_cons_cons] at hp
      have hx := ih (t + s.len) h2 p hp
      simp only [sumSpanLens] at hx ⊢
      omega

theorem len_eq_sum (o : OpLog) (hc : cwlConsecutive 0 o.client_with_lv = true) :
    OpLog.len o = sumSpanLens o.client_with_lv := by
  cases hg : o.client_with_lv.getLast? with
  | none =>
    have hnil : o.client_with_lv = [] := by simpa using hg
    simp only [OpLog.len, hg]
    rw [hnil]
    rfl
  | some p =>
    obtain ⟨t0, s⟩ := p
    have := cwl_last_aux o.client_with_lv 0 hc (t0, s) hg
    simp only [OpLog.len, hg]
    dsimp only at this
    omega

theorem histSpansFrom_countP (l : List HistoryEntry) :
    ∀ t, histSpansFrom t l = true → ∀ x,
    List.countP (fun e => decide (e.span.start ≤ x) && decide (x < e.span.stop)) l =
      if t ≤ x ∧ x < t + sumHistLens l then 1 else 0 := by
  induction l with
  | nil =>
    intro t _ x
    simp only [List.countP_nil, sumHistLens]
    rw [if_neg (by omega)]
  | cons e rest ih =>
    intro t hc x
    simp only [histSpansFrom, Bool.and_eq_true, beq_iff_eq, decide_eq_true_eq] at hc
    obtain ⟨⟨hstart, hle⟩, hrest⟩ := hc
    rw [List.countP_cons]
    rw [ih e.span.stop hrest x]
    simp only [sumHistLens, TimeSpan.len, hstart, Bool.and_eq_true, decide_eq_true_eq]
    split_ifs <;> omega

/-- C4: on every input on which `merge_data` succeeds (into a destination whose
assignment keys and history spans are consecutive from 0 with equal totals — true
of `OpLog::new` and of every decoded oplog), the LVs covered by the decoded
AgentAssignment, PositionalPatches and TimeDAG chunks are equal in number (a
mismatch fails with `InvalidLength`), and the resulting oplog's history spans are
pairwise disjoint with union exactly `[0, oplog.len())`: every `x < len` lies in
exactly one history span, and no `x ≥ len` lies in any. -/
theorem merge_data_history_coverage (self : OpLog) (data : Bytes) (r : OpLog)
    (hcw : cwlConsecutive 0 self.client_with_lv = true)
    (hhs : histSpansFrom 0 self.history = true)
    (e1 : sumSpanLens self.client_with_lv = sumOpLens self.operations)
    (e2 : sumOpLens self.operations = sumHistLens self.history)
    (h : self.mergeData data = DR.ok r) :
    sumSpanLens r.client_with_lv = sumOpLens r.operations ∧
    sumOpLens r.operations = sumHistLens r.history ∧
    OpLog.len r = sumSpanLens r.client_with_lv ∧
    ∀ x : Nat,
      List.countP (fun e => decide (e.span.start ≤ x) && decide (x < e.span.stop))
        r.history = if x < OpLog.len r then 1 else 0 := by
  unfold OpLog.mergeData at h
  simp only [DR.monad_bind] at h
  obtain ⟨rd1, _, h⟩ := DR.bind_ok_inv h
  try dsimp only at h
  obtain ⟨pPV, _, h⟩ := DR.bind_ok_inv h
  obtain ⟨pv, rd2⟩ := pPV
  try dsimp only at h
  split at h
  · exact DR.noConfusion h
  obtain ⟨pFI, _, h⟩ := DR.bind_ok_inv h
  obtain ⟨fileinfo, rd3⟩ := pFI
  try dsimp only at h
  obtain ⟨pUD, _, h⟩ := DR.bind_ok_inv h
  obtain ⟨ud, fi2⟩ := pUD
  try dsimp only at h
  obtain ⟨pAN, _, h⟩ := DR.bind_ok_inv h
  obtain ⟨anChunk, fi3⟩ := pAN
  try dsimp only at h
  obtain ⟨pNM, hnames, h⟩ := DR.bind_ok_inv h
  obtain ⟨self1, map1⟩ := pNM
  try dsimp only at h
  obtain ⟨pSB, _, h⟩ := DR.bind_ok_inv h
  obtain ⟨sbOpt, rd4⟩ := pSB
  try dsimp only at h
  obtain ⟨u1, _, h⟩ := DR.bind_ok_inv h
  try dsimp only at h
  obtain ⟨pPC, _, h⟩ := DR.bind_ok_inv h
  obtain ⟨patchChunk, rd5⟩ := pPC
  try dsimp only at h
  obtain ⟨pIC, _, h⟩ := DR.bind_ok_inv h
  obtain ⟨insChunkOpt, pc1⟩ := pIC
  try dsimp only at h
  obtain ⟨insContent, _, h⟩ := DR.bind_ok_inv h
  try dsimp only at h
  obtain ⟨pDC, _, h⟩ := DR.bind_ok_inv h
  obtain ⟨delChunkOpt, pc2⟩ := pDC
  try dsimp only at h
  obtain ⟨delContent, _, h⟩ := DR.bind_ok_inv h
  try dsimp only at h
  obtain ⟨pAA, _, h⟩ := DR.bind_ok_inv h
  obtain ⟨aaChunk, pc3⟩ := pAA
  try dsimp only at h
  obtain ⟨pASG, hasg, h⟩ := DR.bind_ok_inv h
  obtain ⟨self2, map2, aaLen⟩ := pASG
  try dsimp only at h
  obtain ⟨pPP, _, h⟩ := DR.bind_ok_inv h
  obtain ⟨ppChunk, pc4⟩ := pPP
  try dsimp only at h
  obtain ⟨pPT, hpat, h⟩ := DR.bind_ok_inv h
  obtain ⟨self3, insRem, delRem, patLen⟩ := pPT
  try dsimp only at h
  split at h
  · exact DR.noConfusion h
  rename_i hq1
  obtain ⟨u2, _, h⟩ := DR.bind_ok_inv h
  try dsimp only at h
  obtain ⟨pTD, _, h⟩ := DR.bind_ok_inv h
  obtain ⟨tdChunk, pc5⟩ := pTD
  try dsimp only at h
  obtain ⟨pHL, hhist, h⟩ := DR.bind_ok_inv h
  obtain ⟨self4, histLen⟩ := pHL
  try dsimp only at h
  split at h
  · exact DR.noConfusion h
  rename_i hq2
  have hr : self4 = r := by
    obtain ⟨pCR, _, h⟩ := DR.bind_ok_inv h
    obtain ⟨crcOpt, rd9⟩ := pCR
    try dsimp only at h
    cases crcOpt with
    | none =>
      simp only [DR.ok.injEq] at h
      exact h
    | some cr =>
      try dsimp only at h
      obtain ⟨pU32, _, h⟩ := DR.bind_ok_inv h
      obtain ⟨ec, rdA⟩ := pU32
      try dsimp only at h
      split at h
      · exact DR.noConfusion h
      · simp only [DR.ok.injEq] at h
        exact h
  subst hr
  obtain ⟨hN1, hN2, hN3⟩ :=
    readAgentNamesLoop_post (anChunk.length + 1) self [] anChunk self1 map1 hnames
  have hcc1 : cwlConsecutive 0 self1.client_with_lv = true := by
    rw [hN1]
    exact hcw
  have hfnt : OpLog.len self1 = sumSpanLens self.client_with_lv := by
    rw [len_eq_sum self1 hcc1, hN1]
  obtain ⟨spans, hA1, hA2, hA3, hA4, hA5⟩ :=
    readAssignmentLoop_post (aaChunk.length + 1) self1 map1 (OpLog.len self1)
      aaChunk self2 map2 aaLen hasg
  obtain ⟨ops, hP1, hP2, hP3, hP4⟩ :=
    readPatchesLoop_post (ppChunk.length + 1) self2 insContent delContent 0
      (OpLog.len self1) ppChunk self3 insRem delRem patLen hpat
  obtain ⟨entries, hH1, hH2, hH3, hH4, hH5⟩ :=
    readHistoryLoop_post (tdChunk.length + 1) self3 map2 (OpLog.len self1)
      tdChunk self4 histLen hhist
  have hq1a : aaLen = patLen := not_not.mp hq1
  have hq2a : histLen = patLen := not_not.mp hq2
  have hsum1 : sumSpanLens spans = sumOpLens ops := by omega
  have hsum2 : sumOpLens ops = sumHistLens entries := by omega
  have hcwl : self4.client_with_lv = self.client_with_lv ++ spans := by
    rw [hH4, hP3, hA1, hN1]
  have hops : self4.operations = self.operations ++ ops := by
    rw [hH5, hP1, hA4, hN2]
  have hhisteq : self4.history = self.history ++ entries := by
    rw [hH1, hP4, hA5, hN3]
  have hccR : cwlConsecutive 0 self4.client_with_lv = true := by
    rw [hcwl]
    apply cwlConsecutive_append _ _ 0 hcw
    rw [Nat.zero_add]
    rw [hfnt] at hA2
    exact hA2
  have hlenR : OpLog.len self4 = sumSpanLens self4.client_with_lv :=
    len_eq_sum self4 hccR
  have hsumR : sumSpanLens self4.client_with_lv =
      sumSpanLens self.client_with_lv + sumSpanLens spans := by
    rw [hcwl, sumSpanLens_append]
  have hsumOpsR : sumOpLens self4.operations =
      sumOpLens self.operations + sumOpLens ops := by
    rw [hops, sumOpLens_append]
  have hsumHR : sumHistLens self4.history =
      sumHistLens self.history + sumHistLens entries := by
    rw [hhisteq, sumHistLens_append]
  have hhsR : histSpansFrom 0 self4.history = true := by
    rw [hhisteq]
    apply histSpansFrom_append _ _ 0 hhs
    rw [Nat.zero_add]
    have hsh : sumHistLens self.history = OpLog.len self1 := by
      rw [hfnt, e1, e2]
    rw [hsh]
    exact hH2
  refine ⟨?_, ?_, ?_, ?_⟩
  · rw [hsumR, hsumOpsR]
    omega
  · rw [hsumOpsR, hsumHR]
    omega
  · exact hlenR
  · intro x
    rw [histSpansFrom_countP self4.history 0 hhsR x]
    have hfin : OpLog.len self4 = sumHistLens self4.history := by omega
    rw [hfin]
    simp only [Nat.zero_le, true_and, Nat.zero_add]

/-- Witness for C4: the full encode of the empty oplog decodes into the empty
oplog, and the coverage conclusion holds there. -/
theorem merge_data_history_coverage_witness :
    cwlConsecutive 0 OpLog.new.client_with_lv = true ∧
    histSpansFrom 0 OpLog.new.history = true ∧
    sumSpanLens OpLog.new.client_with_lv = sumOpLens OpLog.new.operations ∧
    sumOpLens OpLog.new.operations = sumHistLens OpLog.new.history ∧
    OpLog.new.mergeData (OpLog.new.encode true true) = DR.ok OpLog.new ∧
    OpLog.len OpLog.new = sumSpanLens OpLog.new.client_with_lv :=
  ⟨by rfl, by rfl, by rfl, by rfl, by rfl,
    (merge_data_history_coverage OpLog.new (OpLog.new.encode true true) OpLog.new
      (by rfl) (by rfl) (by rfl) (by rfl) (by rfl)).2.2.1⟩


/-! ### Claim C7: MarkerTree insert preserves the aggregate invariant. -/

theorem sumTextLens_append (a b : List Entry) :
    sumTextLens (a ++ b) = sumTextLens a + sumTextLens b := by
  induction a with
  | nil => simp [sumTextLens]
  | cons e tl ih =>
    simp only [List.cons_append, List.append_eq, sumTextLens, ih]
    omega

theorem sum_take_drop (es : List Entry) (k : Nat) :
    sumTextLens (es.take k) + sumTextLens (es.drop k) = sumTextLens es := by
  rw [← sumTextLens_append, List.take_append_drop]

theorem list_get_decomp {α : Type _} (l : List α) :
    ∀ (i : Nat) (x : α), l.get? i = some x → l = l.take i ++ x :: l.drop (i + 1) := by
  induction l with
  | nil =>
    intro i x h
    simp at h
  | cons a tl ih =>
    intro i x h
    cases i with
    | zero =>
      simp only [List.get?_cons_zero, Option.some.injEq] at h
      subst h
      simp
    | succ j =>
      simp only [List.get?_cons_succ] at h
      have hx := ih j x h
      simp only [List.take_succ_cons, List.drop_succ_cons, List.cons_append]
      rw [← hx]

theorem set_decomp {α : Type _} (l : List α) :
    ∀ (i : Nat) (x y : α), l.get? i = some x →
    l.set i y = l.take i ++ y :: l.drop (i + 1) := by
  induction l with
  | nil =>
    intro i x y h
    simp at h
  | cons a tl ih =>
    intro i x y h
    cases i with
    | zero => simp
    | succ j =>
      simp only [List.get?_cons_succ] at h
      simp only [List.set_cons_succ, List.take_succ_cons, List.drop_succ_cons,
        List.cons_append]
      rw [ih j x y h]

theorem sum_take_entry_drop (es : List Entry) (idx : Nat) (old : Entry)
    (hg : es.get? idx = some old) :
    sumTextLens es =
      sumTextLens (es.take idx) + old.getTextLen + sumTextLens (es.drop (idx + 1)) := by
  conv_lhs => rw [list_get_decomp es idx old hg]
  rw [sumTextLens_append]
  simp only [sumTextLens]
  omega

theorem textLen_mk (loc : CRDTLocation) (len : Nat) (h : 0 < len) :
    (Entry.mk loc (len : Int)).getTextLen = len := by
  unfold Entry.getTextLen
  dsimp only
  split_ifs <;> omega

theorem keep_split_textLen (e : Entry) (o : Nat) (h1 : 0 < o) (h2 : o < e.getSeqLen) :
    (e.keepStart o).getTextLen + (e.keepEnd o).getTextLen = e.getTextLen := by
  unfold Entry.getSeqLen at h2
  unfold Entry.keepStart Entry.keepEnd Entry.getTextLen
  dsimp only
  split_ifs <;> omega

theorem insertIntoLeaf_sum (es : List Entry) (idx offset len : Nat)
    (loc : CRDTLocation) (es2 : List Entry)
    (h : insertIntoLeaf es idx offset len loc = some es2) (hlen : 0 < len) :
    sumTextLens es2 = sumTextLens es + len := by
  unfold insertIntoLeaf at h
  by_cases h0 : idx = 0 ∧ es.length = 0
  · rw [if_pos h0] at h
    simp only [Option.some.injEq] at h
    subst h
    have hnil : es = [] := List.length_eq_zero.mp h0.2
    subst hnil
    simp only [sumTextLens, textLen_mk loc len hlen]
    omega
  · rw [if_neg h0] at h
    cases hg : es.get? idx with
    | some old =>
      rw [hg] at h
      dsimp only at h
      by_cases h1 : 0 < old.len ∧ old.len.toNat = offset ∧
          old.loc.client = loc.client ∧ old.loc.seq + old.len.toNat = loc.seq
      · rw [if_pos h1] at h
        obtain ⟨h11, _⟩ := h1
        simp only [Option.some.injEq] at h
        subst h
        rw [set_decomp es idx old (Entry.mk old.loc (old.len + (len : Int))) hg]
        rw [sumTextLens_append]
        simp only [sumTextLens]
        rw [sum_take_entry_drop es idx old hg]
        have htext : (Entry.mk old.loc (old.len + (len : Int))).getTextLen =
            old.getTextLen + len := by
          unfold Entry.getTextLen
          dsimp only
          split_ifs <;> omega
        rw [htext]
        omega
      · rw [if_neg h1] at h
        by_cases h2 : old.getSeqLen < offset
        · rw [if_pos h2] at h
          exact Option.noConfusion h
        · rw [if_neg h2] at h
          by_cases h3 : offset = old.getSeqLen
          · rw [if_pos h3] at h
            simp only [Option.some.injEq] at h
            subst h
            rw [sumTextLens_append]
            simp only [sumTextLens]
            rw [textLen_mk loc len hlen]
            have hs := sum_take_drop es (idx + 1)
            omega
          · rw [if_neg h3] at h
            by_cases h4 : offset = 0
            · rw [if_pos h4] at h
              simp only [Option.some.injEq] at h
              subst h
              rw [sumTextLens_append]
              simp only [sumTextLens]
              rw [textLen_mk loc len hlen]
              have hs := sum_take_drop es idx
              omega
            · rw [if_neg h4] at h
              simp only [Option.some.injEq] at h
              subst h
              rw [sumTextLens_append]
              simp only [sumTextLens]
              rw [textLen_mk loc len hlen]
              rw [sum_take_entry_drop es idx old hg]
              have hks := keep_split_textLen old offset (by omega) (by omega)
              omega
    | none =>
      rw [hg] at h
      dsimp only at h
      by_cases h1 : idx = es.length ∧ offset = 0
      · rw [if_pos h1] at h
        simp only [Option.some.injEq] at h
        subst h
        rw [sumTextLens_append]
        simp only [sumTextLens]
        rw [textLen_mk loc len hlen]
        omega
      · rw [if_neg h1] at h
        exact Option.noConfusion h

theorem totalChildren_append (a b : List (Nat × MNode)) :
    totalChildren (a ++ b) = totalChildren a + totalChildren b := by
  induction a with
  | nil => simp [totalChildren]
  | cons hd tl ih =>
    obtain ⟨n, c⟩ := hd
    simp only [List.cons_append, List.append_eq, totalChildren, ih]
    omega

theorem aggChildren_append (a b : List (Nat × MNode)) :
    aggChildren (a ++ b) = (aggChildren a && aggChildren b) := by
  induction a with
  | nil => simp [aggChildren]
  | cons hd tl ih =>
    obtain ⟨n, c⟩ := hd
    simp only [List.cons_append, List.append_eq, aggChildren, ih]
    simp [Bool.and_assoc]

theorem resChildren_total (r : InsRes) : totalChildren (resChildren r) = resTotal r := by
  cases r with
  | one n => simp [resChildren, totalChildren, resTotal]
  | two a b => simp [resChildren, totalChildren, resTotal]

theorem resChildren_agg (r : InsRes) (h : resAgg r = true) :
    aggChildren (resChildren r) = true := by
  cases r with
  | one n =>
    simp only [resAgg] at h
    simp [resChildren, aggChildren, h]
  | two a b =>
    simp only [resAgg, Bool.and_eq_true] at h
    simp [resChildren, aggChildren, h.1, h.2]

theorem splitLeaf_total (es : List Entry) : resTotal (splitLeaf es) = sumTextLens es := by
  unfold splitLeaf
  split_ifs with hx
  · simp [resTotal, MNode.total]
  · simp only [resTotal]
    have ha : MNode.total (.leaf (es.take (NUM_ENTRIES / 2))) =
        sumTextLens (es.take (NUM_ENTRIES / 2)) := by simp [MNode.total]
    have hb : MNode.total (.leaf (es.drop (NUM_ENTRIES / 2))) =
        sumTextLens (es.drop (NUM_ENTRIES / 2)) := by simp [MNode.total]
    rw [ha, hb, sum_take_drop]

theorem splitLeaf_agg (es : List Entry) : resAgg (splitLeaf es) = true := by
  unfold splitLeaf
  split_ifs <;> simp [resAgg, MNode.agg]

theorem insertNode_spec (path : List Nat) :
    ∀ (n : MNode) (idx offset len : Nat) (loc : CRDTLocation) (r : InsRes),
    insertNode n path idx offset len loc = some r →
    MNode.agg n = true → 0 < len →
    resTotal r = MNode.total n + len ∧ resAgg r = true := by
  induction path with
  | nil =>
    intro n idx offset len loc r h hagg hlen
    cases n with
    | leaf es =>
      simp only [insertNode] at h
      cases hg : insertIntoLeaf es idx offset len loc with
      | none =>
        rw [hg] at h
        simp at h
      | some es2 =>
        rw [hg] at h
        simp only [Option.map_some', Option.some.injEq] at h
        subst h
        have hsum := insertIntoLeaf_sum es idx offset len loc es2 hg hlen
        constructor
        · rw [splitLeaf_total es2]
          have h2 : MNode.total (.leaf es) = sumTextLens es := by simp [MNode.total]
          rw [h2]
          omega
        · exact splitLeaf_agg es2
    | internal cs =>
      simp only [insertNode] at h
      exact Option.noConfusion h
  | cons i path ih =>
    intro n idx offset len loc r h hagg hlen
    cases n with
    | leaf es =>
      simp only [insertNode] at h
      exact Option.noConfusion h
    | internal cs =>
      simp only [insertNode] at h
      cases hg : cs.get? i with
      | none =>
        rw [hg] at h
        simp at h
      | some p =>
        obtain ⟨nc, c⟩ := p
        rw [hg] at h
        try dsimp only at h
        cases hr : insertNode c path idx offset len loc with
        | none =>
          rw [hr] at h
          simp at h
        | some r0 =>
          rw [hr] at h
          try dsimp only at h
          simp only [Option.some.injEq] at h
          subst h
          have hdec := list_get_decomp cs i (nc, c) hg
          simp only [MNode.agg] at hagg
          rw [hdec, aggChildren_append] at hagg
          simp only [aggChildren, Bool.and_eq_true] at hagg
          obtain ⟨htake, ⟨⟨hc1, hc2⟩, hdrop⟩⟩ := hagg
          obtain ⟨ihT, ihA⟩ := ih c idx offset len loc r0 hr hc2 hlen
          have hallT : totalChildren (cs.take i ++ resChildren r0 ++ cs.drop (i + 1)) =
              MNode.total (.internal cs) + len := by
            rw [totalChildren_append, totalChildren_append, resChildren_total]
            have hcs : MNode.total (.internal cs) = totalChildren cs := by
              simp [MNode.total]
            rw [hcs]
            conv_rhs => rw [hdec]
            rw [totalChildren_append]
            simp only [totalChildren]
            omega
          have hallA : aggChildren (cs.take i ++ resChildren r0 ++ cs.drop (i + 1)) =
              true := by
            rw [aggChildren_append, aggChildren_append]
            simp only [Bool.and_eq_true]
            exact ⟨⟨htake, resChildren_agg r0 ihA⟩, hdrop⟩
          by_cases hov :
              (cs.take i ++ resChildren r0 ++ cs.drop (i + 1)).length ≤ NUM_ENTRIES
          · rw [if_pos hov]
            constructor
            · simp only [resTotal]
              have hone : MNode.total
                  (.internal (cs.take i ++ resChildren r0 ++ cs.drop (i + 1))) =
                  totalChildren (cs.take i ++ resChildren r0 ++ cs.drop (i + 1)) := by
                simp [MNode.total]
              rw [hone, hallT]
            · simp only [resAgg]
              have hone : MNode.agg
                  (.internal (cs.take i ++ resChildren r0 ++ cs.drop (i + 1))) =
                  aggChildren (cs.take i ++ resChildren r0 ++ cs.drop (i + 1)) := by
                simp [MNode.agg]
              rw [hone, hallA]
          · rw [if_neg hov]
            constructor
            · simp only [resTotal]
              have ht1 : MNode.total (.internal
                  ((cs.take i ++ resChildren r0 ++ cs.drop (i + 1)).take
                    (NUM_ENTRIES / 2))) =
                  totalChildren ((cs.take i ++ resChildren r0 ++ cs.drop (i + 1)).take
                    (NUM_ENTRIES / 2)) := by
                simp [MNode.total]
              have ht2 : MNode.total (.internal
                  ((cs.take i ++ resChildren r0 ++ cs.drop (i + 1)).drop
                    (NUM_ENTRIES / 2))) =
                  totalChildren ((cs.take i ++ resChildren r0 ++ cs.drop (i + 1)).drop
                    (NUM_ENTRIES / 2)) := by
                simp [MNode.total]
              rw [ht1, ht2, ← totalChildren_append, List.take_append_drop, hallT]
            · simp only [resAgg]
              have hsp := aggChildren_append
                ((cs.take i ++ resChildren r0 ++ cs.drop (i + 1)).take (NUM_ENTRIES / 2))
                ((cs.take i ++ resChildren r0 ++ cs.drop (i + 1)).drop (NUM_ENTRIES / 2))
              rw [List.take_append_drop, hallA] at hsp
              have hsp2 := hsp.symm
              rw [Bool.and_eq_true] at hsp2
              have hg1 : MNode.agg (.internal
                  ((cs.take i ++ resChildren r0 ++ cs.drop (i + 1)).take
                    (NUM_ENTRIES / 2))) =
                  aggChildren ((cs.take i ++ resChildren r0 ++ cs.drop (i + 1)).take
                    (NUM_ENTRIES / 2)) := by
                simp [MNode.agg]
              have hg2 : MNode.agg (.internal
                  ((cs.take i ++ resChildren r0 ++ cs.drop (i + 1)).drop
                    (NUM_ENTRIES / 2))) =
                  aggChildren ((cs.take i ++ resChildren r0 ++ cs.drop (i + 1)).drop
                    (NUM_ENTRIES / 2)) := by
                simp [MNode.agg]
              rw [hg1, hg2, hsp2.1, hsp2.2]
              rfl

/-- C7: for every tree satisfying the aggregate invariant (`check`: the root
count equals the recursive total and every internal node's cached per-child
count equals that child's recursive text-length sum) and every successful
insert of an entry of positive length `len` at a cursor, `MarkerTree::insert`
increases the tree's total count by exactly `len` and preserves the invariant. -/
theorem marker_tree_insert_preserves (tr : MarkerTree) (cur : MCursor)
    (len : Nat) (loc : CRDTLocation) (tr2 : MarkerTree)
    (hwf : tr.wf = true) (hlen : 0 < len)
    (h : tr.insert cur len loc = some tr2) :
    tr2.count = tr.count + len ∧ tr2.wf = true := by
  unfold MarkerTree.insert at h
  simp only [MarkerTree.wf, Bool.and_eq_true, beq_iff_eq] at hwf
  obtain ⟨hcnt, hagg⟩ := hwf
  cases hres : insertNode tr.root cur.path cur.idx cur.offset len loc with
  | none =>
    rw [hres] at h
    exact Option.noConfusion h
  | some r =>
    rw [hres] at h
    obtain ⟨hT, hA⟩ :=
      insertNode_spec cur.path tr.root cur.idx cur.offset len loc r hres hagg hlen
    cases r with
    | one n =>
      simp only [Option.some.injEq] at h
      subst h
      refine ⟨rfl, ?_⟩
      simp only [MarkerTree.wf, Bool.and_eq_true, beq_iff_eq]
      simp only [resTotal] at hT
      simp only [resAgg] at hA
      refine ⟨?_, hA⟩
      try dsimp only
      omega
    | two a b =>
      simp only [Option.some.injEq] at h
      subst h
      refine ⟨rfl, ?_⟩
      simp only [MarkerTree.wf, Bool.and_eq_true, beq_iff_eq]
      simp only [resTotal] at hT
      simp only [resAgg, Bool.and_eq_true] at hA
      constructor
      · dsimp only
        simp only [MNode.total, totalChildren]
        omega
      · dsimp only
        simp only [MNode.agg, aggChildren]
        simp [hA.1, hA.2]

/-- Witness for C7: inserting 3 characters into the empty tree. -/
theorem marker_tree_insert_preserves_witness :
    MarkerTree.wf (MarkerTree.mk 0 (MNode.leaf [])) = true ∧
    (0 : Nat) < 3 ∧
    MarkerTree.insert (MarkerTree.mk 0 (MNode.leaf [])) (MCursor.mk [] 0 0) 3
      (CRDTLocation.mk 5 0) =
      some (MarkerTree.mk 3 (MNode.leaf [Entry.mk (CRDTLocation.mk 5 0) (3 : Int)])) ∧
    ((MarkerTree.mk 3 (MNode.leaf [Entry.mk (CRDTLocation.mk 5 0) (3 : Int)])).count =
        (MarkerTree.mk 0 (MNode.leaf [])).count + 3 ∧
      (MarkerTree.mk 3
        (MNode.leaf [Entry.mk (CRDTLocation.mk 5 0) (3 : Int)])).wf = true) :=
  ⟨by simp [MarkerTree.wf, MNode.total, MNode.agg, sumTextLens], by decide,
    by simp [MarkerTree.insert, insertNode, insertIntoLeaf, splitLeaf, NUM_ENTRIES],
    marker_tree_insert_preserves (MarkerTree.mk 0 (MNode.leaf []))
      (MCursor.mk [] 0 0) 3 (CRDTLocation.mk 5 0)
      (MarkerTree.mk 3 (MNode.leaf [Entry.mk (CRDTLocation.mk 5 0) (3 : Int)]))
      (by simp [MarkerTree.wf, MNode.total, MNode.agg, sumTextLens]) (by decide)
      (by simp [MarkerTree.insert, insertNode, insertIntoLeaf, splitLeaf, NUM_ENTRIES])⟩


end DT
